import Mathlib

/-!
chemcheck: span validation for title/abstract annotations.

A shallow embedding of `src/chemcheck.c` and theorems about it.

Conventions of the embedding.

* A C string (`char*`) is the list of the bytes of its buffer, without the
  terminating NUL: the buffer of a string `s` has `s.length + 1` bytes and
  the byte at index `s.length` is `0`.  Bytes are natural numbers; the
  loops of the program stop at the first `0` byte exactly as in C.
* Values of type `int` and `long` are integers.  `atol` and `atoi` return
  what glibc returns on a machine with 64-bit `long` and 32-bit `int`:
  `strtol` saturates at `LONG_MAX` and `LONG_MIN`, and `atoi` keeps the low
  32 bits of that.  Sums and differences of `int`s in `check` are computed
  exactly; they stay in the range of `int` unless `end - start` or
  `end - 1` leaves it, which is undefined behaviour in C and not modelled.
* A read outside a buffer, a read through a `NULL` pointer and a `free` of
  a pointer that `malloc` did not return are undefined behaviour in C.
  The embedding makes each a `Fault`: execution stops there and the fault
  is the result.
* A pointer into a `malloc` block is the string it points to together
  with its distance from the start of the block (`quote_lead`,
  `class_lead`): `trim` returns a pointer past the leading whitespace.
* The calls of `g_debug`, `g_message` and `g_warning` and the indexed reads
  of `offsets[..]` and `text[..]` are recorded, in program order, in a
  trace of `Event`s.
* The tokenizer (libcsv) is not part of the program: a line of the
  annotation file comes with the fields the tokenizer reports for it, and
  every line holds one complete row.
* `getline` is the one of glibc; what a buffer holds that it has allocated
  and not written is a parameter (`AnnStream.fresh`).
-/

namespace Chemcheck

/-! ## C library functions used by the program -/

/-- The function `isspace` of the C library in the "C" locale (the program
never calls `setlocale`): space, `\t`, `\n`, `\v`, `\f`, `\r`. -/
def isspace (b : Nat) : Bool :=
  b == 32 || (9 ≤ b && b ≤ 13)

/-- The function `isdigit` of the C library. -/
def isdigit (b : Nat) : Bool :=
  48 ≤ b && b ≤ 57

/-- The bytes of a buffer up to its first NUL: the C string it holds. -/
def cstr : List Nat → List Nat
  | [] => []
  | b :: rest => if b = 0 then [] else b :: cstr rest

/-- The function `strlen` of the C library. -/
def strlen (s : List Nat) : Nat :=
  (cstr s).length

/-- The digits loop of `atol`: accumulate decimal digits, stop at the first
byte that is not a digit. -/
def atolDigits : List Nat → Int → Int
  | [], acc => acc
  | b :: rest, acc => if isdigit b then atolDigits rest (acc * 10 + (b - 48 : Nat)) else acc

/-- The number `strtol(s, NULL, 10)` reads, before the range of `long` is
applied: skip leading whitespace, read an optional sign, then decimal
digits; `0` when there is no digit. -/
def decimalValue (s : List Nat) : Int :=
  match (cstr s).dropWhile isspace with
  | 45 :: rest => - atolDigits rest 0
  | 43 :: rest => atolDigits rest 0
  | rest => atolDigits rest 0

/-- The constant `LONG_MAX` for a 64-bit `long`. -/
def LONG_MAX : Int := 9223372036854775807

/-- The constant `LONG_MIN` for a 64-bit `long`. -/
def LONG_MIN : Int := -9223372036854775808

/-- The function `atol` of glibc, `strtol(s, NULL, 10)`: a number outside
the range of `long` gives `LONG_MAX` or `LONG_MIN`. -/
def atol (s : List Nat) : Int :=
  if decimalValue s > LONG_MAX then LONG_MAX
  else if decimalValue s < LONG_MIN then LONG_MIN
  else decimalValue s

/-- The function `atoi` of glibc, `(int) strtol(s, NULL, 10)`: the
conversion to a 32-bit `int` keeps the low 32 bits (two's complement). -/
def atoi (s : List Nat) : Int :=
  (atol s + 2147483648) % 4294967296 - 2147483648

/-! ## Memory reads -/

/-- The read `offsets[i]` of an `int` array holding the entries `offsets`. -/
def readOffsets (offsets : List Int) (i : Int) : Option Int :=
  if 0 ≤ i then offsets.get? i.toNat else none

/-- The read `text[idx]` of a string buffer: the bytes of `text`, then the
terminating NUL at index `text.length`. -/
def readText (text : List Nat) (idx : Int) : Option Nat :=
  if idx < 0 then none
  else if idx.toNat < text.length then text.get? idx.toNat
  else if idx.toNat = text.length then some 0
  else none

/-! ## utf8strlen and utf8offsets (lines 88-108) -/

/-- The test `(utf8[i] & 0xC0) != 0x80`: the byte is not a UTF-8
continuation byte. -/
def isStart (b : Nat) : Bool :=
  (b &&& 0xC0) != 0x80

/-- The loop of `utf8strlen`: the bytes still to read and the counter `j`. -/
def utf8strlenLoop : List Nat → Nat → Nat
  | [], j => j
  | b :: rest, j =>
    if b = 0 then j
    else if isStart b then utf8strlenLoop rest (j + 1)
    else utf8strlenLoop rest j

/-- The function `utf8strlen`. -/
def utf8strlen (utf8 : List Nat) : Nat :=
  utf8strlenLoop utf8 0

/-- The loop of `utf8offsets`: the bytes still to read, the index `i` of the
next byte, the counter `j` and the array; `offsets[j++] = i` is `set`, and
the loop ends with `offsets[j] = i` at the first NUL. -/
def utf8offsetsLoop : List Nat → Int → Nat → List Int → List Int
  | [], i, j, offsets => offsets.set j i
  | b :: rest, i, j, offsets =>
    if b = 0 then offsets.set j i
    else if isStart b then utf8offsetsLoop rest (i + 1) (j + 1) (offsets.set j i)
    else utf8offsetsLoop rest (i + 1) j offsets

/-- The function `utf8offsets`: the array is allocated with
`utf8strlen(utf8) + 1` entries (shown here as zeros) and filled by the
loop. -/
def utf8offsets (utf8 : List Nat) : List Int :=
  utf8offsetsLoop utf8 0 0 (List.replicate (utf8strlen utf8 + 1) 0)

/-- The function `trim` on strings: skip leading whitespace; if the rest is
empty return it; else move `end` back from the last byte while
`end > str` and the byte is whitespace, and cut after `end`. -/
def trim (str : List Nat) : List Nat :=
  match (cstr str).dropWhile isspace with
  | [] => []
  | b :: rest => b :: (rest.reverse.dropWhile isspace).reverse

/-- How far `trim` moves the pointer: the number of leading whitespace
bytes of the string (line 116). -/
def trimLead (str : List Nat) : Nat :=
  ((cstr str).takeWhile isspace).length

/-! ## Data model (lines 61-86) -/

/-- The struct `offset`: one recorded span. -/
structure offset where
  section_ : Nat
  start : Int
  end_ : Int
  deriving DecidableEq, Repr

/-- The struct `citation`, without the file handle, the stored line and the
parser (`ann_file`, `ann_line`, `ann_parser`), which belong to the reading
loop.  `quote` and `class` are pointers that may be `NULL` (`none`);
`quote_lead` and `class_lead` say how many bytes past the start of its
`malloc` block each of them points (`0` for `NULL`). -/
structure citation where
  flag : Bool
  id : Int
  title : List Nat
  toffsets : List Int
  abstract : List Nat
  aoffsets : List Int
  offset_list : List offset
  quote : Option (List Nat)
  class_ : Option (List Nat)
  section_ : Nat
  start : Int
  end_ : Int
  quote_lead : Nat := 0
  class_lead : Nat := 0
  deriving DecidableEq, Repr

/-! ## Faults, log events and verdicts -/

/-- Undefined behaviour the embedding detects. -/
inductive Fault where
  | nullQuote
  | offsetsOOB (i : Int)
  | textOOB (idx : Int)
  | invalidFree
  | nullText
  | fuel
  deriving DecidableEq, Repr

/-- The GLib log levels the program uses. -/
inductive Severity where
  | debug
  | message
  | warning
  | critical
  | error
  deriving DecidableEq, Repr

/-- The log calls of `check`, one constructor per call site. -/
inductive Site where
  | trimLead (i idx : Int)
  | trimTrail (i idx : Int)
  | lengthMismatch (qlen tlen : Int)
  | byteMismatch (i : Nat) (q t : Nat)
  | comparing (off : offset)
  | duplicate
  | head (off : offset)
  | tail (off : offset)
  | body (off : offset)
  deriving DecidableEq, Repr

/-- One observable step of `check`. -/
inductive Event where
  | offsetsRead (i : Int)
  | textRead (idx : Int)
  | log (sev : Severity) (site : Site)
  deriving DecidableEq, Repr

/-- Why `check` returned `false`. -/
inductive Reject where
  | length
  | content
  | duplicate
  | head
  | tail
  | body
  deriving DecidableEq, Repr

/-- The result of `check`: `true`, `false` (with the branch that returned
it), or undefined behaviour. -/
inductive Verdict where
  | accept
  | reject (why : Reject)
  | fault (f : Fault)
  deriving DecidableEq, Repr

/-- What a call of `check` leaves behind: its result, the citation with the
span as `check` altered it, and the trace. -/
structure Outcome where
  verdict : Verdict
  c : citation
  trace : List Event
  deriving DecidableEq, Repr

/-! ## check (lines 132-243) -/

/-- The first loop of `check` (lines 149-157),
`for (i = c->start; i < c->end; i++)`: returns the value of `i` at the exit
of the loop.  `fuel` bounds the number of iterations; running out of it
while the loop condition still holds is the fault `fuel`. -/
def trimLeadLoop (text : List Nat) (offsets : List Int) (c_end : Int) :
    Nat → Int → Except Fault Int × List Event
  | 0, i => if i < c_end then (.error .fuel, []) else (.ok i, [])
  | fuel + 1, i =>
    if i < c_end then
      match readOffsets offsets i with
      | none => (.error (.offsetsOOB i), [.offsetsRead i])
      | some idx =>
        match readText text idx with
        | none => (.error (.textOOB idx), [.offsetsRead i, .textRead idx])
        | some b =>
          if !isspace b then (.ok i, [.offsetsRead i, .textRead idx])
          else
            let r := trimLeadLoop text offsets c_end fuel (i + 1)
            (r.1, [.offsetsRead i, .textRead idx, .log .debug (.trimLead i idx)] ++ r.2)
    else (.ok i, [])

/-- The second loop of `check` (lines 160-168),
`for (i = c->end - 1; i >= c->start; i--)`: returns the value of `i` at the
exit of the loop. -/
def trimTrailLoop (text : List Nat) (offsets : List Int) (c_start : Int) :
    Nat → Int → Except Fault Int × List Event
  | 0, i => if i ≥ c_start then (.error .fuel, []) else (.ok i, [])
  | fuel + 1, i =>
    if i ≥ c_start then
      match readOffsets offsets i with
      | none => (.error (.offsetsOOB i), [.offsetsRead i])
      | some idx =>
        match readText text idx with
        | none => (.error (.textOOB idx), [.offsetsRead i, .textRead idx])
        | some b =>
          if !isspace b then (.ok i, [.offsetsRead i, .textRead idx])
          else
            let r := trimTrailLoop text offsets c_start fuel (i - 1)
            (r.1, [.offsetsRead i, .textRead idx, .log .debug (.trimTrail i idx)] ++ r.2)
    else (.ok i, [])

/-- The trim step of `check` (lines 148-170): both loops and the two
assignments `c->start = i` and `c->end = i + 1`; returns the new
`(start, end)`. -/
def checkTrim (text : List Nat) (offsets : List Int) (start end_ : Int) :
    Except Fault (Int × Int) × List Event :=
  let r1 := trimLeadLoop text offsets end_ (end_ - start).toNat start
  match r1.1 with
  | .error f => (.error f, r1.2)
  | .ok s =>
    let r2 := trimTrailLoop text offsets s (end_ - s).toNat (end_ - 1)
    match r2.1 with
    | .error f => (.error f, r1.2 ++ r2.2)
    | .ok i => (.ok (s, i + 1), r1.2 ++ r2.2)

/-- The byte comparison loop of `check` (lines 186-195),
`for (i = 0; i < qlen; ++i)` with `qlen = strlen(quote)`: `fuel` is the
number of bytes left to compare.  `quote[i]` is inside the quote, as
`i < strlen(quote)`. -/
def contentLoop (quote text : List Nat) (idx : Int) : Nat → Nat → Verdict × List Event
  | 0, _ => (.accept, [])
  | fuel + 1, i =>
    match readText text (idx + i) with
    | none => (.fault (.textOOB (idx + i)), [.textRead (idx + i)])
    | some t =>
      if quote.getD i 0 ≠ t then
        (.reject .content,
          [.textRead (idx + i), .log .warning (.byteMismatch i (quote.getD i 0) t)])
      else
        let r := contentLoop quote text idx fuel (i + 1)
        (r.1, .textRead (idx + i) :: r.2)

/-- The overlap loop of `check` (lines 198-240) over the list cells from
`item` on; `s` and `e` are `c->start` and `c->end`. -/
def overlapLoop (sec : Nat) (s e : Int) : List offset → Verdict × List Event
  | [] => (.accept, [])
  | off :: rest =>
    if off.section_ = sec then
      if s = off.start ∧ e = off.end_ then
        (.reject .duplicate, [.log .debug (.comparing off), .log .message .duplicate])
      else if s ≤ off.start ∧ e ≥ off.start then
        (.reject .head, [.log .debug (.comparing off), .log .warning (.head off)])
      else if s ≤ off.end_ ∧ e ≥ off.end_ then
        (.reject .tail, [.log .debug (.comparing off), .log .warning (.tail off)])
      else if s ≥ off.start ∧ e ≤ off.end_ then
        (.reject .body, [.log .debug (.comparing off), .log .warning (.body off)])
      else
        let r := overlapLoop sec s e rest
        (r.1, .log .debug (.comparing off) :: r.2)
    else overlapLoop sec s e rest

/-- The text `check` selects (lines 135, 142-146): the abstract for section
`'A'`, the title for every other section byte. -/
def sectionText (c : citation) : List Nat :=
  if c.section_ = 65 then c.abstract else c.title

/-- The offset table `check` selects (lines 136, 142-146). -/
def sectionOffsets (c : citation) : List Int :=
  if c.section_ = 65 then c.aoffsets else c.toffsets

/-- The function `check`.  `item` starts at `g_slist_next(c->offset_list)`,
the second cell of the list (`NULL` for a list of at most one cell). -/
def check (c : citation) : Outcome :=
  match c.quote with
  | none => ⟨.fault .nullQuote, c, []⟩
  | some quote =>
    let qlen : Int := utf8strlen quote
    let item := c.offset_list.tail
    let text := sectionText c
    let offsets := sectionOffsets c
    let t := checkTrim text offsets c.start c.end_
    match t.1 with
    | .error f => ⟨.fault f, c, t.2⟩
    | .ok (s, e) =>
      let c1 := { c with start := s, end_ := e }
      let tlen := e - s
      if qlen ≠ tlen then
        ⟨.reject .length, c1, t.2 ++ [.log .warning (.lengthMismatch qlen tlen)]⟩
      else
        match readOffsets offsets s with
        | none => ⟨.fault (.offsetsOOB s), c1, t.2 ++ [.offsetsRead s]⟩
        | some idx =>
          let m := contentLoop quote text idx (strlen quote) 0
          match m.1 with
          | .accept =>
            let o := overlapLoop c.section_ s e item
            ⟨o.1, c1, t.2 ++ [.offsetsRead s] ++ m.2 ++ o.2⟩
          | v => ⟨v, c1, t.2 ++ [.offsetsRead s] ++ m.2⟩

/-! ## annrow and anncol (lines 245-328) -/

/-- The arguments of the `printf` of `annrow` (line 251), in order: one
output line `id \t section \t start \t end \t quote \t class`. -/
structure OutLine where
  id : Int
  section_ : Nat
  start : Int
  end_ : Int
  quote : Option (List Nat)
  class_ : Option (List Nat)
  deriving DecidableEq, Repr

/-- What a call of `annrow` leaves behind: the citation, the lines printed
(none or one), the spans appended to `offset_list` (none or one), the
result and trace of its call of `check`, and the undefined behaviour, if
any, of its two calls of `free` (lines 260 and 262). -/
structure RowResult where
  c : citation
  printed : List OutLine
  recorded : List offset
  verdict : Verdict
  trace : List Event
  stop : Option Fault
  deriving DecidableEq, Repr

/-- The function `annrow`: print the line if `check` returns true; then, in
either case, append the span (as `check` left it) to `offset_list`, free
`quote` and `class` and clear the fields of the row.  Undefined behaviour
in `check` stops the program: nothing is printed or recorded.  The calls
`free(c->quote)` and `free(c->class)` are undefined behaviour when the
pointer lies past the start of its block, which is where `trim` leaves it
for a field with leading whitespace; `free(NULL)` does nothing. -/
def annrow (c : citation) : RowResult :=
  let r := check c
  match r.verdict with
  | .fault f => ⟨r.c, [], [], .fault f, r.trace, none⟩
  | v =>
    let c1 := r.c
    let printed : List OutLine :=
      if v = .accept then [⟨c1.id, c1.section_, c1.start, c1.end_, c1.quote, c1.class_⟩] else []
    let off : offset := ⟨c1.section_, c1.start, c1.end_⟩
    ⟨{ c1 with offset_list := c1.offset_list ++ [off], quote := none, class_ := none,
               section_ := 0, start := -1, end_ := -1, quote_lead := 0, class_lead := 0 },
      printed, [off], v, r.trace,
      if c1.quote_lead ≠ 0 ∨ c1.class_lead ≠ 0 then some .invalidFree else none⟩

/-- The calls of `g_error` in `anncol`: they abort the program. -/
inductive Fatal where
  | illegalSection
  | unknownValue
  deriving DecidableEq, Repr

/-- The buffer `string` of `anncol` after `strncpy(string, val, len)`:
the bytes of the field up to its first NUL, then zeros. -/
def strncpy (val : List Nat) : List Nat :=
  cstr val ++ List.replicate (val.length - (cstr val).length) 0

/-- Why the processing of annotation rows stopped. -/
inductive Stop where
  | fatal (f : Fatal)
  | fault (f : Fault)
  deriving DecidableEq, Repr

/-- The function `anncol`, called with one field `val` of `len` bytes.  In
the section branch `string = trim(string)` precedes `free(string)` (lines
285 and 295): the `free` is undefined behaviour when `trim` has moved the
pointer, that is for a one-byte field holding a whitespace byte (a field
of another length reaches `g_error` first).  The start and end fields are
read with `atoi`, the id test uses `atol`. -/
def anncol (val : List Nat) (c : citation) : Except Stop citation :=
  let len := val.length
  let string := strncpy val
  if atol string = c.id then .ok c
  else if c.section_ = 0 then
    let lead := trimLead string
    let string := trim string
    if len = 1 ∧ (string.headD 0 ≠ 65 ∨ string.headD 0 ≠ 84) then
      if lead ≠ 0 then .error (.fault .invalidFree)
      else .ok { c with section_ := string.headD 0 }
    else .error (.fatal .illegalSection)
  else if c.start = -1 then
    let v := atoi string
    if v = 0 ∧ (len > 1 ∨ string.headD 0 ≠ 48) then .ok { c with start := -2 }
    else .ok { c with start := v }
  else if c.end_ = -1 then
    let v := atoi string
    if v = 0 ∧ (len > 1 ∨ string.headD 0 ≠ 48) then .ok { c with end_ := -2 }
    else .ok { c with end_ := v }
  else if c.quote = none then
    .ok { c with quote := some (trim string), quote_lead := trimLead string }
  else if c.class_ = none then
    .ok { c with class_ := some (trim string), class_lead := trimLead string }
  else .error (.fatal .unknownValue)

/-- The field callbacks of one row: `anncol` on each field, in order. -/
def anncols : List (List Nat) → citation → Except Stop citation
  | [], c => .ok c
  | val :: rest, c =>
    match anncol val c with
    | .error f => .error f
    | .ok c1 => anncols rest c1

/-- One call `csv_parse(c->ann_parser, line, bytes, anncol, annrow, c)` of
`txtrow` (line 399) on a line whose tab-separated fields are `fields`:
the tokenizer calls `anncol` on each field, then `annrow`. -/
def csvRow (fields : List (List Nat)) (c : citation) : Except Stop RowResult :=
  match anncols fields c with
  | .error e => .error e
  | .ok c1 =>
    let r := annrow c1
    match r.verdict with
    | .fault f => .error (.fault f)
    | _ =>
      match r.stop with
      | some f => .error (.fault f)
      | none => .ok r

/-- The rows of one document, processed in order as the loop of `txtrow`
(lines 398-406) does for the lines of the current document; returns the
final citation and the result of each row. -/
def csvRows : List (List (List Nat)) → citation → Except Stop (citation × List RowResult)
  | [], c => .ok (c, [])
  | row :: rest, c =>
    match csvRow row c with
    | .error e => .error e
    | .ok r =>
      match csvRows rest r.c with
      | .error e => .error e
      | .ok (c2, rs) => .ok (c2, r :: rs)

/-- The citation when `txtrow` enters its loop (line 398) for the document
row `id \t title \t abstract`: `txtcol` has stored the three fields and set
`start` and `end` to `-1` (lines 339-371); `txtrow` has emptied
`offset_list` and built both offset tables (lines 385, 395-396); `section`,
`quote` and `class` are cleared, as `citation c = {}` and every `annrow`
leave them. -/
def document (id : Int) (title abstract : List Nat) : citation :=
  { flag := true, id := id, title := title, toffsets := utf8offsets title,
    abstract := abstract, aoffsets := utf8offsets abstract, offset_list := [],
    quote := none, class_ := none, section_ := 0, start := -1, end_ := -1 }

/-- The bytes of an ASCII string literal. -/
def bytes (s : String) : List Nat :=
  s.toList.map Char.toNat

/-- The row results of a run of `csvRows` (none if the run stopped). -/
def rowResults (r : Except Stop (citation × List RowResult)) : List RowResult :=
  match r with
  | .error _ => []
  | .ok (_, rs) => rs

/-- The citation at the end of a run of `csvRows` (`c0` if the run
stopped). -/
def finalCitation (r : Except Stop (citation × List RowResult)) (c0 : citation) : citation :=
  match r with
  | .error _ => c0
  | .ok (c, _) => c

/-- The results of `check` in a run of `csvRows`, row by row. -/
def verdicts (r : Except Stop (citation × List RowResult)) : List Verdict :=
  match r with
  | .error _ => []
  | .ok (_, rs) => rs.map (fun r => r.verdict)

/-- The list `offset_list` at the end of a run of `csvRows`. -/
def recordedSpans (r : Except Stop (citation × List RowResult)) : List offset :=
  match r with
  | .error _ => []
  | .ok (c, _) => c.offset_list

/-- All lines printed by a run of `csvRows`. -/
def printedLines (r : Except Stop (citation × List RowResult)) : List OutLine :=
  match r with
  | .error _ => []
  | .ok (_, rs) => rs.flatMap (fun r => r.printed)

/-! ## Definitions used to state the properties -/

/-- The entries `utf8offsets` writes, listed in the order of the writes:
the index of every byte that starts a character, then the index of the
first NUL. -/
def offsetsFrom : List Nat → Int → List Int
  | [], i => [i]
  | b :: rest, i =>
    if b = 0 then [i]
    else if isStart b then i :: offsetsFrom rest (i + 1)
    else offsetsFrom rest (i + 1)

/-- The top two bits of the byte `b` are `10`. -/
def topBitsTen (b : Nat) : Bool :=
  b / 64 == 2

/-- The UTF-8 encoding of a text given as its sequence of Unicode
characters: the bytes of `String.toUTF8`, as natural numbers. -/
def utf8 (cs : List Char) : List Nat :=
  (cs.flatMap String.utf8EncodeChar).map UInt8.toNat

/-- The table the specification describes for a text: the byte index where
each character begins, then the byte length; `i` is the byte index of the
first character. -/
def charStarts : List Char → Int → List Int
  | [], i => [i]
  | c :: cs, i => i :: charStarts cs (i + c.utf8Size)

/-- The byte `text[offsets[k]]` the trim loops test for character `k`. -/
def byteAt (text : List Nat) (offsets : List Int) (k : Int) : Option Nat :=
  (readOffsets offsets k).bind (readText text)

/-- Character `k` begins with a whitespace byte. -/
def wsAt (text : List Nat) (offsets : List Int) (k : Int) : Prop :=
  ∃ b, byteAt text offsets k = some b ∧ isspace b = true

/-- Character `k` begins with a byte that is not whitespace. -/
def nonWsAt (text : List Nat) (offsets : List Int) (k : Int) : Prop :=
  ∃ b, byteAt text offsets k = some b ∧ isspace b = false

/-- The four rules of the overlap check (duplicate, head, tail, body) on a
candidate range `s`, `e` and a recorded span: some rule matches. -/
def ruleOverlap (s e : Int) (off : offset) : Prop :=
  (s = off.start ∧ e = off.end_) ∨ (s ≤ off.start ∧ e ≥ off.start)
    ∨ (s ≤ off.end_ ∧ e ≥ off.end_) ∨ (s ≥ off.start ∧ e ≤ off.end_)

instance (s e : Int) (off : offset) : Decidable (ruleOverlap s e off) := by
  unfold ruleOverlap
  infer_instance

/-- The bytes of the quote equal the bytes of the text from byte `idx` on,
for `strlen(quote)` bytes. -/
def bytesMatch (quote text : List Nat) (idx : Int) : Prop :=
  ∀ i, i < strlen quote → readText text (idx + (i : Nat)) = some (quote.getD i 0)

instance (quote text : List Nat) (idx : Int) : Decidable (bytesMatch quote text idx) := by
  unfold bytesMatch
  infer_instance

/-- The spans of the lines printed by a run of rows: the spans `check`
accepted, in order. -/
def acceptedSpans (rs : List RowResult) : List offset :=
  (rs.flatMap (fun r => r.printed)).map (fun l => ⟨l.section_, l.start, l.end_⟩)

/-- The citation `anncol` has filled with the fields of one candidate. -/
def withCandidate (c : citation) (sec : Nat) (start end_ : Int) (quote cls : List Nat) :
    citation :=
  { c with section_ := sec, start := start, end_ := end_, quote := some quote,
           class_ := some cls }

/-- The spans accepted in a run of `csvRows`. -/
def acceptedIn (r : Except Stop (citation × List RowResult)) : List offset :=
  match r with
  | .error _ => []
  | .ok (_, rs) => acceptedSpans rs

/-- The title of the example document of the specification. -/
def catTitle : List Nat := bytes "The cat sat."

/-- The abstract of the example document of the specification. -/
def catAbstract : List Nat := bytes "A short abstract."

/-! ## txtrow and the reading loop (lines 330-456) -/

/-- One line of the annotation file: the bytes `getline` returns for it
(without NUL) and the fields the tokenizer (libcsv, not part of the
program) reports for it through `anncol` before it calls `annrow`. -/
structure AnnLine where
  line : List Nat
  fields : List (List Nat)
  deriving DecidableEq, Repr

/-- The part of the struct `citation` the reading loop owns: the lines of
`ann_file` not yet read and the stored line `ann_line` (`none` is `NULL`).
`fresh` is what a buffer holds that `getline` has allocated and not
written: C leaves it unspecified, and it is a parameter here. -/
structure AnnStream where
  ann_file : List AnnLine
  ann_line : Option AnnLine
  fresh : AnnLine
  deriving DecidableEq, Repr

/-- The local variables `bytes`, `line` and `chars` of `txtrow`, with the
citation and the unread lines of the file. -/
structure LoopState where
  c : citation
  bytes : Int
  line : Option AnnLine
  chars : Nat
  file : List AnnLine
  deriving DecidableEq, Repr

/-- The call `bytes = getline(&line, &chars, c->ann_file)` as glibc
implements it: a buffer is allocated when `line` is `NULL` or `chars` is
`0`; at end of file the result is `-1` and the buffer is left as it is;
otherwise the next line is stored in the buffer and its length returned. -/
def getline (fresh : AnnLine) (s : LoopState) : LoopState :=
  let line1 := if s.line = none ∨ s.chars = 0 then some fresh else s.line
  let chars1 := if s.line = none ∨ s.chars = 0 then 120 else s.chars
  match s.file with
  | [] => { s with bytes := -1, line := line1, chars := chars1 }
  | l :: rest =>
    { s with bytes := l.line.length, line := some l,
             chars := max chars1 (l.line.length + 1), file := rest }

/-- The condition of the loop of `txtrow` (line 398):
`bytes != -1 && line && atol(line) == c->id`. -/
def loopCond (s : LoopState) : Bool :=
  match s.line with
  | none => false
  | some l => s.bytes ≠ -1 && atol l.line == s.c.id

/-- One entry of the record of the rows handed to the tokenizer: the id of
the current document, the line, and what `annrow` did. -/
structure Handed where
  doc : Int
  line : AnnLine
  row : RowResult
  deriving DecidableEq, Repr

/-- The loop of `txtrow` (lines 398-406): while the condition holds, hand
the line to the tokenizer (which is taken to parse every line in full, so
the branch of line 399 is not entered) and read the next line.  Returns
the state at the exit and the rows handed over.  `fuel` bounds the number
of iterations; running out of it while the condition holds is the fault
`fuel`. -/
def txtrowLoop (fresh : AnnLine) : Nat → LoopState → Except Stop (LoopState × List Handed)
  | 0, s => if loopCond s then .error (.fault .fuel) else .ok (s, [])
  | fuel + 1, s =>
    if loopCond s then
      match s.line with
      | none => .ok (s, [])
      | some l =>
        match csvRow l.fields s.c with
        | .error e => .error e
        | .ok r =>
          match txtrowLoop fresh fuel (getline fresh { s with c := r.c }) with
          | .error e => .error e
          | .ok (s2, hs) => .ok (s2, ⟨s.c.id, l, r⟩ :: hs)
    else .ok (s, [])

/-- The statements of `txtrow` before its loop (lines 385-396): empty
`offset_list`, take the stored line (`bytes = strlen(line)`) or read the
first one, build both offset tables. -/
def txtrowInit (c : citation) (st : AnnStream) : LoopState :=
  let c1 := { c with offset_list := [] }
  let s0 : LoopState :=
    match st.ann_line with
    | some l => ⟨c1, strlen l.line, some l, 0, st.ann_file⟩
    | none => getline st.fresh ⟨c1, 0, none, 0, st.ann_file⟩
  { s0 with c := { s0.c with aoffsets := utf8offsets s0.c.abstract,
                             toffsets := utf8offsets s0.c.title } }

/-- The function `txtrow`: the statements before the loop, the loop, then
store the line in hand and clear `flag`.  (`g_slist_free_full` frees the
cells of `offset_list`; the dangling pointer is not read before the next
call resets it.) -/
def txtrow (c : citation) (st : AnnStream) :
    Except Stop (citation × AnnStream × List Handed) :=
  match txtrowLoop st.fresh ((txtrowInit c st).file.length + 1) (txtrowInit c st) with
  | .error e => .error e
  | .ok (s2, hs) =>
    .ok ({ s2.c with flag := false }, ⟨s2.file, s2.line, st.fresh⟩, hs)

/-- One row `id \t title \t abstract` of the text file; `id` is the number
`atol` reads from the first field. -/
structure DocRow where
  id : Int
  title : List Nat
  abstract : List Nat
  deriving DecidableEq, Repr

/-- The three calls of `txtcol` (lines 330-376) for a document row whose id
field reads as a number other than `0`, entered with `flag` false as
`txtrow` leaves it: the first call clears the document fields, sets `start`
and `end` to `-1` and stores the id; the next two store the title and the
abstract.  The offset tables are `NULL` until `txtrow` builds them. -/
def txtcols (d : DocRow) (c : citation) : citation :=
  { c with flag := true, id := d.id, title := d.title, toffsets := [],
           abstract := d.abstract, aoffsets := [], start := -1, end_ := -1 }

/-- The loop of `run` (lines 442-449) over the rows of the text file: for
each row the tokenizer calls `txtcol` on its fields and then `txtrow`.
Returns the final citation and stream and the rows handed over, in
order.  When the id field of a row reads as `0`, `txtcol` finds `c->id`
still `0` at the next field and takes that field for the id as well
(lines 358-363), so `abstract` is still `NULL` when `txtrow` passes it to
`utf8offsets` (line 395), before any annotation row is handed over: a read
through a `NULL` pointer.  (The calls of `csv_fini` after the loop make no
callback when every line ends its row.) -/
def run : List DocRow → citation → AnnStream → Except Stop (citation × AnnStream × List Handed)
  | [], c, st => .ok (c, st, [])
  | d :: ds, c, st =>
    if d.id = 0 then .error (.fault .nullText)
    else
      match txtrow (txtcols d c) st with
      | .error e => .error e
      | .ok (c1, st1, hs) =>
        match run ds c1 st1 with
        | .error e => .error e
        | .ok (c2, st2, hs2) => .ok (c2, st2, hs ++ hs2)

/-- The citation `citation c = {}` of `run` (line 419). -/
def citation0 : citation :=
  { flag := false, id := 0, title := [], toffsets := [], abstract := [], aoffsets := [],
    offset_list := [], quote := none, class_ := none, section_ := 0, start := 0, end_ := 0 }

/-- The stream at the start of `run`: nothing read, no stored line. -/
def stream0 (file : List AnnLine) (fresh : AnnLine) : AnnStream :=
  ⟨file, none, fresh⟩

/-- The line of the annotation file with the given fields: the fields
joined by tabs, then a newline. -/
def annLine (fields : List String) : AnnLine :=
  ⟨bytes ("\t".intercalate fields ++ "\n"), fields.map bytes⟩

/-- The lines printed in a run, in order. -/
def runOutput (r : Except Stop (citation × AnnStream × List Handed)) : List OutLine :=
  match r with
  | .error _ => []
  | .ok (_, _, hs) => hs.flatMap (fun h => h.row.printed)

/-- The rows handed over in a run, each with the id of the document that
was current. -/
def runHanded (r : Except Stop (citation × AnnStream × List Handed)) : List (Int × AnnLine) :=
  match r with
  | .error _ => []
  | .ok (_, _, hs) => hs.map (fun h => (h.doc, h.line))

/-- The rows handed over in a run (none if the run stopped). -/
def runRows (r : Except Stop (citation × AnnStream × List Handed)) : List Handed :=
  match r with
  | .error _ => []
  | .ok (_, _, hs) => hs

/-- The stream at the end of a run (`st0` if the run stopped). -/
def runStream (r : Except Stop (citation × AnnStream × List Handed)) (st0 : AnnStream) :
    AnnStream :=
  match r with
  | .error _ => st0
  | .ok (_, st, _) => st

/-- Why a run stopped (`none` if it ran to the end of the text file). -/
def runStop (r : Except Stop (citation × AnnStream × List Handed)) : Option Stop :=
  match r with
  | .error e => some e
  | .ok _ => none

/-- The citation at the end of a run (`c0` if the run stopped). -/
def runCitation (r : Except Stop (citation × AnnStream × List Handed)) (c0 : citation) :
    citation :=
  match r with
  | .error _ => c0
  | .ok (c, _, _) => c

/-- The id the loop of `txtrow` reads from a line: `atol(line)`. -/
def lineId (l : AnnLine) : Int :=
  atol l.line

/-- The state of the stream between two documents, for the rows `rest` of
the annotation file not yet handed over and the ids `ids` of the documents
still to come: nothing is read yet; or the stored line is the first of the
rows not yet handed over; or the file is at its end and the stored line is
one that reads as none of the ids to come. -/
def joinInv (st : AnnStream) (rest : List AnnLine) (ids : List Int) : Prop :=
  (st.ann_line = none ∧ st.ann_file = rest)
    ∨ (∃ l, st.ann_line = some l ∧ rest = l :: st.ann_file)
    ∨ (∃ x, st.ann_line = some x ∧ st.ann_file = [] ∧ rest = [] ∧ ∀ i ∈ ids, lineId x ≠ i)

/-- A step of `check` stays inside the buffers: an index into the offset
table lies in `[0, n]` and a byte position in the text lies in `[0, p]`
(`n` the character count and `p` the byte length of the text, where its
terminating NUL is). -/
def readInBounds (n p : Int) (ev : Event) : Prop :=
  match ev with
  | .offsetsRead i => 0 ≤ i ∧ i ≤ n
  | .textRead idx => 0 ≤ idx ∧ idx ≤ p
  | .log _ _ => True

/-- The number of bytes of a UTF-8 encoded character, read off its first
byte. -/
def leadLen (b : Nat) : Nat :=
  if b < 0x80 then 1 else if b < 0xE0 then 2 else if b < 0xF0 then 3 else 4

/-! ## Lemmas on utf8strlen and utf8offsets -/

theorem utf8strlenLoop_add (s : List Nat) (j : Nat) :
    utf8strlenLoop s j = j + utf8strlenLoop s 0 := by
  induction s generalizing j with
  | nil => simp [utf8strlenLoop]
  | cons b rest ih =>
    simp only [utf8strlenLoop]
    split
    · simp
    · split
      · rw [ih (j + 1), ih (0 + 1)]; omega
      · exact ih j

theorem length_offsetsFrom (s : List Nat) (i : Int) :
    (offsetsFrom s i).length = utf8strlen s + 1 := by
  induction s generalizing i with
  | nil => simp [offsetsFrom, utf8strlen, utf8strlenLoop]
  | cons b rest ih =>
    simp only [offsetsFrom, utf8strlen, utf8strlenLoop]
    split
    · simp
    · split
      · rw [utf8strlenLoop_add rest (0 + 1)]
        simp only [List.length_cons, ih, utf8strlen]
        omega
      · exact ih (i + 1)

theorem set_last_eq (l : List Int) (j : Nat) (x : Int) (h : l.length = j + 1) :
    l.set j x = l.take j ++ [x] := by
  rw [List.set_eq_take_append_cons_drop]
  have hj : j < l.length := by omega
  simp [hj, List.drop_eq_nil_of_le (show l.length ≤ j + 1 by omega)]

theorem take_succ_set (l : List Int) (j : Nat) (x : Int) (h : j < l.length) :
    (l.set j x).take (j + 1) = l.take j ++ [x] := by
  induction l generalizing j with
  | nil => simp at h
  | cons a l ih =>
    cases j with
    | zero => simp
    | succ j => simpa using ih j (by simpa using h)

theorem utf8offsetsLoop_eq (s : List Nat) (i : Int) (j : Nat) (offsets : List Int)
    (h : offsets.length = j + utf8strlen s + 1) :
    utf8offsetsLoop s i j offsets = offsets.take j ++ offsetsFrom s i := by
  induction s generalizing i j offsets with
  | nil =>
    simp only [utf8offsetsLoop, offsetsFrom]
    exact set_last_eq _ _ _ (by simpa [utf8strlen, utf8strlenLoop] using h)
  | cons b rest ih =>
    simp only [utf8strlen, utf8strlenLoop] at h
    simp only [utf8offsetsLoop, offsetsFrom]
    split
    · rename_i hb
      simp only [hb, if_true] at h
      exact set_last_eq _ _ _ (by simpa using h)
    · rename_i hb
      simp only [hb, if_false] at h
      split
      · rename_i hs
        simp only [hs, if_true] at h
        rw [utf8strlenLoop_add rest (0 + 1)] at h
        rw [ih (i + 1) (j + 1) (offsets.set j i)
          (by simp only [List.length_set, utf8strlen]; omega)]
        rw [take_succ_set _ _ _ (by omega)]
        simp
      · rename_i hs
        simp only [hs] at h
        exact ih (i + 1) j offsets (by simpa [utf8strlen] using h)

theorem utf8offsets_eq (s : List Nat) : utf8offsets s = offsetsFrom s 0 := by
  unfold utf8offsets
  rw [utf8offsetsLoop_eq _ _ _ _ (by simp)]
  simp

theorem offsetsFrom_bounds (s : List Nat) (i : Int) :
    ∀ x ∈ offsetsFrom s i, i ≤ x ∧ x ≤ i + s.length := by
  induction s generalizing i with
  | nil => intro x hx; simp [offsetsFrom] at hx; subst hx; simp
  | cons b rest ih =>
    intro x hx
    simp only [offsetsFrom] at hx
    simp only [List.length_cons, Nat.cast_add, Nat.cast_one]
    split at hx
    · simp at hx; subst hx; omega
    · split at hx
      · rcases List.mem_cons.1 hx with h | h
        · subst h; omega
        · have := ih (i + 1) x h; omega
      · have := ih (i + 1) x hx; omega

theorem offsetsFrom_pairwise (s : List Nat) (i : Int) :
    (offsetsFrom s i).Pairwise (· < ·) := by
  induction s generalizing i with
  | nil => simp [offsetsFrom]
  | cons b rest ih =>
    simp only [offsetsFrom]
    split
    · simp
    · split
      · refine List.Pairwise.cons ?_ (ih (i + 1))
        intro x hx
        have := (offsetsFrom_bounds rest (i + 1) x hx).1
        omega
      · exact ih (i + 1)

set_option maxRecDepth 100000 in
theorem isStart_eq (b : Nat) (h : b < 256) : isStart b = !topBitsTen b := by
  revert b
  decide

theorem offsetsFrom_nulfree (s : List Nat) (i : Int) (h : ∀ b ∈ s, b ≠ 0) :
    offsetsFrom s i =
      ((List.range s.length).filter (fun k => isStart (s.getD k 0))).map (fun (k : Nat) => i + (k : Int))
        ++ [i + (s.length : Int)] := by
  induction s generalizing i with
  | nil => simp [offsetsFrom]
  | cons b rest ih =>
    have hb : b ≠ 0 := h b (List.mem_cons_self _ _)
    have hrest : ∀ x ∈ rest, x ≠ 0 := fun x hx => h x (List.mem_cons_of_mem _ hx)
    simp only [offsetsFrom, hb, if_false, List.length_cons]
    rw [List.range_succ_eq_map, List.filter_cons, List.filter_map, ih (i + 1) hrest]
    have hf : ((fun k => isStart ((b :: rest).getD k 0)) ∘ Nat.succ)
        = (fun k => isStart (rest.getD k 0)) := by
      funext k; simp
    rw [hf]
    have hl : i + 1 + (rest.length : Int) = i + ((rest.length + 1 : Nat) : Int) := by
      push_cast; omega
    rw [hl]
    have hg : ∀ l : List Nat, List.map (fun (k : Nat) => i + (k : Int)) (List.map Nat.succ l)
        = List.map (fun (k : Nat) => i + 1 + (k : Int)) l := by
      intro l
      rw [List.map_map]
      apply List.map_congr_left
      intro k _
      simp only [Function.comp, Nat.succ_eq_add_one, Nat.cast_add, Nat.cast_one]; omega
    by_cases hs : isStart b
    · simp [hs, hg]
    · simp [hs, hg]

theorem utf8strlen_nulfree (s : List Nat) (h : ∀ b ∈ s, b ≠ 0) :
    utf8strlen s = s.countP isStart := by
  induction s with
  | nil => simp [utf8strlen, utf8strlenLoop]
  | cons b rest ih =>
    have hb : b ≠ 0 := h b (List.mem_cons_self _ _)
    have hrest : ∀ x ∈ rest, x ≠ 0 := fun x hx => h x (List.mem_cons_of_mem _ hx)
    have ih1 := ih hrest
    simp only [utf8strlen] at ih1
    simp only [utf8strlen, utf8strlenLoop, hb, if_false, List.countP_cons]
    by_cases hs : isStart b
    · simp only [hs, if_true]
      rw [utf8strlenLoop_add rest (0 + 1), ih1]; omega
    · simp only [hs]
      rw [ih1]; simp

/-- C7: for every NUL-free byte string, `utf8offsets` returns the ascending
list of the indices of the bytes whose top two bits are not `10`, followed
by one final entry equal to the byte length; the table has
`utf8strlen(text) + 1` entries, `utf8strlen(text)` is the number of
non-continuation bytes, the table is strictly increasing and its last
entry is the byte length. -/
theorem utf8offsets_table (s : List Nat) (h : ∀ b ∈ s, 0 < b ∧ b < 256) :
    utf8offsets s =
        ((List.range s.length).filter (fun k => !topBitsTen (s.getD k 0))).map Int.ofNat
          ++ [(s.length : Int)]
      ∧ (utf8offsets s).length = utf8strlen s + 1
      ∧ utf8strlen s = s.countP (fun b => !topBitsTen b)
      ∧ (utf8offsets s).Pairwise (· < ·)
      ∧ (utf8offsets s).getLast? = some (s.length : Int) := by
  have h0 : ∀ b ∈ s, b ≠ 0 := fun b hb => by have := (h b hb).1; omega
  have hform : utf8offsets s =
      ((List.range s.length).filter (fun k => !topBitsTen (s.getD k 0))).map Int.ofNat
        ++ [(s.length : Int)] := by
    rw [utf8offsets_eq, offsetsFrom_nulfree s 0 h0]
    congr 1
    · have hfil : (List.range s.length).filter (fun k => isStart (s.getD k 0))
          = (List.range s.length).filter (fun k => !topBitsTen (s.getD k 0)) := by
        apply List.filter_congr
        intro k hk
        have hk1 : k < s.length := List.mem_range.1 hk
        have hmem : s.getD k 0 ∈ s := by
          rw [List.getD_eq_getElem _ _ hk1]; exact List.getElem_mem _
        exact isStart_eq _ (h _ hmem).2
      rw [hfil]
      apply List.map_congr_left
      intro k _
      simp
    · simp
  refine ⟨hform, ?_, ?_, ?_, ?_⟩
  · rw [utf8offsets_eq, length_offsetsFrom]
  · rw [utf8strlen_nulfree s h0]
    apply List.countP_congr
    intro b hb
    simp [isStart_eq b (h b hb).2]
  · rw [utf8offsets_eq]; exact offsetsFrom_pairwise s 0
  · rw [hform]; simp

/-- C7, at the bytes of `hé` followed by a stray continuation byte: the
table is `[0, 1, 4]`. -/
theorem utf8offsets_table_witness :
    utf8offsets [104, 0xC3, 0xA9, 0x80] = [0, 1, 4]
      ∧ (utf8offsets [104, 0xC3, 0xA9, 0x80]).length = utf8strlen [104, 0xC3, 0xA9, 0x80] + 1
      ∧ (utf8offsets [104, 0xC3, 0xA9, 0x80]).getLast? = some 4 :=
  ⟨by decide, (utf8offsets_table [104, 0xC3, 0xA9, 0x80] (by decide)).2.1,
    (utf8offsets_table [104, 0xC3, 0xA9, 0x80] (by decide)).2.2.2.2⟩

/-! ## UTF-8 encoded texts -/

theorem uint8_ofNat_mod (n : Nat) : UInt8.ofNat n = UInt8.ofNat (n % 256) := by
  unfold UInt8.ofNat
  congr 1
  apply BitVec.eq_of_toNat_eq
  simp

set_option maxRecDepth 100000 in
theorem contByte_aux : ∀ n, n < 256 →
    (UInt8.ofNat n &&& 0x3f ||| 0x80).toNat ≠ 0
      ∧ isStart (UInt8.ofNat n &&& 0x3f ||| 0x80).toNat = false := by
  decide

set_option maxRecDepth 100000 in
theorem leadByte2_aux : ∀ n, n < 256 →
    (UInt8.ofNat n &&& 0x1f ||| 0xc0).toNat ≠ 0
      ∧ isStart (UInt8.ofNat n &&& 0x1f ||| 0xc0).toNat = true := by
  decide

set_option maxRecDepth 100000 in
theorem leadByte3_aux : ∀ n, n < 256 →
    (UInt8.ofNat n &&& 0x0f ||| 0xe0).toNat ≠ 0
      ∧ isStart (UInt8.ofNat n &&& 0x0f ||| 0xe0).toNat = true := by
  decide

set_option maxRecDepth 100000 in
theorem leadByte4_aux : ∀ n, n < 256 →
    (UInt8.ofNat n &&& 0x07 ||| 0xf0).toNat ≠ 0
      ∧ isStart (UInt8.ofNat n &&& 0x07 ||| 0xf0).toNat = true := by
  decide

set_option maxRecDepth 100000 in
theorem asciiByte_aux : ∀ n, n < 128 → isStart n = true := by
  decide

theorem contByte (v : UInt32) :
    (v.toUInt8 &&& 0x3f ||| 0x80).toNat ≠ 0
      ∧ isStart (v.toUInt8 &&& 0x3f ||| 0x80).toNat = false := by
  show (UInt8.ofNat v.toNat &&& 0x3f ||| 0x80).toNat ≠ 0
      ∧ isStart (UInt8.ofNat v.toNat &&& 0x3f ||| 0x80).toNat = false
  rw [uint8_ofNat_mod]
  exact contByte_aux _ (Nat.mod_lt _ (by decide))

theorem leadByte2 (v : UInt32) :
    (v.toUInt8 &&& 0x1f ||| 0xc0).toNat ≠ 0
      ∧ isStart (v.toUInt8 &&& 0x1f ||| 0xc0).toNat = true := by
  show (UInt8.ofNat v.toNat &&& 0x1f ||| 0xc0).toNat ≠ 0
      ∧ isStart (UInt8.ofNat v.toNat &&& 0x1f ||| 0xc0).toNat = true
  rw [uint8_ofNat_mod]
  exact leadByte2_aux _ (Nat.mod_lt _ (by decide))

theorem leadByte3 (v : UInt32) :
    (v.toUInt8 &&& 0x0f ||| 0xe0).toNat ≠ 0
      ∧ isStart (v.toUInt8 &&& 0x0f ||| 0xe0).toNat = true := by
  show (UInt8.ofNat v.toNat &&& 0x0f ||| 0xe0).toNat ≠ 0
      ∧ isStart (UInt8.ofNat v.toNat &&& 0x0f ||| 0xe0).toNat = true
  rw [uint8_ofNat_mod]
  exact leadByte3_aux _ (Nat.mod_lt _ (by decide))

theorem leadByte4 (v : UInt32) :
    (v.toUInt8 &&& 0x07 ||| 0xf0).toNat ≠ 0
      ∧ isStart (v.toUInt8 &&& 0x07 ||| 0xf0).toNat = true := by
  show (UInt8.ofNat v.toNat &&& 0x07 ||| 0xf0).toNat ≠ 0
      ∧ isStart (UInt8.ofNat v.toNat &&& 0x07 ||| 0xf0).toNat = true
  rw [uint8_ofNat_mod]
  exact leadByte4_aux _ (Nat.mod_lt _ (by decide))

theorem asciiByte (v : UInt32) (h : v ≤ 0x7f) (h0 : v ≠ 0) :
    v.toUInt8.toNat ≠ 0 ∧ isStart v.toUInt8.toNat = true := by
  have hle : v.toNat ≤ 0x7f := by simpa [UInt32.le_def, BitVec.le_def] using h
  have hv : v.toUInt8.toNat = v.toNat := by
    show (UInt8.ofNat v.toNat).toNat = _
    unfold UInt8.ofNat UInt8.toNat
    simp
    omega
  have hne : v.toNat ≠ 0 := by
    intro h1
    apply h0
    apply UInt32.eq_of_toBitVec_eq
    apply BitVec.eq_of_toNat_eq
    simpa using h1
  rw [hv]
  exact ⟨hne, asciiByte_aux _ (by omega)⟩

/-- The encoding of a character other than U+0000 is a non-NUL start byte
followed by non-NUL continuation bytes. -/
theorem utf8EncodeChar_shape (c : Char) (h : c.val ≠ 0) :
    ∃ b0 conts, (String.utf8EncodeChar c).map UInt8.toNat = b0 :: conts
      ∧ b0 ≠ 0 ∧ isStart b0 = true ∧ ∀ x ∈ conts, x ≠ 0 ∧ isStart x = false := by
  unfold String.utf8EncodeChar
  simp only
  split
  · rename_i h1
    exact ⟨_, [], rfl, (asciiByte _ h1 h).1, (asciiByte _ h1 h).2, by simp⟩
  · split
    · refine ⟨_, _, rfl, (leadByte2 _).1, (leadByte2 _).2, ?_⟩
      intro x hx
      simp only [List.map_cons, List.map_nil, List.mem_singleton] at hx
      subst hx
      exact contByte _
    · split
      · refine ⟨_, _, rfl, (leadByte3 _).1, (leadByte3 _).2, ?_⟩
        intro x hx
        simp only [List.map_cons, List.map_nil, List.mem_cons, List.mem_singleton,
          List.not_mem_nil, or_false] at hx
        rcases hx with hx | hx <;> subst hx <;> exact contByte _
      · refine ⟨_, _, rfl, (leadByte4 _).1, (leadByte4 _).2, ?_⟩
        intro x hx
        simp only [List.map_cons, List.map_nil, List.mem_cons, List.mem_singleton,
          List.not_mem_nil, or_false] at hx
        rcases hx with hx | hx | hx <;> subst hx <;> exact contByte _

theorem offsetsFrom_conts (conts rest : List Nat) (i : Int)
    (h : ∀ x ∈ conts, x ≠ 0 ∧ isStart x = false) :
    offsetsFrom (conts ++ rest) i = offsetsFrom rest (i + conts.length) := by
  induction conts generalizing i with
  | nil => simp
  | cons x xs ih =>
    have hx := h x (List.mem_cons_self _ _)
    simp only [List.cons_append, offsetsFrom, hx.1, hx.2, if_false, Bool.false_eq_true,
      List.append_eq]
    rw [ih (i + 1) (fun y hy => h y (List.mem_cons_of_mem _ hy))]
    congr 1
    simp only [List.length_cons, Nat.cast_add, Nat.cast_one]
    omega

theorem utf8_cons (c : Char) (cs : List Char) :
    utf8 (c :: cs) = (String.utf8EncodeChar c).map UInt8.toNat ++ utf8 cs := by
  simp [utf8]

theorem offsetsFrom_utf8 (cs : List Char) (i : Int) (h : ∀ c ∈ cs, c.val ≠ 0) :
    offsetsFrom (utf8 cs) i = charStarts cs i := by
  induction cs generalizing i with
  | nil => simp [utf8, offsetsFrom, charStarts]
  | cons c cs ih =>
    obtain ⟨b0, conts, heq, hb0, hs0, hconts⟩ :=
      utf8EncodeChar_shape c (h c (List.mem_cons_self _ _))
    have hlen : c.utf8Size = conts.length + 1 := by
      rw [← String.length_utf8EncodeChar, ← List.length_map _ UInt8.toNat, heq]
      simp
    rw [utf8_cons, heq, charStarts]
    simp only [List.cons_append, offsetsFrom, hb0, hs0, if_false, if_true, List.append_eq]
    rw [offsetsFrom_conts _ _ _ hconts, ih _ (fun d hd => h d (List.mem_cons_of_mem _ hd))]
    congr 2
    rw [hlen]
    push_cast
    omega

theorem charStarts_zero (cs : List Char) (i : Int) : (charStarts cs i)[0]? = some i := by
  cases cs <;> simp [charStarts]

theorem length_charStarts (cs : List Char) (i : Int) :
    (charStarts cs i).length = cs.length + 1 := by
  induction cs generalizing i with
  | nil => simp [charStarts]
  | cons c cs ih => simp [charStarts, ih]

theorem charStarts_step (cs : List Char) (i : Int) (k : Nat) (hk : k < cs.length) :
    ∃ a, (charStarts cs i)[k]? = some a
      ∧ (charStarts cs i)[k + 1]? = some (a + ((String.utf8EncodeChar cs[k]).length : Int)) := by
  induction cs generalizing i k with
  | nil => simp at hk
  | cons c cs ih =>
    cases k with
    | zero =>
      refine ⟨i, by simp [charStarts], ?_⟩
      simp [charStarts, charStarts_zero]
    | succ k =>
      obtain ⟨a, h1, h2⟩ := ih (i + c.utf8Size) k (by simpa using hk)
      exact ⟨a, by simpa [charStarts] using h1, by simpa [charStarts] using h2⟩

theorem charStarts_last (cs : List Char) (i : Int) :
    (charStarts cs i)[cs.length]? = some (i + ((utf8 cs).length : Int)) := by
  induction cs generalizing i with
  | nil => simp [charStarts, utf8]
  | cons c cs ih =>
    simp only [charStarts, List.length_cons, List.getElem?_cons_succ, ih, utf8_cons,
      List.length_append, List.length_map, String.length_utf8EncodeChar]
    congr 1
    push_cast
    omega

theorem utf8Size_ascii (c : Char) (h : c.toNat < 128) : c.utf8Size = 1 := by
  have hle : c.val ≤ 0x7f := by
    have : c.val.toNat < 128 := h
    simp only [UInt32.le_def, BitVec.le_def]
    show c.val.toNat ≤ 127
    omega
  unfold Char.utf8Size
  simp only
  rw [if_pos]
  exact hle

theorem charStarts_ascii (cs : List Char) (i : Int) (h : ∀ c ∈ cs, c.toNat < 128) :
    charStarts cs i = (List.range (cs.length + 1)).map (fun (k : Nat) => i + (k : Int)) := by
  induction cs generalizing i with
  | nil => simp [charStarts, List.range_succ]
  | cons c cs ih =>
    rw [charStarts, utf8Size_ascii c (h c (List.mem_cons_self _ _)),
      ih _ (fun d hd => h d (List.mem_cons_of_mem _ hd))]
    rw [List.length_cons, List.range_succ_eq_map (cs.length + 1), List.map_cons, List.map_map]
    congr 1
    · simp
    · apply List.map_congr_left
      intro k _
      simp only [Function.comp, Nat.succ_eq_add_one, Nat.cast_add, Nat.cast_one]
      omega

/-- C8: for a text that is a sequence of Unicode characters without U+0000,
encoded as UTF-8, the table of `utf8offsets` has one entry per character
and one more, starts with `0`, the difference of consecutive entries `i+1`
and `i` is the number of bytes of the encoding of character `i`, and the
entry at the character count is the byte length; for an all-ASCII text of
`N` characters the table is `[0, 1, ..., N]`. -/
theorem utf8offsets_roundtrip (cs : List Char) (h : ∀ c ∈ cs, c.val ≠ 0) :
    (utf8offsets (utf8 cs)).length = cs.length + 1
      ∧ utf8strlen (utf8 cs) = cs.length
      ∧ (utf8offsets (utf8 cs))[0]? = some 0
      ∧ (∀ i (hi : i < cs.length), ∃ a b,
          (utf8offsets (utf8 cs))[i]? = some a ∧ (utf8offsets (utf8 cs))[i + 1]? = some b
            ∧ b - a = ((String.utf8EncodeChar cs[i]).length : Int))
      ∧ (utf8offsets (utf8 cs))[cs.length]? = some ((utf8 cs).length : Int)
      ∧ ((∀ c ∈ cs, c.toNat < 128) →
          utf8offsets (utf8 cs) = (List.range (cs.length + 1)).map Int.ofNat) := by
  have hT : utf8offsets (utf8 cs) = charStarts cs 0 := by
    rw [utf8offsets_eq, offsetsFrom_utf8 cs 0 h]
  have hlen : (utf8offsets (utf8 cs)).length = cs.length + 1 := by
    rw [hT, length_charStarts]
  refine ⟨hlen, ?_, ?_, ?_, ?_, ?_⟩
  · have := length_offsetsFrom (utf8 cs) 0
    rw [← utf8offsets_eq, hlen] at this
    omega
  · rw [hT, charStarts_zero]
  · intro i hi
    obtain ⟨a, h1, h2⟩ := charStarts_step cs 0 i hi
    exact ⟨a, _, by rw [hT]; exact h1, by rw [hT]; exact h2, by omega⟩
  · rw [hT, charStarts_last]; simp
  · intro hascii
    rw [hT, charStarts_ascii cs 0 hascii]
    apply List.map_congr_left
    intro k _
    simp

/-- C8, at the text `aé€` (one, two and three bytes). -/
theorem utf8offsets_roundtrip_witness :
    (∀ c ∈ [Char.ofNat 97, Char.ofNat 233, Char.ofNat 8364], c.val ≠ 0)
      ∧ (utf8offsets (utf8 [Char.ofNat 97, Char.ofNat 233, Char.ofNat 8364]))[3]?
          = some ((utf8 [Char.ofNat 97, Char.ofNat 233, Char.ofNat 8364]).length : Int) :=
  have h : ∀ c ∈ [Char.ofNat 97, Char.ofNat 233, Char.ofNat 8364], c.val ≠ 0 := by decide
  ⟨h, (utf8offsets_roundtrip _ h).2.2.2.2.1⟩

/-! ## The trim step of check -/

theorem readText_some (text : List Nat) (idx : Int) (h0 : 0 ≤ idx) (h1 : idx ≤ text.length) :
    ∃ b, readText text idx = some b := by
  unfold readText
  rw [if_neg (by omega)]
  by_cases h : idx.toNat < text.length
  · rw [if_pos h]
    exact ⟨text[idx.toNat], by simp [List.getElem?_eq_getElem h]⟩
  · rw [if_neg h, if_pos (by omega)]
    exact ⟨0, rfl⟩

theorem byteAt_utf8offsets (text : List Nat) (k : Int) (h0 : 0 ≤ k)
    (h1 : k ≤ utf8strlen text) : ∃ b, byteAt text (utf8offsets text) k = some b := by
  have hlen : (utf8offsets text).length = utf8strlen text + 1 := by
    rw [utf8offsets_eq, length_offsetsFrom]
  have hk : k.toNat < (utf8offsets text).length := by omega
  have hmem : (utf8offsets text)[k.toNat] ∈ offsetsFrom text 0 := by
    rw [← utf8offsets_eq]; exact List.getElem_mem _
  have hb := offsetsFrom_bounds text 0 _ hmem
  obtain ⟨b, hb1⟩ := readText_some text ((utf8offsets text)[k.toNat]) (by omega) (by omega)
  refine ⟨b, ?_⟩
  unfold byteAt readOffsets
  rw [if_pos h0]
  simp [List.getElem?_eq_getElem hk, hb1]

theorem trimLeadLoop_ok (text : List Nat) (offsets : List Int) (e : Int) (fuel : Nat) (i r : Int)
    (h : (trimLeadLoop text offsets e fuel i).1 = .ok r) :
    i ≤ r ∧ (i ≤ e → r ≤ e) ∧ (e ≤ i → r = i) ∧ (∀ k, i ≤ k → k < r → wsAt text offsets k)
      ∧ (r < e → nonWsAt text offsets r) := by
  induction fuel generalizing i with
  | zero =>
    simp only [trimLeadLoop] at h
    split at h
    · simp at h
    · simp only [Except.ok.injEq] at h
      subst h
      exact ⟨le_refl _, fun h => h, fun _ => rfl, fun k h1 h2 => by omega, fun h => by omega⟩
  | succ fuel ih =>
    simp only [trimLeadLoop] at h
    split at h
    · rename_i hlt
      split at h
      · simp at h
      · rename_i idx hidx
        split at h
        · simp at h
        · rename_i b hb
          have hbyte : byteAt text offsets i = some b := by simp [byteAt, hidx, hb]
          split at h
          · rename_i hsp
            simp only [Except.ok.injEq] at h
            subst h
            refine ⟨le_refl _, fun h => h, fun _ => rfl, fun k h1 h2 => by omega, fun _ => ?_⟩
            exact ⟨b, hbyte, by simpa using hsp⟩
          · rename_i hsp
            obtain ⟨h1, h2, _, h4, h5⟩ := ih (i + 1) h
            refine ⟨by omega, fun _ => h2 (by omega), fun h => by omega, fun k hk1 hk2 => ?_, h5⟩
            by_cases hki : k = i
            · subst hki; exact ⟨b, hbyte, by simpa using hsp⟩
            · exact h4 k (by omega) hk2
    · rename_i hlt
      simp only [Except.ok.injEq] at h
      subst h
      exact ⟨le_refl _, fun h => h, fun _ => rfl, fun k h1 h2 => by omega, fun h => by omega⟩

theorem trimLeadLoop_total (text : List Nat) (offsets : List Int) (e : Int) (fuel : Nat) (i : Int)
    (hfuel : e - i ≤ fuel)
    (hread : ∀ k, i ≤ k → k < e → ∃ b, byteAt text offsets k = some b) :
    ∃ r, (trimLeadLoop text offsets e fuel i).1 = .ok r := by
  induction fuel generalizing i with
  | zero =>
    simp only [trimLeadLoop]
    rw [if_neg (by simp at hfuel; omega)]
    exact ⟨i, rfl⟩
  | succ fuel ih =>
    simp only [trimLeadLoop]
    split
    · rename_i hlt
      obtain ⟨b, hb⟩ := hread i (le_refl _) hlt
      unfold byteAt at hb
      cases hidx : readOffsets offsets i with
      | none => simp [hidx] at hb
      | some idx =>
        simp only [hidx, Option.some_bind] at hb
        simp only [hb]
        split
        · exact ⟨i, rfl⟩
        · exact ih (i + 1) (by push_cast at hfuel; omega) (fun k h1 h2 => hread k (by omega) h2)
    · exact ⟨i, rfl⟩

theorem trimTrailLoop_ok (text : List Nat) (offsets : List Int) (s : Int) (fuel : Nat) (i r : Int)
    (h : (trimTrailLoop text offsets s fuel i).1 = .ok r) :
    r ≤ i ∧ (s - 1 ≤ i → s - 1 ≤ r) ∧ (i < s → r = i) ∧ (∀ k, r < k → k ≤ i → wsAt text offsets k)
      ∧ (s ≤ r → nonWsAt text offsets r) := by
  induction fuel generalizing i with
  | zero =>
    simp only [trimTrailLoop] at h
    split at h
    · simp at h
    · simp only [Except.ok.injEq] at h
      subst h
      exact ⟨le_refl _, fun h => h, fun _ => rfl, fun k h1 h2 => by omega, fun h => by omega⟩
  | succ fuel ih =>
    simp only [trimTrailLoop] at h
    split at h
    · rename_i hge
      split at h
      · simp at h
      · rename_i idx hidx
        split at h
        · simp at h
        · rename_i b hb
          have hbyte : byteAt text offsets i = some b := by simp [byteAt, hidx, hb]
          split at h
          · rename_i hsp
            simp only [Except.ok.injEq] at h
            subst h
            refine ⟨le_refl _, fun h => h, fun _ => rfl, fun k h1 h2 => by omega, fun _ => ?_⟩
            exact ⟨b, hbyte, by simpa using hsp⟩
          · rename_i hsp
            obtain ⟨h1, h2, _, h4, h5⟩ := ih (i - 1) h
            refine ⟨by omega, fun _ => h2 (by omega), fun h => by omega, fun k hk1 hk2 => ?_, h5⟩
            by_cases hki : k = i
            · subst hki; exact ⟨b, hbyte, by simpa using hsp⟩
            · exact h4 k hk1 (by omega)
    · rename_i hge
      simp only [Except.ok.injEq] at h
      subst h
      exact ⟨le_refl _, fun h => h, fun _ => rfl, fun k h1 h2 => by omega, fun h => by omega⟩

theorem trimTrailLoop_total (text : List Nat) (offsets : List Int) (s : Int) (fuel : Nat) (i : Int)
    (hfuel : i - s + 1 ≤ fuel)
    (hread : ∀ k, s ≤ k → k ≤ i → ∃ b, byteAt text offsets k = some b) :
    ∃ r, (trimTrailLoop text offsets s fuel i).1 = .ok r := by
  induction fuel generalizing i with
  | zero =>
    simp only [trimTrailLoop]
    rw [if_neg (by simp at hfuel; omega)]
    exact ⟨i, rfl⟩
  | succ fuel ih =>
    simp only [trimTrailLoop]
    split
    · rename_i hge
      obtain ⟨b, hb⟩ := hread i hge (le_refl _)
      unfold byteAt at hb
      cases hidx : readOffsets offsets i with
      | none => simp [hidx] at hb
      | some idx =>
        simp only [hidx, Option.some_bind] at hb
        simp only [hb]
        split
        · exact ⟨i, rfl⟩
        · exact ih (i - 1) (by push_cast at hfuel; omega) (fun k h1 h2 => hread k h1 (by omega))
    · exact ⟨i, rfl⟩

theorem trimLeadLoop_exit (text : List Nat) (offsets : List Int) (e : Int) (fuel : Nat) (i : Int)
    (h : ¬ i < e) : trimLeadLoop text offsets e fuel i = (.ok i, []) := by
  cases fuel <;> simp [trimLeadLoop, h]

theorem trimTrailLoop_exit (text : List Nat) (offsets : List Int) (s : Int) (fuel : Nat) (i : Int)
    (h : ¬ i ≥ s) : trimTrailLoop text offsets s fuel i = (.ok i, []) := by
  cases fuel <;> simp [trimTrailLoop, h]

theorem trimLeadLoop_stop (text : List Nat) (offsets : List Int) (e : Int) (fuel : Nat) (i : Int)
    (h : nonWsAt text offsets i) : (trimLeadLoop text offsets e (fuel + 1) i).1 = .ok i := by
  obtain ⟨b, hb, hsp⟩ := h
  unfold byteAt at hb
  cases hidx : readOffsets offsets i with
  | none => simp [hidx] at hb
  | some idx =>
    simp only [hidx, Option.some_bind] at hb
    simp only [trimLeadLoop, hidx, hb, hsp]
    split <;> simp

theorem trimTrailLoop_stop (text : List Nat) (offsets : List Int) (s : Int) (fuel : Nat) (i : Int)
    (h : nonWsAt text offsets i) : (trimTrailLoop text offsets s (fuel + 1) i).1 = .ok i := by
  obtain ⟨b, hb, hsp⟩ := h
  unfold byteAt at hb
  cases hidx : readOffsets offsets i with
  | none => simp [hidx] at hb
  | some idx =>
    simp only [hidx, Option.some_bind] at hb
    simp only [trimTrailLoop, hidx, hb, hsp]
    split <;> simp

/-- A span whose first and last characters do not begin with whitespace
(or that is empty or reversed) is left unchanged by the trim step. -/
theorem checkTrim_fixed (text : List Nat) (offsets : List Int) (s e : Int)
    (h : s < e → nonWsAt text offsets s ∧ nonWsAt text offsets (e - 1)) :
    (checkTrim text offsets s e).1 = .ok (s, e) := by
  unfold checkTrim
  by_cases hlt : s < e
  · obtain ⟨h1, h2⟩ := h hlt
    obtain ⟨n, hn⟩ : ∃ n, (e - s).toNat = n + 1 := ⟨(e - s).toNat - 1, by omega⟩
    simp only [hn, trimLeadLoop_stop text offsets e n s h1,
      trimTrailLoop_stop text offsets s n (e - 1) h2]
    simp
  · have hn : (e - s).toNat = 0 := by omega
    simp only [hn, trimLeadLoop_exit text offsets e 0 s hlt,
      trimTrailLoop_exit text offsets s 0 (e - 1) (by omega)]
    simp

/-- What the trim step returns when it returns. -/
theorem checkTrim_ok (text : List Nat) (offsets : List Int) (s e s1 e1 : Int)
    (h : (checkTrim text offsets s e).1 = .ok (s1, e1)) :
    (s ≤ e → s ≤ s1 ∧ s1 ≤ e1 ∧ e1 ≤ e)
      ∧ (e < s → s1 = s ∧ e1 = e)
      ∧ (∀ k, s ≤ k → k < s1 → wsAt text offsets k)
      ∧ (∀ k, e1 ≤ k → k < e → wsAt text offsets k)
      ∧ (s1 < e1 → nonWsAt text offsets s1 ∧ nonWsAt text offsets (e1 - 1))
      ∧ (s1 < e → nonWsAt text offsets s1) := by
  unfold checkTrim at h
  simp only at h
  cases h1 : (trimLeadLoop text offsets e (e - s).toNat s).1 with
  | error f => simp [h1] at h
  | ok r1 =>
    simp only [h1] at h
    cases h2 : (trimTrailLoop text offsets r1 (e - r1).toNat (e - 1)).1 with
    | error f => simp [h2] at h
    | ok r2 =>
      simp only [h2, Except.ok.injEq, Prod.mk.injEq] at h
      obtain ⟨hs, he⟩ := h
      subst hs
      obtain ⟨a1, a2, a3, a4, a5⟩ := trimLeadLoop_ok _ _ _ _ _ _ h1
      obtain ⟨b1, b2, b3, b4, b5⟩ := trimTrailLoop_ok _ _ _ _ _ _ h2
      refine ⟨fun hse => ?_, fun hes => ?_, a4, fun k hk1 hk2 => b4 k (by omega) (by omega),
        fun hlt => ?_, a5⟩
      · have := a2 hse
        have := b2 (by omega)
        omega
      · have := a3 (by omega)
        have := b3 (by omega)
        omega
      · have hr : r1 ≤ r2 := by omega
        have hne : r1 < e := by omega
        refine ⟨a5 hne, ?_⟩
        have := b5 hr
        rw [← he]
        simpa using this

theorem checkTrim_total (text : List Nat) (offsets : List Int) (s e : Int)
    (hread : ∀ k, s ≤ k → k < e → ∃ b, byteAt text offsets k = some b) :
    ∃ s1 e1, (checkTrim text offsets s e).1 = .ok (s1, e1) := by
  obtain ⟨r1, h1⟩ := trimLeadLoop_total text offsets e (e - s).toNat s (by omega) hread
  obtain ⟨a1, _⟩ := trimLeadLoop_ok _ _ _ _ _ _ h1
  obtain ⟨r2, h2⟩ := trimTrailLoop_total text offsets r1 (e - r1).toNat (e - 1) (by omega)
    (fun k hk1 hk2 => hread k (by omega) (by omega))
  refine ⟨r1, r2 + 1, ?_⟩
  unfold checkTrim
  simp [h1, h2]

theorem trimLeadLoop_fuel (text : List Nat) (offsets : List Int) (e : Int) (fuel : Nat) (i : Int)
    (hfuel : e - i ≤ fuel) : (trimLeadLoop text offsets e fuel i).1 ≠ .error .fuel := by
  induction fuel generalizing i with
  | zero =>
    simp only [trimLeadLoop]
    rw [if_neg (by simp at hfuel; omega)]
    simp
  | succ fuel ih =>
    simp only [trimLeadLoop]
    split
    · split
      · simp
      · split
        · simp
        · split
          · simp
          · exact ih (i + 1) (by push_cast at hfuel; omega)
    · simp

theorem trimTrailLoop_fuel (text : List Nat) (offsets : List Int) (s : Int) (fuel : Nat) (i : Int)
    (hfuel : i - s + 1 ≤ fuel) : (trimTrailLoop text offsets s fuel i).1 ≠ .error .fuel := by
  induction fuel generalizing i with
  | zero =>
    simp only [trimTrailLoop]
    rw [if_neg (by simp at hfuel; omega)]
    simp
  | succ fuel ih =>
    simp only [trimTrailLoop]
    split
    · split
      · simp
      · split
        · simp
        · split
          · simp
          · exact ih (i - 1) (by push_cast at hfuel; omega)
    · simp

/-- The fuel the trim step gives its loops is enough for every input: it
never stops for lack of fuel. -/
theorem checkTrim_fuel (text : List Nat) (offsets : List Int) (s e : Int) :
    (checkTrim text offsets s e).1 ≠ .error .fuel := by
  unfold checkTrim
  simp only
  cases h1 : (trimLeadLoop text offsets e (e - s).toNat s).1 with
  | error f =>
    simp only
    intro hf
    injection hf with hf
    subst hf
    exact trimLeadLoop_fuel text offsets e _ s (by omega) h1
  | ok r1 =>
    simp only
    obtain ⟨a1, _⟩ := trimLeadLoop_ok _ _ _ _ _ _ h1
    cases h2 : (trimTrailLoop text offsets r1 (e - r1).toNat (e - 1)).1 with
    | error f =>
      simp only
      intro hf
      injection hf with hf
      subst hf
      exact trimTrailLoop_fuel text offsets r1 _ (e - 1) (by omega) h2
    | ok r2 => simp

theorem checkTrim_idem (text : List Nat) (offsets : List Int) (s e s1 e1 : Int)
    (h : (checkTrim text offsets s e).1 = .ok (s1, e1)) :
    (checkTrim text offsets s1 e1).1 = .ok (s1, e1) :=
  checkTrim_fixed text offsets s1 e1 (checkTrim_ok text offsets s e s1 e1 h).2.2.2.2.1

/-- C9: the trim step of `check` is idempotent.  For every text with its
offset table and every span with `0 <= start <= end <= char_count`, the
trim step returns a span, and applied to that span it returns it unchanged;
a span whose first and last characters do not begin with a whitespace byte
is returned unchanged; and with any offset table at all, a span the trim
step returns is returned unchanged by a second run. -/
theorem checkTrim_idempotent (text : List Nat) (start end_ : Int)
    (h0 : 0 ≤ start) (_h1 : start ≤ end_) (h2 : end_ ≤ utf8strlen text) :
    (∃ s1 e1, (checkTrim text (utf8offsets text) start end_).1 = .ok (s1, e1)
        ∧ (checkTrim text (utf8offsets text) s1 e1).1 = .ok (s1, e1))
      ∧ ((nonWsAt text (utf8offsets text) start ∧ nonWsAt text (utf8offsets text) (end_ - 1)) →
          (checkTrim text (utf8offsets text) start end_).1 = .ok (start, end_))
      ∧ (∀ offsets s1 e1, (checkTrim text offsets start end_).1 = .ok (s1, e1) →
          (checkTrim text offsets s1 e1).1 = .ok (s1, e1)) := by
  refine ⟨?_, ?_, ?_⟩
  · obtain ⟨s1, e1, h⟩ := checkTrim_total text (utf8offsets text) start end_
      (fun k hk1 hk2 => byteAt_utf8offsets text k (by omega) (by omega))
    exact ⟨s1, e1, h, checkTrim_idem _ _ _ _ _ _ h⟩
  · intro h
    exact checkTrim_fixed _ _ _ _ (fun _ => h)
  · intro offsets s1 e1 h
    exact checkTrim_idem _ _ _ _ _ _ h

/-- C9, at the span 3..8 (` cat `) of `The cat sat.`. -/
theorem checkTrim_idempotent_witness :
    (0 : Int) ≤ 3 ∧ (3 : Int) ≤ 8 ∧ (8 : Int) ≤ utf8strlen (bytes "The cat sat.")
      ∧ (checkTrim (bytes "The cat sat.") (utf8offsets (bytes "The cat sat.")) 3 8).1
          = .ok (4, 7)
      ∧ ∃ s1 e1,
          (checkTrim (bytes "The cat sat.") (utf8offsets (bytes "The cat sat.")) 3 8).1
              = .ok (s1, e1)
            ∧ (checkTrim (bytes "The cat sat.") (utf8offsets (bytes "The cat sat.")) s1 e1).1
              = .ok (s1, e1) :=
  ⟨by decide, by decide, by decide, rfl,
    (checkTrim_idempotent (bytes "The cat sat.") 3 8 (by decide) (by decide) (by decide)).1⟩

theorem wsAt_not_nonWsAt (text : List Nat) (offsets : List Int) (k : Int)
    (h1 : wsAt text offsets k) (h2 : nonWsAt text offsets k) : False := by
  obtain ⟨b, hb, hsp⟩ := h1
  obtain ⟨b2, hb2, hsp2⟩ := h2
  rw [hb] at hb2
  simp only [Option.some.injEq] at hb2
  subst hb2
  simp [hsp] at hsp2

/-- C10: for every text with its offset table and every span with
`0 <= start <= end <= char_count`, the trim step of `check` returns
`(start', end')` with `start <= start' <= end' <= end`; every character in
`[start, start')` and in `[end', end)` begins with a whitespace byte; if
`start' < end'` neither the first nor the last character of the result
begins with whitespace; every character of the span that does not begin
with whitespace lies in `[start', end')`; and an all-whitespace span
becomes the empty span `start' = end' = end`. -/
theorem checkTrim_spec (text : List Nat) (start end_ : Int)
    (h0 : 0 ≤ start) (h1 : start ≤ end_) (h2 : end_ ≤ utf8strlen text) :
    ∃ s1 e1, (checkTrim text (utf8offsets text) start end_).1 = .ok (s1, e1)
      ∧ start ≤ s1 ∧ s1 ≤ e1 ∧ e1 ≤ end_
      ∧ (∀ k, start ≤ k → k < s1 → wsAt text (utf8offsets text) k)
      ∧ (∀ k, e1 ≤ k → k < end_ → wsAt text (utf8offsets text) k)
      ∧ (s1 < e1 → nonWsAt text (utf8offsets text) s1
          ∧ nonWsAt text (utf8offsets text) (e1 - 1))
      ∧ (∀ k, start ≤ k → k < end_ → nonWsAt text (utf8offsets text) k → s1 ≤ k ∧ k < e1)
      ∧ ((∀ k, start ≤ k → k < end_ → wsAt text (utf8offsets text) k) →
          s1 = end_ ∧ e1 = end_) := by
  obtain ⟨s1, e1, h⟩ := checkTrim_total text (utf8offsets text) start end_
    (fun k hk1 hk2 => byteAt_utf8offsets text k (by omega) (by omega))
  obtain ⟨a1, _, a3, a4, a5, a6⟩ := checkTrim_ok _ _ _ _ _ _ h
  obtain ⟨b1, b2, b3⟩ := a1 h1
  refine ⟨s1, e1, h, b1, b2, b3, a3, a4, a5, fun k hk1 hk2 hn => ?_, fun hall => ?_⟩
  · constructor
    · by_contra hlt
      exact wsAt_not_nonWsAt _ _ _ (a3 k hk1 (by omega)) hn
    · by_contra hge
      exact wsAt_not_nonWsAt _ _ _ (a4 k (by omega) hk2) hn
  · have hs : s1 = end_ := by
      by_contra hne
      have hlt : s1 < end_ := by omega
      exact wsAt_not_nonWsAt _ _ _ (hall s1 b1 hlt) (a6 hlt)
    exact ⟨hs, by omega⟩

/-- C10, at the span 3..8 (` cat `) of `The cat sat.`, trimmed to 4..7. -/
theorem checkTrim_spec_witness :
    (0 : Int) ≤ 3 ∧ (3 : Int) ≤ 8 ∧ (8 : Int) ≤ utf8strlen (bytes "The cat sat.")
      ∧ (checkTrim (bytes "The cat sat.") (utf8offsets (bytes "The cat sat.")) 3 8).1
          = .ok (4, 7)
      ∧ ∃ s1 e1,
          (checkTrim (bytes "The cat sat.") (utf8offsets (bytes "The cat sat.")) 3 8).1
              = .ok (s1, e1) ∧ 3 ≤ s1 ∧ s1 ≤ e1 ∧ e1 ≤ 8 :=
  have h := checkTrim_spec (bytes "The cat sat.") 3 8 (by decide) (by decide) (by decide)
  ⟨by decide, by decide, by decide, rfl,
    h.choose, h.choose_spec.choose, h.choose_spec.choose_spec.1,
    h.choose_spec.choose_spec.2.1, h.choose_spec.choose_spec.2.2.1,
    h.choose_spec.choose_spec.2.2.2.1⟩

theorem contentLoop_accept (quote text : List Nat) (idx : Int) (fuel i : Nat) :
    (contentLoop quote text idx fuel i).1 = .accept ↔
      ∀ k, k < fuel → readText text (idx + ((i + k : Nat) : Int)) = some (quote.getD (i + k) 0) := by
  induction fuel generalizing i with
  | zero => simp [contentLoop]
  | succ fuel ih =>
    simp only [contentLoop]
    cases hr : readText text (idx + (i : Int)) with
    | none =>
      simp only
      constructor
      · intro h; simp at h
      · intro h
        have := h 0 (by omega)
        simp [hr] at this
    | some t =>
      simp only
      by_cases hne : quote.getD i 0 = t
      · simp only [hne, ne_eq, not_true_eq_false, if_false]
        rw [ih (i + 1)]
        constructor
        · intro h k hk
          cases k with
          | zero => simpa [hr] using hne.symm
          | succ k =>
            have := h k (by omega)
            rw [show i + (k + 1) = i + 1 + k by omega]
            exact this
        · intro h k hk
          have := h (k + 1) (by omega)
          rw [show i + 1 + k = i + (k + 1) by omega]
          exact this
      · simp only [ne_eq, hne, not_false_eq_true, if_true]
        constructor
        · intro h; simp at h
        · intro h
          have := h 0 (by omega)
          simp only [Nat.add_zero, hr, Option.some.injEq] at this
          exact absurd this.symm hne

theorem contentLoop_bytesMatch (quote text : List Nat) (idx : Int) :
    (contentLoop quote text idx (strlen quote) 0).1 = .accept ↔ bytesMatch quote text idx := by
  rw [contentLoop_accept]
  unfold bytesMatch
  simp

theorem overlapLoop_accept (sec : Nat) (s e : Int) (items : List offset) :
    (overlapLoop sec s e items).1 = .accept ↔
      ∀ off ∈ items, off.section_ = sec → ¬ ruleOverlap s e off := by
  induction items with
  | nil => simp [overlapLoop]
  | cons off rest ih =>
    simp only [overlapLoop, List.mem_cons, forall_eq_or_imp]
    by_cases hsec : off.section_ = sec
    · simp only [hsec, if_true, true_implies]
      unfold ruleOverlap
      by_cases h1 : s = off.start ∧ e = off.end_
      · simp [h1]
      · by_cases h2 : s ≤ off.start ∧ e ≥ off.start
        · simp [h1, h2]
        · by_cases h3 : s ≤ off.end_ ∧ e ≥ off.end_
          · simp [h1, h2, h3]
          · by_cases h4 : s ≥ off.start ∧ e ≤ off.end_
            · simp [h1, h2, h3, h4]
            · simp only [h1, h2, h3, h4, if_false, or_self, not_false_eq_true, true_and]
              exact ih
    · simp only [hsec, if_false, false_implies, true_and]
      exact ih

/-- When `check` returns true, exactly: the trim step returns a span whose
length is the character count of the quote, the bytes of the quote are
found at `offsets[start]`, and no rule matches a recorded span of the same
section from the second list cell on. -/
theorem check_accept_tail (c : citation) (quote : List Nat) (hq : c.quote = some quote) :
    (check c).verdict = .accept ↔
      ∃ s1 e1, (checkTrim (sectionText c) (sectionOffsets c) c.start c.end_).1 = .ok (s1, e1)
        ∧ e1 - s1 = (utf8strlen quote : Int)
        ∧ (∃ idx, readOffsets (sectionOffsets c) s1 = some idx
            ∧ bytesMatch quote (sectionText c) idx)
        ∧ ∀ off ∈ c.offset_list.tail, off.section_ = c.section_ → ¬ ruleOverlap s1 e1 off := by
  simp only [check, hq]
  cases ht : (checkTrim (sectionText c) (sectionOffsets c) c.start c.end_).1 with
  | error f => simp
  | ok p =>
    obtain ⟨s, e⟩ := p
    simp only [Except.ok.injEq, Prod.mk.injEq]
    by_cases hlen : (utf8strlen quote : Int) = e - s
    · simp only [hlen, ne_eq, not_true_eq_false, if_false]
      cases hidx : readOffsets (sectionOffsets c) s with
      | none =>
        simp only
        constructor
        · intro h; simp at h
        · rintro ⟨s1, e1, ⟨rfl, rfl⟩, _, ⟨idx, h1, _⟩, _⟩
          simp [hidx] at h1
      | some idx =>
        simp only
        cases hm : (contentLoop quote (sectionText c) idx (strlen quote) 0).1 with
        | accept =>
          simp only
          have hbm := (contentLoop_bytesMatch quote (sectionText c) idx).1 hm
          rw [overlapLoop_accept]
          constructor
          · intro h
            exact ⟨s, e, ⟨rfl, rfl⟩, rfl, ⟨idx, hidx, hbm⟩, h⟩
          · rintro ⟨s1, e1, ⟨rfl, rfl⟩, _, _, h⟩
            exact h
        | reject why =>
          simp only
          constructor
          · intro h; simp at h
          · rintro ⟨s1, e1, ⟨rfl, rfl⟩, _, ⟨idx1, h1, h2⟩, _⟩
            rw [hidx] at h1
            simp only [Option.some.injEq] at h1
            subst h1
            have := (contentLoop_bytesMatch quote (sectionText c) idx).2 h2
            rw [hm] at this
            simp at this
        | fault f =>
          simp only
          constructor
          · intro h; simp at h
          · rintro ⟨s1, e1, ⟨rfl, rfl⟩, _, ⟨idx1, h1, h2⟩, _⟩
            rw [hidx] at h1
            simp only [Option.some.injEq] at h1
            subst h1
            have := (contentLoop_bytesMatch quote (sectionText c) idx).2 h2
            rw [hm] at this
            simp at this
    · simp only [ne_eq, hlen, not_false_eq_true, if_true]
      constructor
      · intro h; simp at h
      · rintro ⟨s1, e1, ⟨rfl, rfl⟩, h, _⟩
        exact absurd h.symm hlen

theorem contentLoop_fuel (quote text : List Nat) (idx : Int) (fuel i : Nat) :
    (contentLoop quote text idx fuel i).1 ≠ .fault .fuel := by
  induction fuel generalizing i with
  | zero => simp [contentLoop]
  | succ fuel ih =>
    simp only [contentLoop]
    split
    · simp
    · split
      · simp
      · exact ih (i + 1)

theorem overlapLoop_fuel (sec : Nat) (s e : Int) (items : List offset) :
    (overlapLoop sec s e items).1 ≠ .fault .fuel := by
  induction items with
  | nil => simp [overlapLoop]
  | cons off rest ih =>
    simp only [overlapLoop]
    repeat' split
    all_goals first
      | exact ih
      | simp

/-- The function `check` never stops for lack of fuel: its loops are run to
their end. -/
theorem check_fuel (c : citation) : (check c).verdict ≠ .fault .fuel := by
  have hf := checkTrim_fuel (sectionText c) (sectionOffsets c) c.start c.end_
  unfold check
  cases hq : c.quote with
  | none => simp
  | some quote =>
    simp only
    cases ht : (checkTrim (sectionText c) (sectionOffsets c) c.start c.end_).1 with
    | error f =>
      simp only
      intro h
      injection h with h
      subst h
      exact hf ht
    | ok p =>
      obtain ⟨s, e⟩ := p
      simp only
      split
      · simp
      · cases hidx : readOffsets (sectionOffsets c) s with
        | none => simp
        | some idx =>
          simp only
          have hc := contentLoop_fuel quote (sectionText c) idx (strlen quote) 0
          cases hm : (contentLoop quote (sectionText c) idx (strlen quote) 0).1 with
          | accept => exact overlapLoop_fuel _ _ _ _
          | reject why => simp
          | fault f =>
            simp only
            rw [hm] at hc
            exact hc

/-! ## Acceptance and the recorded spans -/

/-- C1 (amended): for every document, every list of recorded spans and
every candidate whose trimmed span matches no rule against the first
recorded span, `check` accepts if and only if the trim step returns a span
such that (1) `end - start` is the character count of the quote, (2) the
bytes of the quote equal the bytes of the text from `offsets[start]` on,
and (3) the trimmed span matches no rule against any span recorded for the
document in the same section; the recorded spans are those of all rows
processed before, accepted or rejected. -/
theorem check_accept_iff (c : citation) (quote : List Nat) (hq : c.quote = some quote)
    (hfirst : ∀ A s1 e1, c.offset_list.head? = some A →
      (checkTrim (sectionText c) (sectionOffsets c) c.start c.end_).1 = .ok (s1, e1) →
      A.section_ = c.section_ → ¬ ruleOverlap s1 e1 A) :
    (check c).verdict = .accept ↔
      ∃ s1 e1, (checkTrim (sectionText c) (sectionOffsets c) c.start c.end_).1 = .ok (s1, e1)
        ∧ e1 - s1 = (utf8strlen quote : Int)
        ∧ (∃ idx, readOffsets (sectionOffsets c) s1 = some idx
            ∧ bytesMatch quote (sectionText c) idx)
        ∧ ∀ off ∈ c.offset_list, off.section_ = c.section_ → ¬ ruleOverlap s1 e1 off := by
  rw [check_accept_tail c quote hq]
  constructor
  · rintro ⟨s1, e1, h1, h2, h3, h4⟩
    refine ⟨s1, e1, h1, h2, h3, fun off hoff hsec => ?_⟩
    cases hl : c.offset_list with
    | nil => rw [hl] at hoff; simp at hoff
    | cons A rest =>
      rw [hl] at hoff h4
      rcases List.mem_cons.1 hoff with h | h
      · subst h
        exact hfirst off s1 e1 (by rw [hl]; rfl) h1 hsec
      · exact h4 off h hsec
  · rintro ⟨s1, e1, h1, h2, h3, h4⟩
    exact ⟨s1, e1, h1, h2, h3, fun off hoff hsec => h4 off (List.mem_of_mem_tail hoff) hsec⟩

/-- C1 (amended), at the candidate `T 3:8 cat` of `The cat sat.` with the
spans 0..3 and 8..11 recorded: accepted. -/
theorem check_accept_iff_witness :
    (check { document 5 catTitle catAbstract with
              offset_list := [⟨84, 0, 3⟩, ⟨84, 8, 11⟩], quote := some (bytes "cat"),
              section_ := 84, start := 3, end_ := 8 }).verdict = .accept :=
  (check_accept_iff
    { document 5 catTitle catAbstract with
      offset_list := [⟨84, 0, 3⟩, ⟨84, 8, 11⟩], quote := some (bytes "cat"),
      section_ := 84, start := 3, end_ := 8 }
    (bytes "cat") rfl
    (by
      intro A s1 e1 hA ht _
      have hA1 : A = ⟨84, 0, 3⟩ := by
        have : some A = some (⟨84, 0, 3⟩ : offset) := hA.symm
        exact Option.some.inj this
      have ht1 : (Except.ok (s1, e1) : Except Fault (Int × Int)) = .ok (4, 7) :=
        ht.symm.trans rfl
      have hs : s1 = 4 := by injection ht1 with h; exact (Prod.mk.inj h).1
      have he : e1 = 7 := by injection ht1 with h; exact (Prod.mk.inj h).2
      subst hA1 hs he
      decide)).2
    ⟨4, 7, rfl, by decide, ⟨4, by decide, by decide⟩, by decide⟩

/-- C1 as stated fails: in document 5 with title `The cat sat.`, after the
rows `T 0:3 The` (accepted) and `T 4:7 dog` (rejected, the bytes differ),
the candidate `T 4:7 cat` has the length of its quote, matches the text
byte for byte and overlaps no accepted span (only 0..3 was accepted), yet
`check` rejects it as a duplicate of the rejected span. -/
theorem check_accept_iff_counterexample :
    verdicts (csvRows
        [["5", "T", "0", "3", "The", "DET"].map bytes,
         ["5", "T", "4", "7", "dog", "ANIMAL"].map bytes,
         ["5", "T", "4", "7", "cat", "ANIMAL"].map bytes]
        (document 5 catTitle catAbstract))
        = [.accept, .reject .content, .reject .duplicate]
      ∧ acceptedIn (csvRows
          [["5", "T", "0", "3", "The", "DET"].map bytes,
           ["5", "T", "4", "7", "dog", "ANIMAL"].map bytes]
          (document 5 catTitle catAbstract)) = [⟨84, 0, 3⟩]
      ∧ (checkTrim catTitle (utf8offsets catTitle) 4 7).1 = .ok (4, 7)
      ∧ (7 : Int) - 4 = utf8strlen (bytes "cat")
      ∧ readOffsets (utf8offsets catTitle) 4 = some 4
      ∧ bytesMatch (bytes "cat") catTitle 4
      ∧ ∀ off ∈ [(⟨84, 0, 3⟩ : offset)], off.section_ = 84 → ¬ ruleOverlap 4 7 off := by
  refine ⟨by decide, by decide, rfl, by decide, by decide, by decide, by decide⟩

theorem check_offset_list (c : citation) : (check c).c.offset_list = c.offset_list := by
  unfold check
  split
  · rfl
  · simp only
    split
    · rfl
    · split
      · rfl
      · split
        · rfl
        · split <;> rfl

theorem anncol_offset_list (val : List Nat) (c c1 : citation) (h : anncol val c = .ok c1) :
    c1.offset_list = c.offset_list := by
  unfold anncol at h
  simp only at h
  repeat' split at h
  all_goals first
    | (simp only [Except.ok.injEq] at h; subst h; rfl)
    | simp at h

theorem anncols_offset_list (fields : List (List Nat)) (c c1 : citation)
    (h : anncols fields c = .ok c1) : c1.offset_list = c.offset_list := by
  induction fields generalizing c with
  | nil => simp only [anncols, Except.ok.injEq] at h; subst h; rfl
  | cons val rest ih =>
    simp only [anncols] at h
    cases ha : anncol val c with
    | error f => simp [ha] at h
    | ok c2 =>
      simp only [ha] at h
      rw [ih c2 h, anncol_offset_list val c c2 ha]

theorem annrow_verdict (c : citation) : (annrow c).verdict = (check c).verdict := by
  cases hv : (check c).verdict <;> simp [annrow, hv]

theorem check_c_of_trim (c : citation) (quote : List Nat) (s e : Int)
    (hq : c.quote = some quote)
    (ht : (checkTrim (sectionText c) (sectionOffsets c) c.start c.end_).1 = .ok (s, e)) :
    (check c).c = { c with start := s, end_ := e } := by
  simp only [check, hq, ht]
  split
  · rfl
  · split
    · rfl
    · split <;> rfl

/-- When `check` returns, its trim step has returned a span, and the
citation it leaves is the one it was given with that span for `start` and
`end`, whatever the result. -/
theorem check_c_of_return (c : citation) (h : ∀ f, (check c).verdict ≠ .fault f) :
    ∃ s e, (checkTrim (sectionText c) (sectionOffsets c) c.start c.end_).1 = .ok (s, e)
      ∧ (check c).c = { c with start := s, end_ := e } := by
  obtain ⟨quote, hq⟩ : ∃ q, c.quote = some q := by
    cases hq : c.quote with
    | none => exact absurd (by simp [check, hq]) (h .nullQuote)
    | some q => exact ⟨q, rfl⟩
  cases ht : (checkTrim (sectionText c) (sectionOffsets c) c.start c.end_).1 with
  | error f => exact absurd (by simp [check, hq, ht]) (h f)
  | ok p => exact ⟨p.1, p.2, rfl, check_c_of_trim c quote p.1 p.2 hq ht⟩

/-- The span `annrow` appends is the section of the candidate with the
start and end the trim step of `check` computed, also when `check`
returned false. -/
theorem annrow_span (c : citation) (h : ∀ f, (annrow c).verdict ≠ .fault f) :
    ∃ s e, (checkTrim (sectionText c) (sectionOffsets c) c.start c.end_).1 = .ok (s, e)
      ∧ (annrow c).recorded = [⟨c.section_, s, e⟩] := by
  have hv := annrow_verdict c
  obtain ⟨s, e, ht, hc⟩ := check_c_of_return c (by rw [← hv]; exact h)
  refine ⟨s, e, ht, ?_⟩
  cases hv1 : (check c).verdict with
  | fault f => exact absurd (hv.trans hv1) (h f)
  | accept => simp [annrow, hv1, hc]
  | reject why => simp [annrow, hv1, hc]

/-- What `annrow` records when `check` returns: one span, appended to the
list, whatever the result; a line is printed exactly on `true`, and it
carries the recorded span. -/
theorem annrow_recorded (c : citation) (h : ∀ f, (annrow c).verdict ≠ .fault f) :
    (annrow c).c.offset_list = c.offset_list ++ (annrow c).recorded
      ∧ (annrow c).recorded.length = 1
      ∧ ((annrow c).verdict = .accept →
          (annrow c).printed.map (fun l => (⟨l.section_, l.start, l.end_⟩ : offset))
            = (annrow c).recorded)
      ∧ ((annrow c).verdict ≠ .accept → (annrow c).printed = []) := by
  have hol := check_offset_list c
  unfold annrow at h ⊢
  simp only at h ⊢
  cases hv : (check c).verdict with
  | fault f => simp [hv] at h
  | accept => simp [hv, hol]
  | reject why => simp [hv, hol]

/-- A call of `csv_parse` on one row returns only when every `anncol`
returned, `check` met no undefined behaviour and both calls of `free` in
`annrow` were given the start of a block; its result is then the one of
`annrow` on the citation `anncol` has filled. -/
theorem csvRow_ok (fields : List (List Nat)) (c : citation) (r : RowResult)
    (h : csvRow fields c = .ok r) :
    ∃ c1, anncols fields c = .ok c1 ∧ r = annrow c1
      ∧ (∀ f, (annrow c1).verdict ≠ .fault f) ∧ (annrow c1).stop = none := by
  unfold csvRow at h
  cases ha : anncols fields c with
  | error f => simp [ha] at h
  | ok c1 =>
    simp only [ha] at h
    cases hs : (annrow c1).stop with
    | some f =>
      cases hv : (annrow c1).verdict <;> simp [hv, hs] at h
    | none =>
      cases hv : (annrow c1).verdict with
      | fault f => simp [hv] at h
      | accept =>
        simp only [hv, hs, Except.ok.injEq] at h
        exact ⟨c1, rfl, h.symm, by simp [hv], hs⟩
      | reject why =>
        simp only [hv, hs, Except.ok.injEq] at h
        exact ⟨c1, rfl, h.symm, by simp [hv], hs⟩

theorem csvRow_recorded (fields : List (List Nat)) (c : citation) (r : RowResult)
    (h : csvRow fields c = .ok r) :
    r.c.offset_list = c.offset_list ++ r.recorded
      ∧ r.recorded.length = 1
      ∧ (r.verdict = .accept →
          r.printed.map (fun l => (⟨l.section_, l.start, l.end_⟩ : offset)) = r.recorded)
      ∧ (r.verdict ≠ .accept → r.printed = []) := by
  obtain ⟨c1, ha, hr, hnf, _⟩ := csvRow_ok fields c r h
  subst hr
  have hol := anncols_offset_list fields c c1 ha
  have := annrow_recorded c1 hnf
  rw [hol] at this
  exact this

/-- C4 (amended): after processing any sequence of annotation rows for a
document, `offset_list` holds, after the spans it held before, exactly one
span for every row processed, in processing order, whether `check` accepted
or rejected the row; the span of an accepted row is the one printed, and a
rejected row prints nothing.  The span of row `k` is the section of its
candidate (the citation `anncol` has filled from the fields of the row,
starting from the citation the row before left) with the start and end the
trim step of `check` computed for it, for a rejected row as for an accepted
one. -/
theorem csvRows_offset_list (rows : List (List (List Nat))) (c c1 : citation)
    (rs : List RowResult) (h : csvRows rows c = .ok (c1, rs)) :
    rs.length = rows.length
      ∧ c1.offset_list = c.offset_list ++ rs.flatMap (fun r => r.recorded)
      ∧ (∀ r ∈ rs, r.recorded.length = 1)
      ∧ (∀ r ∈ rs, r.verdict = .accept →
          r.printed.map (fun l => (⟨l.section_, l.start, l.end_⟩ : offset)) = r.recorded)
      ∧ (∀ r ∈ rs, r.verdict ≠ .accept → r.printed = [])
      ∧ (∀ k row r, rows.get? k = some row → rs.get? k = some r →
          ∃ before cand s e,
            (c :: rs.map (fun x => x.c)).get? k = some before
              ∧ anncols row before = .ok cand
              ∧ r.verdict = (check cand).verdict
              ∧ (checkTrim (sectionText cand) (sectionOffsets cand) cand.start cand.end_).1
                = .ok (s, e)
              ∧ r.recorded = [⟨cand.section_, s, e⟩]) := by
  induction rows generalizing c rs with
  | nil =>
    simp only [csvRows, Except.ok.injEq, Prod.mk.injEq] at h
    obtain ⟨h1, h2⟩ := h
    subst h1 h2
    simp
  | cons row rest ih =>
    simp only [csvRows] at h
    cases hr : csvRow row c with
    | error e => simp [hr] at h
    | ok r =>
      simp only [hr] at h
      cases hrest : csvRows rest r.c with
      | error e => simp [hrest] at h
      | ok p =>
        obtain ⟨c2, rs2⟩ := p
        simp only [hrest, Except.ok.injEq, Prod.mk.injEq] at h
        obtain ⟨h1, h2⟩ := h
        subst h1 h2
        obtain ⟨a1, a2, a3, a4, a5, a6⟩ := ih r.c rs2 hrest
        obtain ⟨b1, b2, b3, b4⟩ := csvRow_recorded row c r hr
        refine ⟨by simp [a1], ?_, ?_, ?_, ?_, ?_⟩
        · rw [a2, b1]; simp
        · intro x hx
          rcases List.mem_cons.1 hx with hx | hx
          · subst hx; exact b2
          · exact a3 x hx
        · intro x hx
          rcases List.mem_cons.1 hx with hx | hx
          · subst hx; exact b3
          · exact a4 x hx
        · intro x hx
          rcases List.mem_cons.1 hx with hx | hx
          · subst hx; exact b4
          · exact a5 x hx
        · intro k row1 r1 hk1 hk2
          cases k with
          | zero =>
            simp only [List.get?_cons_zero, Option.some.injEq] at hk1 hk2
            subst hk1 hk2
            obtain ⟨cand, ha, hr1, hnf, _⟩ := csvRow_ok row c r hr
            subst hr1
            obtain ⟨s, e, ht, hrec⟩ := annrow_span cand hnf
            exact ⟨c, cand, s, e, rfl, ha, annrow_verdict cand, ht, hrec⟩
          | succ k =>
            simp only [List.get?_cons_succ] at hk1 hk2
            obtain ⟨before, cand, s, e, e1, e2, e3, e4, e5⟩ := a6 k row1 r1 hk1 hk2
            exact ⟨before, cand, s, e, by simpa using e1, e2, e3, e4, e5⟩

/-- C4 (amended), at three rows of document 9 with title `The cat sat.`:
`T 0:3 The` is accepted; `T 3:8 cats` is trimmed to 4..7 and rejected (four
characters against three); `T 5:6 a` is rejected.  Three spans are
recorded, the second one as trimmed. -/
theorem csvRows_offset_list_witness :
    recordedSpans (csvRows
        [["9", "T", "0", "3", "The", "DET"].map bytes,
         ["9", "T", "3", "8", "cats", "ANIMAL"].map bytes,
         ["9", "T", "5", "6", "a", "LETTER"].map bytes]
        (document 9 catTitle catAbstract))
        = [⟨84, 0, 3⟩, ⟨84, 4, 7⟩, ⟨84, 5, 6⟩]
      ∧ verdicts (csvRows
          [["9", "T", "0", "3", "The", "DET"].map bytes,
           ["9", "T", "3", "8", "cats", "ANIMAL"].map bytes,
           ["9", "T", "5", "6", "a", "LETTER"].map bytes]
          (document 9 catTitle catAbstract))
          = [.accept, .reject .length, .reject .body]
      ∧ (rowResults (csvRows
          [["9", "T", "0", "3", "The", "DET"].map bytes,
           ["9", "T", "3", "8", "cats", "ANIMAL"].map bytes,
           ["9", "T", "5", "6", "a", "LETTER"].map bytes]
          (document 9 catTitle catAbstract))).length = 3 :=
  ⟨by decide, by decide,
    (csvRows_offset_list
      [["9", "T", "0", "3", "The", "DET"].map bytes,
       ["9", "T", "3", "8", "cats", "ANIMAL"].map bytes,
       ["9", "T", "5", "6", "a", "LETTER"].map bytes]
      (document 9 catTitle catAbstract)
      (finalCitation (csvRows
        [["9", "T", "0", "3", "The", "DET"].map bytes,
         ["9", "T", "3", "8", "cats", "ANIMAL"].map bytes,
         ["9", "T", "5", "6", "a", "LETTER"].map bytes]
        (document 9 catTitle catAbstract)) (document 9 catTitle catAbstract))
      (rowResults (csvRows
        [["9", "T", "0", "3", "The", "DET"].map bytes,
         ["9", "T", "3", "8", "cats", "ANIMAL"].map bytes,
         ["9", "T", "5", "6", "a", "LETTER"].map bytes]
        (document 9 catTitle catAbstract)))
      rfl).1⟩

/-- C4 as stated fails: in document 9 with title `The cat sat.`, the row
`T 4:7 cats` is rejected (four characters against three) and its span is
appended to `offset_list` all the same, which then holds three spans while
only 0..3 was accepted; the next row `T 5:6 a`, which matches the text, is
rejected by the body rule against that rejected span. -/
theorem csvRows_offset_list_counterexample :
    verdicts (csvRows
        [["9", "T", "0", "3", "The", "DET"].map bytes,
         ["9", "T", "4", "7", "cats", "ANIMAL"].map bytes,
         ["9", "T", "5", "6", "a", "LETTER"].map bytes]
        (document 9 catTitle catAbstract))
        = [.accept, .reject .length, .reject .body]
      ∧ recordedSpans (csvRows
          [["9", "T", "0", "3", "The", "DET"].map bytes,
           ["9", "T", "4", "7", "cats", "ANIMAL"].map bytes,
           ["9", "T", "5", "6", "a", "LETTER"].map bytes]
          (document 9 catTitle catAbstract))
          = [⟨84, 0, 3⟩, ⟨84, 4, 7⟩, ⟨84, 5, 6⟩]
      ∧ acceptedIn (csvRows
          [["9", "T", "0", "3", "The", "DET"].map bytes,
           ["9", "T", "4", "7", "cats", "ANIMAL"].map bytes,
           ["9", "T", "5", "6", "a", "LETTER"].map bytes]
          (document 9 catTitle catAbstract))
          = [⟨84, 0, 3⟩]
      ∧ ¬ ruleOverlap 5 6 ⟨84, 0, 3⟩ := by
  refine ⟨by decide, by decide, by decide, by decide⟩

/-! ## Defects: the first recorded span, the id test of anncol, the sentinel -/

/-- C2: on the example of the specification, document
`7 \t The cat sat. \t A short abstract.` with the row
`7 \t T \t 4 \t 7 \t cat \t ANIMAL` given twice, no line is printed: `anncol`
takes the end field `7` for the id column (`atol(string) == c->id`), so
`cat` is read as the end and becomes the sentinel `-2`, and both rows fail
the length check.  With the same rows in document 5 the end field is read,
and both rows are accepted and printed: `check` starts its overlap loop at
the second recorded span and never compares the second row with the
first. -/
theorem duplicate_row_output :
    printedLines (csvRows
        [["7", "T", "4", "7", "cat", "ANIMAL"].map bytes,
         ["7", "T", "4", "7", "cat", "ANIMAL"].map bytes]
        (document 7 catTitle catAbstract)) = []
      ∧ verdicts (csvRows
          [["7", "T", "4", "7", "cat", "ANIMAL"].map bytes,
           ["7", "T", "4", "7", "cat", "ANIMAL"].map bytes]
          (document 7 catTitle catAbstract)) = [.reject .length, .reject .length]
      ∧ recordedSpans (csvRows
          [["7", "T", "4", "7", "cat", "ANIMAL"].map bytes,
           ["7", "T", "4", "7", "cat", "ANIMAL"].map bytes]
          (document 7 catTitle catAbstract)) = [⟨84, 4, -2⟩, ⟨84, 4, -2⟩]
      ∧ verdicts (csvRows
          [["5", "T", "4", "7", "cat", "ANIMAL"].map bytes,
           ["5", "T", "4", "7", "cat", "ANIMAL"].map bytes]
          (document 5 catTitle catAbstract)) = [.accept, .accept]
      ∧ printedLines (csvRows
          [["5", "T", "4", "7", "cat", "ANIMAL"].map bytes,
           ["5", "T", "4", "7", "cat", "ANIMAL"].map bytes]
          (document 5 catTitle catAbstract))
          = [⟨5, 84, 4, 7, some (bytes "cat"), some (bytes "ANIMAL")⟩,
             ⟨5, 84, 4, 7, some (bytes "cat"), some (bytes "ANIMAL")⟩] := by
  refine ⟨by decide, by decide, by decide, by decide, by decide⟩

/-- C3: in document 5 with title `The cat sat.`, span A = `T 0:7 The cat`
is accepted as the first row; the later candidate B = `T 4:11 cat sat`
passes the length and content checks and overlaps A (`4 <= 7` and
`0 <= 11`), yet `check` accepts B: its overlap loop starts at the second
recorded span.  With any row recorded before A, the same B is rejected. -/
theorem overlap_with_first_span :
    verdicts (csvRows
        [["5", "T", "0", "7", "The cat", "NP"].map bytes,
         ["5", "T", "4", "11", "cat sat", "VP"].map bytes]
        (document 5 catTitle catAbstract)) = [.accept, .accept]
      ∧ ruleOverlap 4 11 ⟨84, 0, 7⟩
      ∧ ((4 : Int) ≤ 7 ∧ (0 : Int) ≤ 11)
      ∧ verdicts (csvRows
          [["5", "A", "0", "1", "A", "DET"].map bytes,
           ["5", "T", "0", "7", "The cat", "NP"].map bytes,
           ["5", "T", "4", "11", "cat sat", "VP"].map bytes]
          (document 5 catTitle catAbstract)) = [.accept, .accept, .reject .tail] := by
  refine ⟨by decide, by decide, by decide, by decide⟩

/-- The part of C5 that holds: a start field that `atoi` reads as `0` and
that is not the one byte `0` is recorded as the sentinel `-2`, when the
field does not read as the id of the document. -/
theorem anncol_start_sentinel (val : List Nat) (c : citation)
    (hid : atol (strncpy val) ≠ c.id) (hsec : c.section_ ≠ 0) (hstart : c.start = -1)
    (hval : atoi (strncpy val) = 0) (hne : val ≠ [48]) :
    anncol val c = .ok { c with start := -2 } := by
  unfold anncol
  simp only [hval]
  rw [if_neg hid, if_neg hsec, if_pos hstart, if_pos]
  refine ⟨trivial, ?_⟩
  match val, hne with
  | [], _ => right; decide
  | [b], h =>
    right
    intro hb
    apply h
    have hb0 : b ≠ 0 := by
      intro h0; subst h0; simp [strncpy, cstr] at hb
    simp only [strncpy, cstr, hb0, if_false, List.length_cons, List.length_nil,
      List.cons_append, List.headD_cons] at hb
    rw [hb]
  | _ :: _ :: _, _ => left; simp

/-- C5: in document 7 with title `The cat sat.`, the row
`7 \t T \t abc \t 9 \t cat \t ANIMAL` leaves the sentinel `-2` in `start`;
`check` then enters its first loop with `i = -2 < 9` and reads
`offsets[-2]`, outside the table, before any length check.  With the end
field unparsable too and an empty quote, the length check passes
(`0 = 0`) and `check` reads `offsets[-2]` after it. -/
theorem start_sentinel_out_of_bounds :
    anncols (["7", "T", "abc", "9", "cat", "ANIMAL"].map bytes)
        (document 7 catTitle catAbstract)
        = .ok (withCandidate (document 7 catTitle catAbstract) 84 (-2) 9 (bytes "cat")
            (bytes "ANIMAL"))
      ∧ (check (withCandidate (document 7 catTitle catAbstract) 84 (-2) 9 (bytes "cat")
          (bytes "ANIMAL"))).verdict = .fault (.offsetsOOB (-2))
      ∧ (check (withCandidate (document 7 catTitle catAbstract) 84 (-2) 9 (bytes "cat")
          (bytes "ANIMAL"))).trace = [.offsetsRead (-2)]
      ∧ csvRows [["7", "T", "abc", "9", "cat", "ANIMAL"].map bytes]
          (document 7 catTitle catAbstract) = .error (.fault (.offsetsOOB (-2)))
      ∧ (check (withCandidate (document 7 catTitle catAbstract) 84 (-2) (-2) [] 
          (bytes "ANIMAL"))).verdict = .fault (.offsetsOOB (-2)) := by
  refine ⟨rfl, by decide, by decide, rfl, by decide⟩

/-! ## Conversions and frees -/

theorem atol_range (s : List Nat) : LONG_MIN ≤ atol s ∧ atol s ≤ LONG_MAX := by
  unfold atol LONG_MIN LONG_MAX
  split
  · omega
  · split <;> omega

theorem atoi_range (s : List Nat) : -2147483648 ≤ atoi s ∧ atoi s ≤ 2147483647 := by
  unfold atoi
  omega

/-- A number in the range of `int` is read by `atoi` as by `atol`. -/
theorem atoi_eq_atol (s : List Nat) (h1 : -2147483648 ≤ atol s) (h2 : atol s ≤ 2147483647) :
    atoi s = atol s := by
  unfold atoi
  omega

/-- Numbers outside the range: `atol` saturates, `atoi` keeps the low 32
bits of what `atol` returns. -/
theorem atol_atoi_out_of_range :
    atol (bytes "99999999999999999999") = LONG_MAX
      ∧ atol (bytes "-99999999999999999999") = LONG_MIN
      ∧ atoi (bytes "2147483648") = -2147483648
      ∧ atoi (bytes "4294967299") = 3
      ∧ atoi (bytes "4294967296") = 0
      ∧ atoi (bytes "99999999999999999999") = -1 := by
  refine ⟨by decide, by decide, by decide, by decide, by decide, by decide⟩

/-- A start field of ten digits is stored as `atoi` reads it: `4294967299`
as `3`, and `4294967296`, which reads as `0`, as the sentinel `-2`. -/
theorem anncol_start_wraps :
    anncol (bytes "4294967299") { document 9 catTitle catAbstract with section_ := 84 }
        = .ok { document 9 catTitle catAbstract with section_ := 84, start := 3 }
      ∧ anncol (bytes "4294967296") { document 9 catTitle catAbstract with section_ := 84 }
        = .ok { document 9 catTitle catAbstract with section_ := 84, start := -2 } :=
  ⟨rfl, rfl⟩

/-- A one-byte section field holding a space (a quoted field `" "`): `trim`
moves the pointer to the terminating NUL, and `free(string)` (line 295) is
given a pointer that `malloc` did not return. -/
theorem anncol_section_space :
    anncol (bytes " ") (document 9 catTitle catAbstract) = .error (.fault .invalidFree) :=
  rfl

/-- A quote field with leading whitespace: the row is checked with the
trimmed quote, accepted and printed, and `free(c->quote)` (line 260) is
given the pointer `trim` moved; the call of `csv_parse` does not return.
In general the two calls of `free` in `annrow` are defined exactly when
neither pointer was moved. -/
theorem annrow_invalid_free :
    (annrow { document 9 catTitle catAbstract with
                section_ := 84, start := 0, end_ := 3, quote := some (bytes "The"),
                class_ := some (bytes "DET"), quote_lead := 1 }).stop = some .invalidFree
      ∧ anncols (["9", "T", "0", "3", " The", "DET"].map bytes)
          (document 9 catTitle catAbstract)
        = .ok { document 9 catTitle catAbstract with
                  section_ := 84, start := 0, end_ := 3, quote := some (bytes "The"),
                  class_ := some (bytes "DET"), quote_lead := 1 }
      ∧ csvRow (["9", "T", "0", "3", " The", "DET"].map bytes)
          (document 9 catTitle catAbstract) = .error (.fault .invalidFree)
      ∧ (∀ c, (annrow c).stop = none ↔
          ((∃ f, (check c).verdict = .fault f) ∨ (c.quote_lead = 0 ∧ c.class_lead = 0))) := by
  refine ⟨by decide, rfl, rfl, ?_⟩
  intro c
  have hq : (check c).c.quote_lead = c.quote_lead ∧ (check c).c.class_lead = c.class_lead := by
    unfold check
    split
    · exact ⟨rfl, rfl⟩
    · simp only
      split
      · exact ⟨rfl, rfl⟩
      · split
        · exact ⟨rfl, rfl⟩
        · split
          · exact ⟨rfl, rfl⟩
          · split <;> exact ⟨rfl, rfl⟩
  cases hv : (check c).verdict with
  | fault f => simp [annrow, hv]
  | accept =>
    simp only [annrow, hv, hq.1, hq.2]
    constructor
    · intro h
      right
      by_contra hne
      rw [if_pos (by omega)] at h
      exact absurd h (by simp)
    · rintro (⟨f, hf⟩ | ⟨h1, h2⟩)
      · exact absurd hf (by simp)
      · simp [h1, h2]
  | reject why =>
    simp only [annrow, hv, hq.1, hq.2]
    constructor
    · intro h
      right
      by_contra hne
      rw [if_pos (by omega)] at h
      exact absurd h (by simp)
    · rintro (⟨f, hf⟩ | ⟨h1, h2⟩)
      · exact absurd hf (by simp)
      · simp [h1, h2]

/-! ## The fields of a row -/

/-- C11: in document 7 the row `7 \t T \t 4 \t 7 \t cat \t ANIMAL` is not
assigned by position: `anncol` takes the end field `7` for the id column
(`atol(string) == c->id` is tested on every field), so `cat` lands in
`end` as the sentinel `-2`, `ANIMAL` in `quote`, and `class` stays `NULL`.
A quote that begins with the id is dropped in the same way.  The same row
with id 9 in document 9 is assigned by position. -/
theorem anncol_id_collision :
    anncols (["7", "T", "4", "7", "cat", "ANIMAL"].map bytes) (document 7 catTitle catAbstract)
        = .ok { document 7 catTitle catAbstract with
                section_ := 84, start := 4, end_ := -2, quote := some (bytes "ANIMAL"),
                class_ := none }
      ∧ anncols (["7", "T", "0", "3", "7 up", "DRINK"].map bytes)
          (document 7 catTitle catAbstract)
        = .ok { document 7 catTitle catAbstract with
                section_ := 84, start := 0, end_ := 3, quote := some (bytes "DRINK"),
                class_ := none }
      ∧ anncols (["9", "T", "4", "7", "cat", "ANIMAL"].map bytes)
          (document 9 catTitle catAbstract)
        = .ok (withCandidate (document 9 catTitle catAbstract) 84 4 7 (bytes "cat")
            (bytes "ANIMAL")) := by
  refine ⟨rfl, rfl, rfl⟩

/-- C12: the section test of `anncol`,
`len == 1 && (string[0] != 'A' || string[0] != 'T')`, holds for every
one-byte field: the section `X` is stored, and the row
`9 \t X \t 0 \t 3 \t The \t DET` reaches `check`, is checked against the
title and printed with section `X`.  A two-byte section is fatal. -/
theorem anncol_section_any_byte :
    anncol (bytes "X") (document 9 catTitle catAbstract)
        = .ok { document 9 catTitle catAbstract with section_ := 88 }
      ∧ verdicts (csvRows [["9", "X", "0", "3", "The", "DET"].map bytes]
          (document 9 catTitle catAbstract)) = [.accept]
      ∧ printedLines (csvRows [["9", "X", "0", "3", "The", "DET"].map bytes]
          (document 9 catTitle catAbstract))
          = [⟨9, 88, 0, 3, some (bytes "The"), some (bytes "DET")⟩]
      ∧ anncol (bytes "TA") (document 9 catTitle catAbstract)
        = .error (.fatal .illegalSection)
      ∧ anncol (bytes "T") (document 9 catTitle catAbstract)
        = .ok { document 9 catTitle catAbstract with section_ := 84 } := by
  refine ⟨rfl, by decide, by decide, rfl, rfl⟩

/-! ## What annrow prints -/

theorem ruleOverlap_iff (s e : Int) (off : offset) (hc : s ≤ e) (ho : off.start ≤ off.end_) :
    ruleOverlap s e off ↔ (s ≤ off.end_ ∧ off.start ≤ e) := by
  unfold ruleOverlap
  constructor
  · rintro (h | h | h | h) <;> omega
  · intro h
    by_cases h1 : s ≤ off.start
    · right; left; omega
    · by_cases h2 : e ≥ off.end_
      · right; right; left; omega
      · right; right; right; omega

/-- C17: for a candidate range with `start <= end` and stored entries of
the same section with `start <= end`, the chain of the duplicate, head,
tail and body rules rejects the candidate against an entry if and only if
the closed intervals intersect (`c.start <= e.end` and
`e.start <= c.end`), boundary touching included; over a list, `check`
accepts exactly when no entry of the section intersects; the duplicate
rule fires exactly for equal ranges and is the only one logged as a
message, the others being logged as warnings. -/
theorem overlap_rules (sec : Nat) (s e : Int) (off : offset) (items : List offset)
    (hc : s ≤ e) (hsec : off.section_ = sec) (ho : off.start ≤ off.end_)
    (hitems : ∀ o ∈ items, o.section_ = sec → o.start ≤ o.end_) :
    ((overlapLoop sec s e [off]).1 ≠ .accept ↔ (s ≤ off.end_ ∧ off.start ≤ e))
      ∧ ((overlapLoop sec s e [off]).1 = .reject .duplicate ↔ (s = off.start ∧ e = off.end_))
      ∧ ((overlapLoop sec s e [off]).1 = .reject .duplicate →
          (overlapLoop sec s e [off]).2
            = [.log .debug (.comparing off), .log .message .duplicate])
      ∧ (∀ why, (overlapLoop sec s e [off]).1 = .reject why → why ≠ .duplicate →
          ∃ site, (overlapLoop sec s e [off]).2
            = [.log .debug (.comparing off), .log .warning site])
      ∧ ((overlapLoop sec s e items).1 = .accept ↔
          ∀ o ∈ items, o.section_ = sec → ¬ (s ≤ o.end_ ∧ o.start ≤ e)) := by
  refine ⟨?_, ?_, ?_, ?_, ?_⟩
  · rw [← ruleOverlap_iff s e off hc ho, Ne, overlapLoop_accept]
    simp [hsec]
  · simp only [overlapLoop, hsec, if_true]
    by_cases h1 : s = off.start ∧ e = off.end_
    · simp [h1]
    · simp only [h1, if_false, iff_false]
      repeat' split
      all_goals simp
  · simp only [overlapLoop, hsec, if_true]
    by_cases h1 : s = off.start ∧ e = off.end_
    · simp [h1]
    · simp only [h1, if_false]
      repeat' split
      all_goals simp
  · intro why
    simp only [overlapLoop, hsec, if_true]
    by_cases h1 : s = off.start ∧ e = off.end_
    · simp only [h1, and_self, if_true, Verdict.reject.injEq]
      intro h hne
      exact absurd h.symm hne
    · simp only [h1, if_false]
      repeat' split
      all_goals simp
  · rw [overlapLoop_accept]
    constructor
    · intro h o ho1 ho2 hint
      exact h o ho1 ho2 ((ruleOverlap_iff s e o hc (hitems o ho1 ho2)).2 hint)
    · intro h o ho1 ho2 hr
      exact h o ho1 ho2 ((ruleOverlap_iff s e o hc (hitems o ho1 ho2)).1 hr)

/-- C17, at the ranges `[0,3)` and `[3,5)` of one section, which touch at
3: the candidate is rejected. -/
theorem overlap_rules_witness :
    (overlapLoop 84 0 3 [⟨84, 3, 5⟩]).1 = .reject .head
      ∧ ((overlapLoop 84 0 3 [⟨84, 3, 5⟩]).1 ≠ .accept ↔ ((0 : Int) ≤ 5 ∧ (3 : Int) ≤ 3)) :=
  ⟨by decide,
    (overlap_rules 84 0 3 ⟨84, 3, 5⟩ [] (by decide) rfl (by decide) (by simp)).1⟩

/-! ## The first recorded span -/

theorem check_tail_congr (c : citation) (l1 l2 : List offset) (h : l1.tail = l2.tail) :
    (check { c with offset_list := l1 }).verdict = (check { c with offset_list := l2 }).verdict
      ∧ (check { c with offset_list := l1 }).trace = (check { c with offset_list := l2 }).trace
      ∧ (check { c with offset_list := l1 }).c.start
          = (check { c with offset_list := l2 }).c.start
      ∧ (check { c with offset_list := l1 }).c.end_
          = (check { c with offset_list := l2 }).c.end_ := by
  simp only [check, sectionText, sectionOffsets, h]
  cases c.quote with
  | none => simp
  | some quote =>
    simp only
    split
    · simp
    · split
      · simp
      · split
        · simp
        · split <;> simp

theorem check_no_overlap_reject (c : citation) (h : c.offset_list.tail = []) (why : Reject)
    (hv : (check c).verdict = .reject why) : why = .length ∨ why = .content := by
  simp only [check, h] at hv
  cases hq : c.quote with
  | none => simp [hq] at hv
  | some quote =>
    simp only [hq] at hv
    split at hv
    · simp at hv
    · split at hv
      · simp only [Verdict.reject.injEq] at hv
        exact Or.inl hv.symm
      · split at hv
        · simp at hv
        · rename_i idx _
          split at hv
          · simp [overlapLoop] at hv
          · rename_i v hne
            have hc : ∀ fuel i w,
                (contentLoop quote (sectionText c) idx fuel i).1 = .reject w → w = .content := by
              intro fuel
              induction fuel with
              | zero => intro i w h; simp [contentLoop] at h
              | succ fuel ih =>
                intro i w h
                simp only [contentLoop] at h
                split at h
                · simp at h
                · split at h
                  · simp only [Verdict.reject.injEq] at h
                    exact h.symm
                  · exact ih (i + 1) w h
            exact Or.inr (hc _ _ _ hv)

theorem csvRow_no_overlap_reject (fields : List (List Nat)) (c : citation) (r : RowResult)
    (h : csvRow fields c = .ok r) (hl : c.offset_list.tail = []) (why : Reject)
    (hv : r.verdict = .reject why) : why = .length ∨ why = .content := by
  obtain ⟨c1, ha, hr, _, _⟩ := csvRow_ok fields c r h
  subst hr
  have hol := anncols_offset_list fields c c1 ha
  rw [annrow_verdict c1] at hv
  exact check_no_overlap_reject c1 (by rw [hol]; exact hl) why hv

theorem csvRows_first_two (rows : List (List (List Nat))) (c c1 : citation)
    (rs : List RowResult) (h : csvRows rows c = .ok (c1, rs)) (j : Nat) (r : RowResult)
    (hj : rs[j]? = some r) (hlen : c.offset_list.length + j ≤ 1) (why : Reject)
    (hv : r.verdict = .reject why) : why = .length ∨ why = .content := by
  induction rows generalizing c rs j with
  | nil =>
    simp only [csvRows, Except.ok.injEq, Prod.mk.injEq] at h
    obtain ⟨_, h2⟩ := h
    subst h2
    simp at hj
  | cons row rest ih =>
    simp only [csvRows] at h
    cases hr : csvRow row c with
    | error e => simp [hr] at h
    | ok r0 =>
      simp only [hr] at h
      cases hrest : csvRows rest r0.c with
      | error e => simp [hrest] at h
      | ok p =>
        obtain ⟨c2, rs2⟩ := p
        simp only [hrest, Except.ok.injEq, Prod.mk.injEq] at h
        obtain ⟨h1, h2⟩ := h
        subst h1 h2
        cases j with
        | zero =>
          simp only [List.getElem?_cons_zero, Option.some.injEq] at hj
          subst hj
          refine csvRow_no_overlap_reject row c r0 hr ?_ why hv
          cases hl : c.offset_list with
          | nil => rfl
          | cons a l =>
            rw [hl] at hlen
            cases l with
            | nil => rfl
            | cons b l => simp at hlen
        | succ j =>
          simp only [List.getElem?_cons_succ] at hj
          obtain ⟨b1, b2, _⟩ := csvRow_recorded row c r0 hr
          refine ih _ _ hrest _ hj ?_
          rw [b1, List.length_append, b2]
          omega

theorem getline_c (fresh : AnnLine) (s : LoopState) : (getline fresh s).c = s.c := by
  unfold getline
  simp only
  split <;> rfl

theorem txtrowInit_offset_list (c : citation) (st : AnnStream) :
    (txtrowInit c st).c.offset_list = [] := by
  unfold txtrowInit
  cases st.ann_line with
  | none => simp only [getline_c]
  | some l => rfl

theorem txtrowLoop_first_two (fresh : AnnLine) (fuel : Nat) (s s2 : LoopState)
    (hs : List Handed) (h : txtrowLoop fresh fuel s = .ok (s2, hs)) (j : Nat) (x : Handed)
    (hj : hs[j]? = some x) (hlen : s.c.offset_list.length + j ≤ 1) (why : Reject)
    (hv : x.row.verdict = .reject why) : why = .length ∨ why = .content := by
  induction fuel generalizing s hs j with
  | zero =>
    simp only [txtrowLoop] at h
    split at h
    · simp at h
    · simp only [Except.ok.injEq, Prod.mk.injEq] at h
      obtain ⟨_, h2⟩ := h
      subst h2
      simp at hj
  | succ fuel ih =>
    simp only [txtrowLoop] at h
    split at h
    · split at h
      · simp only [Except.ok.injEq, Prod.mk.injEq] at h
        obtain ⟨_, h2⟩ := h
        subst h2
        simp at hj
      · rename_i l hl
        cases hr : csvRow l.fields s.c with
        | error e => simp [hr] at h
        | ok r0 =>
          simp only [hr] at h
          cases hrest : txtrowLoop fresh fuel (getline fresh { s with c := r0.c }) with
          | error e => simp [hrest] at h
          | ok p =>
            obtain ⟨s3, hs3⟩ := p
            simp only [hrest, Except.ok.injEq, Prod.mk.injEq] at h
            obtain ⟨h1, h2⟩ := h
            subst h1 h2
            cases j with
            | zero =>
              simp only [List.getElem?_cons_zero, Option.some.injEq] at hj
              subst hj
              refine csvRow_no_overlap_reject l.fields s.c r0 hr ?_ why hv
              cases hl2 : s.c.offset_list with
              | nil => rfl
              | cons a t =>
                rw [hl2] at hlen
                cases t with
                | nil => rfl
                | cons b t => simp at hlen
            | succ j =>
              simp only [List.getElem?_cons_succ] at hj
              obtain ⟨b1, b2, _⟩ := csvRow_recorded l.fields s.c r0 hr
              refine ih _ _ hrest _ hj ?_
              rw [getline_c, b1, List.length_append, b2]
              omega
    · simp only [Except.ok.injEq, Prod.mk.injEq] at h
      obtain ⟨_, h2⟩ := h
      subst h2
      simp at hj

/-- C20: the overlap loop of `check` starts at the second element of the
recorded-span list.  The result of `check`, its trace and the span it
leaves are unchanged when the first recorded span is replaced by any
other; with at most one recorded span `check` never rejects by an overlap
rule; and the first two rows `txtrow` hands over for a document are never
rejected by an overlap rule. -/
theorem check_first_span_ignored (c : citation) (A B : offset) (rest : List offset) :
    (check { c with offset_list := A :: rest }).verdict
        = (check { c with offset_list := B :: rest }).verdict
      ∧ (check { c with offset_list := A :: rest }).trace
        = (check { c with offset_list := B :: rest }).trace
      ∧ (check { c with offset_list := A :: rest }).c.start
        = (check { c with offset_list := B :: rest }).c.start
      ∧ (check { c with offset_list := A :: rest }).c.end_
        = (check { c with offset_list := B :: rest }).c.end_
      ∧ (∀ why, (check { c with offset_list := [A] }).verdict = .reject why →
          why = .length ∨ why = .content)
      ∧ (∀ why, (check { c with offset_list := [] }).verdict = .reject why →
          why = .length ∨ why = .content)
      ∧ (∀ st c1 st1 hs, txtrow c st = .ok (c1, st1, hs) →
          ∀ j x, j < 2 → hs[j]? = some x →
            ∀ why, x.row.verdict = .reject why → why = .length ∨ why = .content) := by
  refine ⟨(check_tail_congr c (A :: rest) (B :: rest) rfl).1, (check_tail_congr c (A :: rest) (B :: rest) rfl).2.1,
    (check_tail_congr c (A :: rest) (B :: rest) rfl).2.2.1, (check_tail_congr c (A :: rest) (B :: rest) rfl).2.2.2,
    fun why hv => check_no_overlap_reject { c with offset_list := [A] } rfl why hv,
    fun why hv => check_no_overlap_reject { c with offset_list := [] } rfl why hv, ?_⟩
  intro st c1 st1 hs h j x hj hx why hv
  unfold txtrow at h
  split at h
  · simp at h
  · rename_i s2 hs2 hloop
    simp only [Except.ok.injEq, Prod.mk.injEq] at h
    obtain ⟨_, _, h3⟩ := h
    subst h3
    refine txtrowLoop_first_two _ _ _ _ _ hloop j x hx ?_ why hv
    rw [txtrowInit_offset_list]
    simp only [List.length_nil]
    omega

/-! ## One document at a time -/

/-- C15: `txtrow` empties the recorded-span list before it hands over any
row, so what it does for a document does not depend on the spans recorded
for earlier documents; and a candidate `check` accepted in one document is
accepted again, with an empty recorded-span list, in any document whose
section text and offset table are the same.  In the run of documents 5 and
9, both titled `The cat sat.`, the row `T 4:7 cat` is accepted and printed
for each. -/
theorem txtrow_resets (c : citation) (st : AnnStream) (spans : List offset) :
    txtrow { c with offset_list := spans } st = txtrow c st
      ∧ (∀ c2 : citation, c2.quote = c.quote → c2.section_ = c.section_ →
          c2.start = c.start → c2.end_ = c.end_ → sectionText c2 = sectionText c →
          sectionOffsets c2 = sectionOffsets c → c2.offset_list = [] →
          (check c).verdict = .accept → (check c2).verdict = .accept)
      ∧ runOutput (run [⟨5, catTitle, catAbstract⟩, ⟨9, catTitle, catAbstract⟩] citation0
          (stream0 [annLine ["5", "T", "4", "7", "cat", "ANIMAL"],
                    annLine ["9", "T", "4", "7", "cat", "ANIMAL"]] ⟨[], []⟩))
          = [⟨5, 84, 4, 7, some (bytes "cat"), some (bytes "ANIMAL")⟩,
             ⟨9, 84, 4, 7, some (bytes "cat"), some (bytes "ANIMAL")⟩] := by
  refine ⟨rfl, ?_, by decide⟩
  intro c2 hq hsec hs he htext hoffs hl h
  obtain ⟨quote, hq1⟩ : ∃ q, c.quote = some q := by
    cases hq1 : c.quote with
    | none => simp [check, hq1] at h
    | some q => exact ⟨q, rfl⟩
  obtain ⟨s1, e1, h1, h2, h3, _⟩ := (check_accept_tail c quote hq1).1 h
  rw [check_accept_tail c2 quote (hq.trans hq1)]
  refine ⟨s1, e1, ?_, h2, ?_, ?_⟩
  · rw [htext, hoffs, hs, he]; exact h1
  · rw [htext, hoffs]; exact h3
  · rw [hl]; simp

/-! ## The stream joiner -/

theorem anncol_id (val : List Nat) (c c1 : citation) (h : anncol val c = .ok c1) :
    c1.id = c.id := by
  unfold anncol at h
  simp only at h
  repeat' split at h
  all_goals first
    | (simp only [Except.ok.injEq] at h; subst h; rfl)
    | simp at h

theorem anncols_id (fields : List (List Nat)) (c c1 : citation)
    (h : anncols fields c = .ok c1) : c1.id = c.id := by
  induction fields generalizing c with
  | nil => simp only [anncols, Except.ok.injEq] at h; subst h; rfl
  | cons val rest ih =>
    simp only [anncols] at h
    cases ha : anncol val c with
    | error f => simp [ha] at h
    | ok c2 =>
      simp only [ha] at h
      rw [ih c2 h, anncol_id val c c2 ha]

theorem check_id (c : citation) : (check c).c.id = c.id := by
  unfold check
  split
  · rfl
  · simp only
    split
    · rfl
    · split
      · rfl
      · split
        · rfl
        · split <;> rfl

theorem annrow_id (c : citation) : (annrow c).c.id = c.id := by
  have := check_id c
  cases hv : (check c).verdict <;> simp [annrow, hv, this]

theorem csvRow_id (fields : List (List Nat)) (c : citation) (r : RowResult)
    (h : csvRow fields c = .ok r) : r.c.id = c.id := by
  obtain ⟨c1, ha, hr, _, _⟩ := csvRow_ok fields c r h
  subst hr
  rw [annrow_id, anncols_id fields c c1 ha]

theorem loopCond_iff (s : LoopState) (l : AnnLine) (hl : s.line = some l) (hb : s.bytes ≠ -1) :
    loopCond s = true ↔ lineId l = s.c.id := by
  simp [loopCond, hl, hb, lineId]

theorem loopCond_eof (s : LoopState) (hb : s.bytes = -1) : loopCond s = false := by
  unfold loopCond
  cases s.line <;> simp [hb]

theorem txtrowLoop_exit (fresh : AnnLine) (fuel : Nat) (s : LoopState)
    (h : loopCond s = false) : txtrowLoop fresh fuel s = .ok (s, []) := by
  cases fuel <;> simp [txtrowLoop, h]

/-- The loop of `txtrow`, entered with a line in hand: it hands over the
lines that read as the id of the document, from the line in hand on, and
stops at the first that does not, which it keeps in hand; or it reaches
the end of the file, and the buffer then holds the last line handed over
or is a new one. -/
theorem txtrowLoop_spec (fresh : AnnLine) (fuel : Nat) (s s2 : LoopState) (hs : List Handed)
    (l : AnnLine) (hline : s.line = some l) (hb : s.bytes ≠ -1)
    (hfuel : s.file.length + 1 ≤ fuel) (h : txtrowLoop fresh fuel s = .ok (s2, hs)) :
    hs.map (fun x => (x.doc, x.line))
        = ((l :: s.file).takeWhile (fun x => lineId x == s.c.id)).map (fun x => (s.c.id, x))
      ∧ s2.c.id = s.c.id
      ∧ ((∃ l2, s2.line = some l2
            ∧ (l :: s.file).dropWhile (fun x => lineId x == s.c.id) = l2 :: s2.file)
          ∨ ((l :: s.file).dropWhile (fun x => lineId x == s.c.id) = [] ∧ s2.file = []
              ∧ ∃ x, s2.line = some x ∧ (x = fresh ∨ lineId x = s.c.id))) := by
  induction fuel generalizing s l hs with
  | zero => omega
  | succ fuel ih =>
    obtain ⟨c, bytes, line, chars, file⟩ := s
    simp only at hline hb hfuel ⊢
    subst hline
    by_cases hc : lineId l = c.id
    · have hcond := (loopCond_iff ⟨c, bytes, some l, chars, file⟩ l rfl hb).2 hc
      simp only [txtrowLoop, hcond, if_true] at h
      cases hr : csvRow l.fields c with
      | error e => simp [hr] at h
      | ok r =>
        simp only [hr] at h
        have hid := csvRow_id l.fields c r hr
        cases file with
        | nil =>
          have hg : loopCond (getline fresh ⟨r.c, bytes, some l, chars, []⟩) = false := by
            apply loopCond_eof
            simp [getline]
          rw [txtrowLoop_exit fresh fuel _ hg] at h
          simp only [Except.ok.injEq, Prod.mk.injEq] at h
          obtain ⟨h1, h2⟩ := h
          subst h1 h2
          refine ⟨by simp [hc], by rw [getline_c]; exact hid, Or.inr ⟨by simp [hc], ?_, ?_⟩⟩
          · simp [getline]
          · simp only [getline]
            by_cases hch : chars = 0
            · exact ⟨fresh, by simp [hch], Or.inl rfl⟩
            · exact ⟨l, by simp [hch], Or.inr hc⟩
        | cons l2 rest =>
          cases hrest : txtrowLoop fresh fuel (getline fresh ⟨r.c, bytes, some l, chars, l2 :: rest⟩) with
          | error e => simp [hrest] at h
          | ok p =>
            obtain ⟨s3, hs3⟩ := p
            simp only [hrest, Except.ok.injEq, Prod.mk.injEq] at h
            obtain ⟨h1, h2⟩ := h
            subst h1 h2
            have hg1 : (getline fresh ⟨r.c, bytes, some l, chars, l2 :: rest⟩).line = some l2 := by
              simp [getline]
            have hg2 : (getline fresh ⟨r.c, bytes, some l, chars, l2 :: rest⟩).file = rest := by
              simp [getline]
            have hg3 : (getline fresh ⟨r.c, bytes, some l, chars, l2 :: rest⟩).bytes ≠ -1 := by
              simp only [getline]
              omega
            have hg4 : (getline fresh ⟨r.c, bytes, some l, chars, l2 :: rest⟩).c.id = c.id := by
              rw [getline_c]; exact hid
            obtain ⟨a1, a2, a3⟩ := ih _ _ l2 hg1 hg3
              (by rw [hg2]; simp only [List.length_cons] at hfuel; omega) hrest
            rw [hg2, hg4] at a1 a3
            refine ⟨?_, a2.trans hg4, ?_⟩
            · rw [List.takeWhile_cons_of_pos (by simpa using hc)]
              simp only [List.map_cons, a1]
            · rw [List.dropWhile_cons_of_pos (by simpa using hc)]
              exact a3
    · have hcond : loopCond ⟨c, bytes, some l, chars, file⟩ = false := by
        have := (loopCond_iff ⟨c, bytes, some l, chars, file⟩ l rfl hb).not.2 hc
        simpa using this
      rw [txtrowLoop_exit fresh _ _ hcond] at h
      simp only [Except.ok.injEq, Prod.mk.injEq] at h
      obtain ⟨h1, h2⟩ := h
      subst h1 h2
      refine ⟨?_, rfl, Or.inl ⟨l, rfl, ?_⟩⟩
      · rw [List.takeWhile_cons_of_neg (by simpa using hc)]
        rfl
      · rw [List.dropWhile_cons_of_neg (by simpa using hc)]

theorem txtrowInit_id (c : citation) (st : AnnStream) : (txtrowInit c st).c.id = c.id := by
  unfold txtrowInit
  cases st.ann_line with
  | none => simp only [getline_c]
  | some l => rfl

theorem txtrowInit_stored (c : citation) (st : AnnStream) (l : AnnLine)
    (h : st.ann_line = some l) :
    (txtrowInit c st).line = some l ∧ (txtrowInit c st).bytes ≠ -1
      ∧ (txtrowInit c st).file = st.ann_file := by
  unfold txtrowInit
  simp only [h]
  refine ⟨trivial, ?_, trivial⟩
  omega

theorem txtrowInit_first (c : citation) (st : AnnStream) (l : AnnLine) (rest : List AnnLine)
    (h : st.ann_line = none) (hf : st.ann_file = l :: rest) :
    (txtrowInit c st).line = some l ∧ (txtrowInit c st).bytes ≠ -1
      ∧ (txtrowInit c st).file = rest := by
  unfold txtrowInit
  simp only [h, hf, getline]
  refine ⟨trivial, ?_, trivial⟩
  omega

theorem txtrowInit_empty (c : citation) (st : AnnStream)
    (h : st.ann_line = none) (hf : st.ann_file = []) :
    (txtrowInit c st).line = some st.fresh ∧ (txtrowInit c st).bytes = -1
      ∧ (txtrowInit c st).file = [] := by
  unfold txtrowInit
  simp [h, hf, getline]

/-- What `txtrow` does to the stream, for a document with id `c.id`: it
hands over the rows not yet handed over that read as this id, up to the
first that does not, and leaves the stream ready for the documents to
come. -/
theorem txtrow_spec (c : citation) (st : AnnStream) (rest : List AnnLine) (ids : List Int)
    (c1 : citation) (st1 : AnnStream) (hs : List Handed)
    (hinv : joinInv st rest (c.id :: ids))
    (hfresh : ∀ i ∈ ids, lineId st.fresh ≠ i) (hasc : ∀ i ∈ ids, c.id ≠ i)
    (h : txtrow c st = .ok (c1, st1, hs)) :
    hs.map (fun x => (x.doc, x.line))
        = (rest.takeWhile (fun x => lineId x == c.id)).map (fun x => (c.id, x))
      ∧ joinInv st1 (rest.dropWhile (fun x => lineId x == c.id)) ids
      ∧ st1.fresh = st.fresh := by
  unfold txtrow at h
  cases hloop : txtrowLoop st.fresh ((txtrowInit c st).file.length + 1) (txtrowInit c st) with
  | error e => simp [hloop] at h
  | ok p =>
    obtain ⟨s2, hs2⟩ := p
    simp only [hloop, Except.ok.injEq, Prod.mk.injEq] at h
    obtain ⟨_, h2, h3⟩ := h
    subst h2 h3
    have hid := txtrowInit_id c st
    -- the conclusion, once the loop is entered with the line `l` in hand
    have key : ∀ l, (txtrowInit c st).line = some l → (txtrowInit c st).bytes ≠ -1 →
        rest = l :: (txtrowInit c st).file →
        hs2.map (fun x => (x.doc, x.line))
            = (rest.takeWhile (fun x => lineId x == c.id)).map (fun x => (c.id, x))
          ∧ joinInv ⟨s2.file, s2.line, st.fresh⟩
              (rest.dropWhile (fun x => lineId x == c.id)) ids := by
      intro l hl hb hrest
      obtain ⟨a1, _, a3⟩ := txtrowLoop_spec st.fresh _ _ s2 hs2 l hl hb (le_refl _) hloop
      rw [hid, ← hrest] at a1 a3
      refine ⟨a1, ?_⟩
      rcases a3 with ⟨l2, b1, b2⟩ | ⟨b1, b2, x, b3, b4⟩
      · exact Or.inr (Or.inl ⟨l2, b1, b2⟩)
      · refine Or.inr (Or.inr ⟨x, b3, b2, b1, ?_⟩)
        intro i hi
        rcases b4 with b4 | b4
        · rw [b4]; exact hfresh i hi
        · rw [b4]; exact hasc i hi
    rcases hinv with ⟨h1, h2⟩ | ⟨l, h1, h2⟩ | ⟨x, h1, h2, h3, h4⟩
    · cases hf : st.ann_file with
      | nil =>
        obtain ⟨e1, e2, e3⟩ := txtrowInit_empty c st h1 hf
        rw [txtrowLoop_exit st.fresh _ _ (loopCond_eof _ e2)] at hloop
        simp only [Except.ok.injEq, Prod.mk.injEq] at hloop
        obtain ⟨g1, g2⟩ := hloop
        subst g1 g2
        rw [hf] at h2
        subst h2
        refine ⟨rfl, Or.inr (Or.inr ⟨st.fresh, e1, e3, rfl, hfresh⟩), rfl⟩
      | cons l rest2 =>
        obtain ⟨e1, e2, e3⟩ := txtrowInit_first c st l rest2 h1 hf
        obtain ⟨k1, k2⟩ := key l e1 e2 (by rw [e3, ← h2, hf])
        exact ⟨k1, k2, rfl⟩
    · obtain ⟨e1, e2, e3⟩ := txtrowInit_stored c st l h1
      obtain ⟨k1, k2⟩ := key l e1 e2 (by rw [e3, h2])
      exact ⟨k1, k2, rfl⟩
    · obtain ⟨e1, e2, e3⟩ := txtrowInit_stored c st x h1
      have hne : lineId x ≠ (txtrowInit c st).c.id := by
        rw [hid]; exact h4 c.id (List.mem_cons_self _ _)
      have hcond : loopCond (txtrowInit c st) = false := by
        have := (loopCond_iff _ x e1 e2).not.2 hne
        simpa using this
      rw [txtrowLoop_exit st.fresh _ _ hcond] at hloop
      simp only [Except.ok.injEq, Prod.mk.injEq] at hloop
      obtain ⟨g1, g2⟩ := hloop
      subst g1 g2
      subst h3
      refine ⟨rfl, Or.inr (Or.inr ⟨x, e1, by rw [e3, h2], rfl, ?_⟩), rfl⟩
      intro i hi
      exact h4 i (List.mem_cons_of_mem _ hi)

theorem dropWhile_id_lt (rest : List AnnLine) (d : Int)
    (hsorted : (rest.map lineId).Pairwise (· ≤ ·)) (hge : ∀ l ∈ rest, d ≤ lineId l) :
    ∀ l ∈ rest.dropWhile (fun x => lineId x == d), d < lineId l := by
  induction rest with
  | nil => simp
  | cons a t ih =>
    simp only [List.map_cons, List.pairwise_cons] at hsorted
    by_cases ha : lineId a = d
    · rw [List.dropWhile_cons_of_pos (by simpa using ha)]
      exact ih hsorted.2 (fun l hl => hge l (List.mem_cons_of_mem _ hl))
    · rw [List.dropWhile_cons_of_neg (by simpa using ha)]
      have h1 : d < lineId a := by
        have := hge a (List.mem_cons_self _ _)
        omega
      intro l hl
      rcases List.mem_cons.1 hl with h | h
      · subst h; exact h1
      · have := hsorted.1 (lineId l) (List.mem_map_of_mem _ h)
        omega

theorem takeWhile_id_map (rest : List AnnLine) (d : Int) :
    (rest.takeWhile (fun x => lineId x == d)).map (fun x => (d, x))
      = (rest.takeWhile (fun x => lineId x == d)).map (fun x => (lineId x, x)) := by
  apply List.map_congr_left
  intro x hx
  have := List.mem_takeWhile_imp hx
  simp only [beq_iff_eq] at this
  rw [this]

/-- The loop of `run` over documents with ascending ids, entered with the
stream ready for them: the rows not yet handed over, sorted by id and each
with the id of a document to come, are handed over in order, each while
the document with its id is current. -/
theorem run_join (docs : List DocRow) (c : citation) (st : AnnStream) (rest : List AnnLine)
    (c1 : citation) (st1 : AnnStream) (hs : List Handed)
    (hdocs : (docs.map (fun d => d.id)).Pairwise (· < ·))
    (hfresh : ∀ d ∈ docs, lineId st.fresh ≠ d.id)
    (hinv : joinInv st rest (docs.map (fun d => d.id)))
    (hsorted : (rest.map lineId).Pairwise (· ≤ ·))
    (hmem : ∀ l ∈ rest, lineId l ∈ docs.map (fun d => d.id))
    (h : run docs c st = .ok (c1, st1, hs)) :
    hs.map (fun x => (x.doc, x.line)) = rest.map (fun l => (lineId l, l)) := by
  induction docs generalizing c st rest hs with
  | nil =>
    have hrest : rest = [] := by
      cases rest with
      | nil => rfl
      | cons a t => simpa using hmem a (List.mem_cons_self _ _)
    simp only [run, Except.ok.injEq, Prod.mk.injEq] at h
    obtain ⟨_, _, h3⟩ := h
    subst h3 hrest
    rfl
  | cons d ds ih =>
    simp only [run] at h
    have h0 : d.id ≠ 0 := by
      intro h0
      simp [h0] at h
    rw [if_neg h0] at h
    cases ht : txtrow (txtcols d c) st with
    | error e => simp [ht] at h
    | ok p =>
      obtain ⟨c2, st2, hs1⟩ := p
      simp only [ht] at h
      cases hr : run ds c2 st2 with
      | error e => simp [hr] at h
      | ok q =>
        obtain ⟨c3, st3, hs2⟩ := q
        simp only [hr, Except.ok.injEq, Prod.mk.injEq] at h
        obtain ⟨h1, h2, h3⟩ := h
        subst h1 h2 h3
        simp only [List.map_cons, List.pairwise_cons] at hdocs
        have hid : (txtcols d c).id = d.id := rfl
        obtain ⟨a1, a2, a3⟩ := txtrow_spec (txtcols d c) st rest (ds.map (fun d => d.id))
          c2 st2 hs1 (by rw [hid]; simpa using hinv)
          (by
            intro i hi
            obtain ⟨x, hx, rfl⟩ := List.mem_map.1 hi
            exact hfresh x (List.mem_cons_of_mem _ hx))
          (by
            intro i hi
            rw [hid]
            have := hdocs.1 i hi
            omega)
          ht
        rw [hid] at a1 a2
        have hge : ∀ l ∈ rest, d.id ≤ lineId l := by
          intro l hl
          have := hmem l hl
          simp only [List.map_cons, List.mem_cons] at this
          rcases this with h1 | h1
          · omega
          · have := hdocs.1 _ h1
            omega
        have hlt := dropWhile_id_lt rest d.id hsorted hge
        have hsub : (rest.dropWhile (fun x => lineId x == d.id)).Sublist rest :=
          List.dropWhile_sublist _
        have ih1 := ih c2 st2 (rest.dropWhile (fun x => lineId x == d.id)) hs2 hdocs.2
          (by
            intro x hx
            rw [a3]
            exact hfresh x (List.mem_cons_of_mem _ hx))
          a2
          (List.Pairwise.sublist (List.Sublist.map lineId hsub) hsorted)
          (by
            intro l hl
            have h1 := hmem l (hsub.subset hl)
            have h2 := hlt l hl
            simp only [List.map_cons, List.mem_cons] at h1
            rcases h1 with h1 | h1
            · omega
            · exact h1)
          hr
        rw [List.map_append, a1, ih1, takeWhile_id_map, ← List.map_append,
          List.takeWhile_append_dropWhile]

theorem anncol_fuel (val : List Nat) (c : citation) :
    anncol val c ≠ .error (.fault .fuel) := by
  unfold anncol
  simp only
  repeat' split
  all_goals simp

theorem anncols_fuel (fields : List (List Nat)) (c : citation) :
    anncols fields c ≠ .error (.fault .fuel) := by
  induction fields generalizing c with
  | nil => simp [anncols]
  | cons val rest ih =>
    simp only [anncols]
    cases ha : anncol val c with
    | error e =>
      simp only
      intro h
      injection h with h
      subst h
      exact anncol_fuel _ _ ha
    | ok c1 => exact ih c1

theorem annrow_stop (c : citation) :
    (annrow c).stop = none ∨ (annrow c).stop = some .invalidFree := by
  unfold annrow
  simp only
  cases hv : (check c).verdict with
  | fault f => simp
  | accept => simp only; split <;> simp
  | reject why => simp only; split <;> simp

theorem csvRow_fuel (fields : List (List Nat)) (c : citation) :
    csvRow fields c ≠ .error (.fault .fuel) := by
  intro h
  unfold csvRow at h
  cases ha : anncols fields c with
  | error e =>
    simp only [ha] at h
    injection h with h
    subst h
    exact anncols_fuel _ _ ha
  | ok c1 =>
    simp only [ha] at h
    have hv := annrow_verdict c1
    have hf := check_fuel c1
    have hs := annrow_stop c1
    cases hv1 : (annrow c1).verdict with
    | fault f =>
      simp only [hv1] at h
      injection h with h
      injection h with h
      subst h
      rw [hv1] at hv
      exact hf hv.symm
    | accept =>
      rcases hs with hs | hs <;> simp [hv1, hs] at h
    | reject why =>
      rcases hs with hs | hs <;> simp [hv1, hs] at h

/-- The fuel `txtrow` gives its loop is enough: the loop never stops for
lack of fuel. -/
theorem txtrowLoop_fuel (fresh : AnnLine) (fuel : Nat) (s : LoopState)
    (hfuel : s.file.length + 1 ≤ fuel) : txtrowLoop fresh fuel s ≠ .error (.fault .fuel) := by
  induction fuel generalizing s with
  | zero => omega
  | succ fuel ih =>
    obtain ⟨c, bytes, line, chars, file⟩ := s
    simp only at hfuel
    simp only [txtrowLoop]
    split
    · cases line with
      | none => simp
      | some l =>
        simp only
        cases hr : csvRow l.fields c with
        | error e =>
          simp only
          intro h
          injection h with h
          subst h
          exact csvRow_fuel _ _ hr
        | ok r =>
          simp only
          cases file with
          | nil =>
            have hg : loopCond (getline fresh ⟨r.c, bytes, some l, chars, []⟩) = false := by
              apply loopCond_eof
              simp [getline]
            rw [txtrowLoop_exit fresh fuel _ hg]
            simp
          | cons l2 rest =>
            have := ih (getline fresh ⟨r.c, bytes, some l, chars, l2 :: rest⟩)
              (by simp only [getline, List.length_cons] at hfuel ⊢; omega)
            cases hrest : txtrowLoop fresh fuel
                (getline fresh ⟨r.c, bytes, some l, chars, l2 :: rest⟩) with
            | error e =>
              simp only
              intro h
              injection h with h
              subst h
              exact this hrest
            | ok p => simp
    · simp

theorem txtrow_fuel (c : citation) (st : AnnStream) : txtrow c st ≠ .error (.fault .fuel) := by
  unfold txtrow
  have := txtrowLoop_fuel st.fresh _ (txtrowInit c st) (le_refl _)
  cases hl : txtrowLoop st.fresh ((txtrowInit c st).file.length + 1) (txtrowInit c st) with
  | error e =>
    simp only
    intro h
    injection h with h
    subst h
    exact this hl
  | ok p => simp

/-- The loop of `run` never stops for lack of fuel. -/
theorem run_fuel (docs : List DocRow) (c : citation) (st : AnnStream) :
    run docs c st ≠ .error (.fault .fuel) := by
  induction docs generalizing c st with
  | nil => simp [run]
  | cons d ds ih =>
    simp only [run]
    split
    · simp
    have h1 := txtrow_fuel (txtcols d c) st
    cases ht : txtrow (txtcols d c) st with
    | error e =>
      simp only
      intro h
      injection h with h
      subst h
      exact h1 ht
    | ok p =>
      obtain ⟨c2, st2, hs1⟩ := p
      simp only
      have h2 := ih c2 st2
      cases hr : run ds c2 st2 with
      | error e =>
        simp only
        intro h
        injection h with h
        subst h
        exact h2 hr
      | ok q => simp

theorem txtrow_blocked (c : citation) (u : AnnLine) (file : List AnnLine) (fresh : AnnLine)
    (hne : lineId u ≠ c.id) :
    ∃ c1, txtrow c ⟨file, some u, fresh⟩ = .ok (c1, ⟨file, some u, fresh⟩, []) := by
  obtain ⟨e1, e2, e3⟩ := txtrowInit_stored c ⟨file, some u, fresh⟩ u rfl
  have hcond : loopCond (txtrowInit c ⟨file, some u, fresh⟩) = false := by
    have := (loopCond_iff _ u e1 e2).not.2 (by rw [txtrowInit_id]; exact hne)
    simpa using this
  unfold txtrow
  rw [txtrowLoop_exit _ _ _ hcond]
  simp only [e1, e3]
  exact ⟨_, rfl⟩

theorem run_blocked (docs : List DocRow) (c : citation) (u : AnnLine) (file : List AnnLine)
    (fresh : AnnLine) (hun : ∀ d ∈ docs, lineId u ≠ d.id) (hid : ∀ d ∈ docs, d.id ≠ 0) :
    ∃ c1, run docs c ⟨file, some u, fresh⟩ = .ok (c1, ⟨file, some u, fresh⟩, []) := by
  induction docs generalizing c with
  | nil => exact ⟨c, rfl⟩
  | cons d ds ih =>
    obtain ⟨c2, h2⟩ := txtrow_blocked (txtcols d c) u file fresh
      (hun d (List.mem_cons_self _ _))
    obtain ⟨c3, h3⟩ := ih c2 (fun x hx => hun x (List.mem_cons_of_mem _ hx))
      (fun x hx => hid x (List.mem_cons_of_mem _ hx))
    refine ⟨c3, ?_⟩
    simp only [run, if_neg (hid d (List.mem_cons_self _ _)), h2, h3, List.append_nil]

/-- With a stored row that matches no document, no row is handed over,
whether the run ends or stops at a document whose id reads as `0`. -/
theorem run_blocked_handed (docs : List DocRow) (c : citation) (u : AnnLine)
    (file : List AnnLine) (fresh : AnnLine) (hun : ∀ d ∈ docs, lineId u ≠ d.id) :
    runHanded (run docs c ⟨file, some u, fresh⟩) = [] := by
  induction docs generalizing c with
  | nil => rfl
  | cons d ds ih =>
    obtain ⟨c2, h2⟩ := txtrow_blocked (txtcols d c) u file fresh
      (hun d (List.mem_cons_self _ _))
    have h3 := ih c2 (fun x hx => hun x (List.mem_cons_of_mem _ hx))
    simp only [run]
    split
    · rfl
    · simp only [h2]
      cases hr : run ds c2 ⟨file, some u, fresh⟩ with
      | error e => rfl
      | ok q =>
        rw [hr] at h3
        simpa [runHanded] using h3

/-- A first line of the file that matches no document is stored by the
first document and no row is handed over, whether the run ends or stops at
a document whose id reads as `0`. -/
theorem run_blocked_first (docs : List DocRow) (c : citation) (u : AnnLine)
    (file : List AnnLine) (fresh : AnnLine) (hun : ∀ d ∈ docs, lineId u ≠ d.id) :
    runHanded (run docs c ⟨u :: file, none, fresh⟩) = [] := by
  cases docs with
  | nil => rfl
  | cons d ds =>
    have hd := hun d (List.mem_cons_self _ _)
    obtain ⟨e1, e2, e3⟩ := txtrowInit_first (txtcols d c) ⟨u :: file, none, fresh⟩ u file rfl rfl
    have hcond : loopCond (txtrowInit (txtcols d c) ⟨u :: file, none, fresh⟩) = false := by
      have := (loopCond_iff _ u e1 e2).not.2 (by rw [txtrowInit_id]; exact hd)
      simpa using this
    have h3 := run_blocked_handed ds
      { (txtrowInit (txtcols d c) ⟨u :: file, none, fresh⟩).c with flag := false } u file fresh
      (fun x hx => hun x (List.mem_cons_of_mem _ hx))
    simp only [run]
    split
    · rfl
    · simp only [txtrow, txtrowLoop_exit _ _ _ hcond, e1, e3]
      cases hr : run ds
          { (txtrowInit (txtcols d c) ⟨u :: file, none, fresh⟩).c with flag := false }
          ⟨file, some u, fresh⟩ with
      | error e => rfl
      | ok q =>
        rw [hr] at h3
        simpa [runHanded] using h3

/-- C13 (amended): an annotation row whose id matches no document is not
dropped.  Once it is the stored line it stays the stored line for every
later document: the joiner reads no further line and hands no row to the
validator, so the documents that come after it receive no annotation rows;
the same holds when it is the first line of the file.  The run ends in
this state when no document id reads as `0` (where the program reads
through a `NULL` pointer); with such a document no row is handed over
either. -/
theorem unmatched_row_blocks (docs : List DocRow) (c : citation) (u : AnnLine)
    (file : List AnnLine) (fresh : AnnLine) (hun : ∀ d ∈ docs, lineId u ≠ d.id) :
    ((∀ d ∈ docs, d.id ≠ 0) →
        (∃ c1, run docs c ⟨file, some u, fresh⟩ = .ok (c1, ⟨file, some u, fresh⟩, []))
          ∧ (docs ≠ [] →
              ∃ c1, run docs c ⟨u :: file, none, fresh⟩
                = .ok (c1, ⟨file, some u, fresh⟩, [])))
      ∧ runHanded (run docs c ⟨file, some u, fresh⟩) = []
      ∧ runHanded (run docs c ⟨u :: file, none, fresh⟩) = [] := by
  refine ⟨fun hid => ⟨run_blocked docs c u file fresh hun hid, ?_⟩,
    run_blocked_handed docs c u file fresh hun, run_blocked_first docs c u file fresh hun⟩
  intro hne
  cases docs with
  | nil => exact absurd rfl hne
  | cons d ds =>
    have hd := hun d (List.mem_cons_self _ _)
    obtain ⟨e1, e2, e3⟩ := txtrowInit_first (txtcols d c) ⟨u :: file, none, fresh⟩ u file rfl rfl
    have hcond : loopCond (txtrowInit (txtcols d c) ⟨u :: file, none, fresh⟩) = false := by
      have := (loopCond_iff _ u e1 e2).not.2 (by rw [txtrowInit_id]; exact hd)
      simpa using this
    obtain ⟨c3, h3⟩ := run_blocked ds
      { (txtrowInit (txtcols d c) ⟨u :: file, none, fresh⟩).c with flag := false } u file fresh
      (fun x hx => hun x (List.mem_cons_of_mem _ hx))
      (fun x hx => hid x (List.mem_cons_of_mem _ hx))
    refine ⟨c3, ?_⟩
    simp only [run, if_neg (hid d (List.mem_cons_self _ _)), txtrow,
      txtrowLoop_exit _ _ _ hcond, e1, e3, h3, List.append_nil]

/-- C13 (amended), at documents 1 and 3 with the stored row of id 2 and a
row of id 3 still in the file: nothing is handed over. -/
theorem unmatched_row_blocks_witness :
    runHanded (run [⟨1, catTitle, catAbstract⟩, ⟨3, catTitle, catAbstract⟩] citation0
        ⟨[annLine ["3", "T", "4", "7", "cat", "ANIMAL"]],
         some (annLine ["2", "T", "4", "7", "cat", "ANIMAL"]), ⟨[], []⟩⟩) = []
      ∧ ∃ c1, run [⟨1, catTitle, catAbstract⟩, ⟨3, catTitle, catAbstract⟩] citation0
          ⟨[annLine ["3", "T", "4", "7", "cat", "ANIMAL"]],
           some (annLine ["2", "T", "4", "7", "cat", "ANIMAL"]), ⟨[], []⟩⟩
          = .ok (c1, ⟨[annLine ["3", "T", "4", "7", "cat", "ANIMAL"]],
                      some (annLine ["2", "T", "4", "7", "cat", "ANIMAL"]), ⟨[], []⟩⟩, []) :=
  ⟨by decide,
    ((unmatched_row_blocks [⟨1, catTitle, catAbstract⟩, ⟨3, catTitle, catAbstract⟩] citation0
      (annLine ["2", "T", "4", "7", "cat", "ANIMAL"])
      [annLine ["3", "T", "4", "7", "cat", "ANIMAL"]] ⟨[], []⟩ (by decide)).1 (by decide)).1⟩

/-- C13 as stated fails: with documents 1 and 3 (both titled
`The cat sat.`) and the annotation rows of ids 1, 2 and 3, each
`T 4:7 cat`, the row of id 2 matches no document; the joiner stores it and
never advances, so only the row of document 1 is handed over and printed,
while with the unmatched row removed both rows are handed over and
printed. -/
theorem unmatched_row_blocks_counterexample :
    runHanded (run [⟨1, catTitle, catAbstract⟩, ⟨3, catTitle, catAbstract⟩] citation0
        (stream0 [annLine ["1", "T", "4", "7", "cat", "ANIMAL"],
                  annLine ["2", "T", "4", "7", "cat", "ANIMAL"],
                  annLine ["3", "T", "4", "7", "cat", "ANIMAL"]] ⟨[], []⟩))
        = [(1, annLine ["1", "T", "4", "7", "cat", "ANIMAL"])]
      ∧ runOutput (run [⟨1, catTitle, catAbstract⟩, ⟨3, catTitle, catAbstract⟩] citation0
          (stream0 [annLine ["1", "T", "4", "7", "cat", "ANIMAL"],
                    annLine ["2", "T", "4", "7", "cat", "ANIMAL"],
                    annLine ["3", "T", "4", "7", "cat", "ANIMAL"]] ⟨[], []⟩))
          = [⟨1, 84, 4, 7, some (bytes "cat"), some (bytes "ANIMAL")⟩]
      ∧ runOutput (run [⟨1, catTitle, catAbstract⟩, ⟨3, catTitle, catAbstract⟩] citation0
          (stream0 [annLine ["1", "T", "4", "7", "cat", "ANIMAL"],
                    annLine ["3", "T", "4", "7", "cat", "ANIMAL"]] ⟨[], []⟩))
          = [⟨1, 84, 4, 7, some (bytes "cat"), some (bytes "ANIMAL")⟩,
             ⟨3, 84, 4, 7, some (bytes "cat"), some (bytes "ANIMAL")⟩]
      ∧ runStream (run [⟨1, catTitle, catAbstract⟩, ⟨3, catTitle, catAbstract⟩] citation0
          (stream0 [annLine ["1", "T", "4", "7", "cat", "ANIMAL"],
                    annLine ["2", "T", "4", "7", "cat", "ANIMAL"],
                    annLine ["3", "T", "4", "7", "cat", "ANIMAL"]] ⟨[], []⟩))
          (stream0 [] ⟨[], []⟩)
          = ⟨[annLine ["3", "T", "4", "7", "cat", "ANIMAL"]],
             some (annLine ["2", "T", "4", "7", "cat", "ANIMAL"]), ⟨[], []⟩⟩ := by
  refine ⟨by decide, by decide, by decide, by decide⟩

/-- The joiner on the runs that end, when the buffer `getline` allocates at
the end of the file reads as the id of no document: for documents with
ascending ids and annotation rows sorted by id, each with the id of some
document, every row of the annotation file is handed to the tokenizer
exactly once, in the order of the file, while the document with the id of
the row is current; no row is handed over while a document without rows is
current. -/
theorem run_hands_rows_once (docs : List DocRow) (anns : List AnnLine) (fresh : AnnLine)
    (c c1 : citation) (st1 : AnnStream) (hs : List Handed)
    (hdocs : (docs.map (fun d => d.id)).Pairwise (· < ·))
    (hfresh : ∀ d ∈ docs, lineId fresh ≠ d.id)
    (hsorted : (anns.map lineId).Pairwise (· ≤ ·))
    (hmem : ∀ l ∈ anns, lineId l ∈ docs.map (fun d => d.id))
    (h : run docs c (stream0 anns fresh) = .ok (c1, st1, hs)) :
    hs.map (fun x => (x.doc, x.line)) = anns.map (fun l => (lineId l, l))
      ∧ hs.map (fun x => x.line) = anns
      ∧ (∀ x ∈ hs, x.doc = lineId x.line)
      ∧ (∀ d, (∀ l ∈ anns, lineId l ≠ d) → ∀ x ∈ hs, x.doc ≠ d) := by
  have hmain := run_join docs c (stream0 anns fresh) anns c1 st1 hs hdocs hfresh
    (Or.inl ⟨rfl, rfl⟩) hsorted hmem h
  have hlines : hs.map (fun x => x.line) = anns := by
    have := congrArg (List.map Prod.snd) hmain
    rw [List.map_map, List.map_map] at this
    have e1 : (Prod.snd ∘ fun (x : Handed) => (x.doc, x.line)) = fun x => x.line := rfl
    have e2 : (Prod.snd ∘ fun (l : AnnLine) => (lineId l, l)) = id := rfl
    rw [e1, e2, List.map_id] at this
    exact this
  have hdoc : ∀ x ∈ hs, x.doc = lineId x.line := by
    intro x hx
    have h1 : (x.doc, x.line) ∈ hs.map (fun x => (x.doc, x.line)) :=
      List.mem_map_of_mem _ hx
    rw [hmain] at h1
    obtain ⟨l, _, hl2⟩ := List.mem_map.1 h1
    simp only [Prod.mk.injEq] at hl2
    rw [← hl2.1, hl2.2]
  refine ⟨hmain, hlines, hdoc, ?_⟩
  intro d hd x hx
  rw [hdoc x hx]
  apply hd
  rw [← hlines]
  exact List.mem_map_of_mem _ hx

/-- C14 fails in the program, in two ways.

A quote (or class) field with leading whitespace: `trim` returns a pointer
past the whitespace (line 116), `anncol` stores it (line 317) and `annrow`
passes it to `free` (line 260).  In document 1 the row
`1 \t T \t 0 \t 3 \t " The" \t DET`, whose quote field is quoted and so
reaches `anncol` with its leading space, is handed over, accepted and
printed, and the program stops in that `free`; the row that follows it in
the annotation file is never handed over.  Without the leading space both
rows are handed over.

The end of the annotation file: when the stored row is the last row of
the file, the `getline` of line 404 allocates a buffer (`chars` is `0`),
meets the end of the file and writes nothing; `txtrow` stores that buffer
(line 407) and tests `atol(line) == c->id` on it for the next document
(lines 389 and 398).  With documents 1, 2 and 3 and rows for 1 and 2, the
stored line after document 2 is the unwritten buffer; if its bytes read as
a row of id 3, that row, which is in no file, is handed over and printed
for document 3; if they read as an empty string, nothing is. -/
theorem run_hands_rows_defects :
    anncols (["1", "T", "0", "3", " The", "DET"].map bytes) (document 1 catTitle catAbstract)
        = .ok { document 1 catTitle catAbstract with
                  section_ := 84, start := 0, end_ := 3, quote := some (bytes "The"),
                  class_ := some (bytes "DET"), quote_lead := 1 }
      ∧ (annrow { document 1 catTitle catAbstract with
                section_ := 84, start := 0, end_ := 3, quote := some (bytes "The"),
                class_ := some (bytes "DET"), quote_lead := 1 }).printed
        = [⟨1, 84, 0, 3, some (bytes "The"), some (bytes "DET")⟩]
      ∧ (annrow { document 1 catTitle catAbstract with
                section_ := 84, start := 0, end_ := 3, quote := some (bytes "The"),
                class_ := some (bytes "DET"), quote_lead := 1 }).stop = some .invalidFree
      ∧ runStop (run [⟨1, catTitle, catAbstract⟩] citation0
          (stream0 [⟨bytes "1\tT\t0\t3\t\x22 The\x22\tDET\n",
                      ["1", "T", "0", "3", " The", "DET"].map bytes⟩,
                    annLine ["1", "T", "4", "7", "cat", "ANIMAL"]] ⟨[], []⟩))
          = some (.fault .invalidFree)
      ∧ runHanded (run [⟨1, catTitle, catAbstract⟩] citation0
          (stream0 [annLine ["1", "T", "0", "3", "The", "DET"],
                    annLine ["1", "T", "4", "7", "cat", "ANIMAL"]] ⟨[], []⟩))
          = [(1, annLine ["1", "T", "0", "3", "The", "DET"]),
             (1, annLine ["1", "T", "4", "7", "cat", "ANIMAL"])]
      ∧ runStream (run [⟨1, catTitle, catAbstract⟩, ⟨2, catTitle, catAbstract⟩] citation0
          (stream0 [annLine ["1", "T", "0", "3", "The", "DET"],
                    annLine ["2", "T", "4", "7", "cat", "ANIMAL"]]
            (annLine ["3", "T", "8", "11", "sat", "VERB"])))
          (stream0 [] ⟨[], []⟩)
          = ⟨[], some (annLine ["3", "T", "8", "11", "sat", "VERB"]),
             annLine ["3", "T", "8", "11", "sat", "VERB"]⟩
      ∧ runHanded (run [⟨1, catTitle, catAbstract⟩, ⟨2, catTitle, catAbstract⟩,
            ⟨3, catTitle, catAbstract⟩] citation0
          (stream0 [annLine ["1", "T", "0", "3", "The", "DET"],
                    annLine ["2", "T", "4", "7", "cat", "ANIMAL"]]
            (annLine ["3", "T", "8", "11", "sat", "VERB"])))
          = [(1, annLine ["1", "T", "0", "3", "The", "DET"]),
             (2, annLine ["2", "T", "4", "7", "cat", "ANIMAL"]),
             (3, annLine ["3", "T", "8", "11", "sat", "VERB"])]
      ∧ runOutput (run [⟨1, catTitle, catAbstract⟩, ⟨2, catTitle, catAbstract⟩,
            ⟨3, catTitle, catAbstract⟩] citation0
          (stream0 [annLine ["1", "T", "0", "3", "The", "DET"],
                    annLine ["2", "T", "4", "7", "cat", "ANIMAL"]]
            (annLine ["3", "T", "8", "11", "sat", "VERB"])))
          = [⟨1, 84, 0, 3, some (bytes "The"), some (bytes "DET")⟩,
             ⟨2, 84, 4, 7, some (bytes "cat"), some (bytes "ANIMAL")⟩,
             ⟨3, 84, 8, 11, some (bytes "sat"), some (bytes "VERB")⟩]
      ∧ runHanded (run [⟨1, catTitle, catAbstract⟩, ⟨2, catTitle, catAbstract⟩,
            ⟨3, catTitle, catAbstract⟩] citation0
          (stream0 [annLine ["1", "T", "0", "3", "The", "DET"],
                    annLine ["2", "T", "4", "7", "cat", "ANIMAL"]] ⟨[], []⟩))
          = [(1, annLine ["1", "T", "0", "3", "The", "DET"]),
             (2, annLine ["2", "T", "4", "7", "cat", "ANIMAL"])] := by
  refine ⟨rfl, by decide, by decide, by decide, by decide, by decide, by decide, by decide,
    by decide⟩

/-! ## Reads inside the buffers -/

theorem strlen_le_length (s : List Nat) : strlen s ≤ s.length := by
  unfold strlen
  induction s with
  | nil => simp [cstr]
  | cons b rest ih =>
    simp only [cstr]
    split
    · simp
    · simp only [List.length_cons]; omega

theorem offsetsFrom_bounds_strlen (s : List Nat) (i : Int) :
    ∀ x ∈ offsetsFrom s i, i ≤ x ∧ x ≤ i + strlen s := by
  induction s generalizing i with
  | nil => intro x hx; simp [offsetsFrom] at hx; subst hx; simp
  | cons b rest ih =>
    intro x hx
    simp only [offsetsFrom] at hx
    by_cases hb : b = 0
    · simp only [hb, if_true, List.mem_singleton] at hx
      subst hx
      simp
    · have hlen : strlen (b :: rest) = strlen rest + 1 := by simp [strlen, cstr, hb]
      rw [hlen]
      simp only [hb, if_false] at hx
      push_cast
      split at hx
      · rcases List.mem_cons.1 hx with h | h
        · subst h; omega
        · have := ih (i + 1) x h; omega
      · have := ih (i + 1) x hx; omega

theorem readText_strlen (text : List Nat) : readText text (strlen text) = some 0 := by
  induction text with
  | nil => simp [readText, strlen, cstr]
  | cons b rest ih =>
    by_cases hb : b = 0
    · simp [readText, strlen, cstr, hb]
    · have hlen : strlen (b :: rest) = strlen rest + 1 := by simp [strlen, cstr, hb]
      rw [hlen]
      have hle := strlen_le_length rest
      unfold readText at ih ⊢
      rw [if_neg (by omega)] at ih ⊢
      simp only [Int.toNat_ofNat, List.length_cons] at ih ⊢
      by_cases hlt : strlen rest < rest.length
      · rw [if_pos hlt] at ih
        rw [if_pos (by omega)]
        simpa using ih
      · rw [if_neg hlt] at ih
        rw [if_neg (by omega)]
        have : strlen rest = rest.length := by omega
        simp [this]

theorem getD_ne_zero_of_lt_strlen (q : List Nat) (i : Nat) (h : i < strlen q) :
    q.getD i 0 ≠ 0 := by
  induction q generalizing i with
  | nil => simp [strlen, cstr] at h
  | cons b rest ih =>
    by_cases hb : b = 0
    · simp [strlen, cstr, hb] at h
    · have hlen : strlen (b :: rest) = strlen rest + 1 := by simp [strlen, cstr, hb]
      cases i with
      | zero => simpa using hb
      | succ i =>
        simp only [List.getD_cons_succ]
        exact ih i (by omega)

/-- The table of a text: every index in `[0, char_count]` holds a byte
position in `[0, byte_length]`. -/
theorem readOffsets_utf8offsets (text : List Nat) (k : Int) (h0 : 0 ≤ k)
    (h1 : k ≤ utf8strlen text) :
    ∃ idx, readOffsets (utf8offsets text) k = some idx ∧ 0 ≤ idx ∧ idx ≤ strlen text := by
  have hlen : (utf8offsets text).length = utf8strlen text + 1 := by
    rw [utf8offsets_eq, length_offsetsFrom]
  have hk : k.toNat < (utf8offsets text).length := by omega
  have hmem : (utf8offsets text)[k.toNat] ∈ offsetsFrom text 0 := by
    rw [← utf8offsets_eq]; exact List.getElem_mem _
  have hb := offsetsFrom_bounds_strlen text 0 _ hmem
  refine ⟨(utf8offsets text)[k.toNat], ?_, by omega, by omega⟩
  unfold readOffsets
  rw [if_pos h0]
  simp [List.getElem?_eq_getElem hk]

theorem trimLeadLoop_trace (text : List Nat) (offsets : List Int) (n p e : Int) (fuel : Nat)
    (i : Int)
    (htab : ∀ k, 0 ≤ k → k ≤ n → ∃ idx, readOffsets offsets k = some idx ∧ 0 ≤ idx ∧ idx ≤ p)
    (hi : 0 ≤ i) (he : e ≤ n) :
    ∀ ev ∈ (trimLeadLoop text offsets e fuel i).2, readInBounds n p ev := by
  induction fuel generalizing i with
  | zero =>
    simp only [trimLeadLoop]
    split <;> simp
  | succ fuel ih =>
    simp only [trimLeadLoop]
    split
    · rename_i hlt
      obtain ⟨idx, hidx, hb0, hb1⟩ := htab i hi (by omega)
      have hro : readInBounds n p (.offsetsRead i) := ⟨hi, by omega⟩
      have hrt : readInBounds n p (.textRead idx) := ⟨hb0, hb1⟩
      simp only [hidx]
      split
      · intro ev hev
        simp only [List.mem_cons, List.mem_singleton, List.not_mem_nil, or_false] at hev
        rcases hev with h | h <;> subst h <;> assumption
      · split
        · intro ev hev
          simp only [List.mem_cons, List.mem_singleton, List.not_mem_nil, or_false] at hev
          rcases hev with h | h <;> subst h <;> assumption
        · intro ev hev
          simp only [List.cons_append, List.nil_append, List.mem_cons] at hev
          rcases hev with h | h | h | h
          · subst h; exact hro
          · subst h; exact hrt
          · subst h; trivial
          · exact ih (i + 1) (by omega) ev h
    · simp

theorem trimTrailLoop_trace (text : List Nat) (offsets : List Int) (n p s : Int) (fuel : Nat)
    (i : Int)
    (htab : ∀ k, 0 ≤ k → k ≤ n → ∃ idx, readOffsets offsets k = some idx ∧ 0 ≤ idx ∧ idx ≤ p)
    (hs : 0 ≤ s) (hi : i ≤ n) :
    ∀ ev ∈ (trimTrailLoop text offsets s fuel i).2, readInBounds n p ev := by
  induction fuel generalizing i with
  | zero =>
    simp only [trimTrailLoop]
    split <;> simp
  | succ fuel ih =>
    simp only [trimTrailLoop]
    split
    · rename_i hge
      obtain ⟨idx, hidx, hb0, hb1⟩ := htab i (by omega) hi
      have hro : readInBounds n p (.offsetsRead i) := ⟨by omega, hi⟩
      have hrt : readInBounds n p (.textRead idx) := ⟨hb0, hb1⟩
      simp only [hidx]
      split
      · intro ev hev
        simp only [List.mem_cons, List.mem_singleton, List.not_mem_nil, or_false] at hev
        rcases hev with h | h <;> subst h <;> assumption
      · split
        · intro ev hev
          simp only [List.mem_cons, List.mem_singleton, List.not_mem_nil, or_false] at hev
          rcases hev with h | h <;> subst h <;> assumption
        · intro ev hev
          simp only [List.cons_append, List.nil_append, List.mem_cons] at hev
          rcases hev with h | h | h | h
          · subst h; exact hro
          · subst h; exact hrt
          · subst h; trivial
          · exact ih (i - 1) (by omega) ev h
    · simp

theorem checkTrim_trace (text : List Nat) (offsets : List Int) (n p s e : Int)
    (htab : ∀ k, 0 ≤ k → k ≤ n → ∃ idx, readOffsets offsets k = some idx ∧ 0 ≤ idx ∧ idx ≤ p)
    (hs : 0 ≤ s) (he : e ≤ n) :
    ∀ ev ∈ (checkTrim text offsets s e).2, readInBounds n p ev := by
  have h1 := trimLeadLoop_trace text offsets n p e (e - s).toNat s htab hs he
  unfold checkTrim
  simp only
  cases hr : (trimLeadLoop text offsets e (e - s).toNat s).1 with
  | error f => simpa using h1
  | ok r1 =>
    simp only
    obtain ⟨a1, _⟩ := trimLeadLoop_ok _ _ _ _ _ _ hr
    have h2 := trimTrailLoop_trace text offsets n p r1 (e - r1).toNat (e - 1) htab
      (by omega) (by omega)
    cases hr2 : (trimTrailLoop text offsets r1 (e - r1).toNat (e - 1)).1 with
    | error f =>
      intro ev hev
      rcases List.mem_append.1 hev with h | h
      · exact h1 ev h
      · exact h2 ev h
    | ok r2 =>
      intro ev hev
      rcases List.mem_append.1 hev with h | h
      · exact h1 ev h
      · exact h2 ev h

/-- The byte comparison stops no later than the terminating NUL of the
text: every byte of the quote it compares is not NUL. -/
theorem contentLoop_trace (quote text : List Nat) (n idx : Int) (fuel i : Nat)
    (h0 : 0 ≤ idx) (hi : idx + (i : Int) ≤ strlen text) (hq : i + fuel ≤ strlen quote) :
    (∀ ev ∈ (contentLoop quote text idx fuel i).2, readInBounds n (strlen text) ev)
      ∧ ∀ f, (contentLoop quote text idx fuel i).1 ≠ .fault f := by
  induction fuel generalizing i with
  | zero => simp [contentLoop]
  | succ fuel ih =>
    obtain ⟨t, ht⟩ := readText_some text (idx + (i : Int)) (by omega)
      (by have := strlen_le_length text; omega)
    have hrt : readInBounds n (strlen text) (.textRead (idx + (i : Int))) := ⟨by omega, hi⟩
    simp only [contentLoop, ht]
    by_cases hne : quote.getD i 0 = t
    · simp only [hne, ne_eq, not_true_eq_false, if_false]
      have hnz := getD_ne_zero_of_lt_strlen quote i (by omega)
      have hlt : idx + (i : Int) ≠ strlen text := by
        intro heq
        rw [heq, readText_strlen] at ht
        simp only [Option.some.injEq] at ht
        rw [hne] at hnz
        exact hnz ht.symm
      obtain ⟨a1, a2⟩ := ih (i + 1) (by push_cast; omega) (by omega)
      refine ⟨?_, a2⟩
      intro ev hev
      rcases List.mem_cons.1 hev with h | h
      · subst h; exact hrt
      · exact a1 ev h
    · simp only [ne_eq, hne, not_false_eq_true, if_true]
      refine ⟨?_, by simp⟩
      intro ev hev
      simp only [List.mem_cons, List.mem_singleton, List.not_mem_nil, or_false] at hev
      rcases hev with h | h
      · subst h; exact hrt
      · subst h; trivial

theorem overlapLoop_trace (sec : Nat) (s e : Int) (items : List offset) (n p : Int) :
    (∀ ev ∈ (overlapLoop sec s e items).2, readInBounds n p ev)
      ∧ ∀ f, (overlapLoop sec s e items).1 ≠ .fault f := by
  induction items with
  | nil => simp [overlapLoop]
  | cons off rest ih =>
    simp only [overlapLoop]
    repeat' split
    all_goals first
      | exact ih
      | (refine ⟨?_, by simp⟩
         intro ev hev
         simp only [List.mem_cons, List.mem_singleton, List.not_mem_nil, or_false] at hev
         rcases hev with h | h <;> subst h <;> trivial)
      | (refine ⟨?_, ih.2⟩
         intro ev hev
         rcases List.mem_cons.1 hev with h | h
         · subst h; trivial
         · exact ih.1 ev h)

/-- C18: for every text with its offset table, every quote and every
candidate with `0 <= start <= end <= char_count(text)`, `check` has no
undefined behaviour and every lookup it makes is in bounds: the offset
table is indexed only in `[0, char_count]` and the text is read only at
byte positions in `[0, byte_length(text)]`, the terminating NUL included;
so the byte comparison stops no later than the NUL of the text, also when
the quote is longer than what is left of the text. -/
theorem check_reads_in_bounds (c : citation) (quote : List Nat) (hq : c.quote = some quote)
    (htab : sectionOffsets c = utf8offsets (sectionText c))
    (h0 : 0 ≤ c.start) (h1 : c.start ≤ c.end_) (h2 : c.end_ ≤ utf8strlen (sectionText c)) :
    (∀ f, (check c).verdict ≠ .fault f)
      ∧ ∀ ev ∈ (check c).trace,
          readInBounds (utf8strlen (sectionText c)) (strlen (sectionText c)) ev := by
  have htable : ∀ k, 0 ≤ k → k ≤ (utf8strlen (sectionText c) : Int) →
      ∃ idx, readOffsets (sectionOffsets c) k = some idx ∧ 0 ≤ idx
        ∧ idx ≤ (strlen (sectionText c) : Int) := by
    intro k hk0 hk1
    rw [htab]
    exact readOffsets_utf8offsets _ k hk0 hk1
  have htr := checkTrim_trace (sectionText c) (sectionOffsets c) (utf8strlen (sectionText c))
    (strlen (sectionText c)) c.start c.end_ htable h0 h2
  obtain ⟨s1, e1, ht⟩ := checkTrim_total (sectionText c) (sectionOffsets c) c.start c.end_
    (fun k hk1 hk2 => by
      rw [htab]
      exact byteAt_utf8offsets _ k (by omega) (by omega))
  obtain ⟨a1, _⟩ := checkTrim_ok _ _ _ _ _ _ ht
  obtain ⟨b1, b2, b3⟩ := a1 h1
  obtain ⟨idx, hidx, hi0, hi1⟩ := htable s1 (by omega) (by omega)
  have hro : readInBounds (utf8strlen (sectionText c)) (strlen (sectionText c))
      (.offsetsRead s1) := ⟨by omega, by omega⟩
  obtain ⟨m1, m2⟩ := contentLoop_trace quote (sectionText c) (utf8strlen (sectionText c)) idx
    (strlen quote) 0 hi0 (by simpa using hi1) (by omega)
  obtain ⟨o1, o2⟩ := overlapLoop_trace c.section_ s1 e1 c.offset_list.tail
    (utf8strlen (sectionText c)) (strlen (sectionText c))
  simp only [check, hq, ht]
  split
  · refine ⟨by simp, ?_⟩
    intro ev hev
    rcases List.mem_append.1 hev with h | h
    · exact htr ev h
    · simp only [List.mem_singleton] at h
      subst h; trivial
  · simp only [hidx]
    cases hm : (contentLoop quote (sectionText c) idx (strlen quote) 0).1 with
    | accept =>
      simp only
      refine ⟨o2, ?_⟩
      intro ev hev
      simp only [List.append_assoc, List.mem_append, List.mem_singleton] at hev
      rcases hev with h | h | h | h
      · exact htr ev h
      · subst h; exact hro
      · exact m1 ev h
      · exact o1 ev h
    | reject why =>
      simp only
      refine ⟨by simp, ?_⟩
      intro ev hev
      simp only [List.append_assoc, List.mem_append, List.mem_singleton] at hev
      rcases hev with h | h | h
      · exact htr ev h
      · subst h; exact hro
      · exact m1 ev h
    | fault f => exact absurd hm (m2 f)

/-- C18, at the candidate `T 9:12` of `The cat sat.` with the quote `at.`
followed by two continuation bytes: three characters, five bytes, two more
than are left of the text; the comparison stops at the NUL, byte 12. -/
theorem check_reads_in_bounds_witness :
    (check (withCandidate (document 5 catTitle catAbstract) 84 9 12
        [97, 116, 46, 0x80, 0x80] [])).trace
        = [.offsetsRead 9, .textRead 9, .offsetsRead 11, .textRead 11, .offsetsRead 9,
           .textRead 9, .textRead 10, .textRead 11, .textRead 12,
           .log .warning (.byteMismatch 3 0x80 0)]
      ∧ ∀ f, (check (withCandidate (document 5 catTitle catAbstract) 84 9 12
          [97, 116, 46, 0x80, 0x80] [])).verdict ≠ .fault f :=
  ⟨by decide,
    (check_reads_in_bounds
      (withCandidate (document 5 catTitle catAbstract) 84 9 12 [97, 116, 46, 0x80, 0x80] [])
      [97, 116, 46, 0x80, 0x80] rfl (by decide) (by decide) (by decide) (by decide)).1⟩

/-! ## The quote inside the span -/

theorem utf8strlen_cons (b : Nat) (rest : List Nat) (hb : b ≠ 0) :
    utf8strlen (b :: rest) = (if isStart b then 1 else 0) + utf8strlen rest := by
  simp only [utf8strlen, utf8strlenLoop, hb, if_false]
  split
  · have := utf8strlenLoop_add rest (0 + 1)
    omega
  · simp

theorem utf8strlen_cstr (s : List Nat) : utf8strlen s = (cstr s).countP isStart := by
  induction s with
  | nil => simp [utf8strlen, utf8strlenLoop, cstr]
  | cons b rest ih =>
    by_cases hb : b = 0
    · simp [utf8strlen, utf8strlenLoop, cstr, hb]
    · rw [utf8strlen_cons b rest hb]
      simp only [cstr, hb, if_false, List.countP_cons, ih]
      omega

theorem strlen_cons (b : Nat) (rest : List Nat) (hb : b ≠ 0) :
    strlen (b :: rest) = strlen rest + 1 := by
  simp [strlen, cstr, hb]

/-- Entry `k` of the table of a text is the byte position `m` before which
the text has exactly `k` character starts; for `k` below the character
count a character starts at `m`, and the last entry is the byte length. -/
theorem offsetsFrom_entry (s : List Nat) (i : Int) (k : Nat) (x : Int)
    (h : (offsetsFrom s i)[k]? = some x) :
    ∃ m : Nat, x = i + m ∧ m ≤ strlen s ∧ ((cstr s).take m).countP isStart = k
      ∧ (k < utf8strlen s → m < strlen s ∧ isStart ((cstr s).getD m 0) = true)
      ∧ (k = utf8strlen s → m = strlen s) := by
  induction s generalizing i k x with
  | nil =>
    simp only [offsetsFrom] at h
    cases k with
    | zero =>
      simp only [List.getElem?_cons_zero, Option.some.injEq] at h
      exact ⟨0, by simp [h.symm], by simp, by simp, by simp [utf8strlen, utf8strlenLoop],
        by simp [strlen, cstr]⟩
    | succ k => simp at h
  | cons b rest ih =>
    by_cases hb : b = 0
    · simp only [offsetsFrom, hb, if_true] at h
      cases k with
      | zero =>
        simp only [List.getElem?_cons_zero, Option.some.injEq] at h
        exact ⟨0, by simp [h.symm], by simp, by simp,
          by simp [utf8strlen, utf8strlenLoop, hb], by simp [strlen, cstr, hb]⟩
      | succ k => simp at h
    · have hlen := strlen_cons b rest hb
      have hcnt := utf8strlen_cons b rest hb
      have hcs : cstr (b :: rest) = b :: cstr rest := by simp [cstr, hb]
      simp only [offsetsFrom, hb, if_false] at h
      by_cases hs : isStart b = true
      · simp only [hs, if_true] at h hcnt
        cases k with
        | zero =>
          simp only [List.getElem?_cons_zero, Option.some.injEq] at h
          refine ⟨0, by simp [h.symm], by omega, by simp, fun _ => ⟨by omega, ?_⟩,
            fun hk => by omega⟩
          simp [hcs, hs]
        | succ k =>
          simp only [List.getElem?_cons_succ] at h
          obtain ⟨m, h1, h2, h3, h4, h5⟩ := ih (i + 1) k x h
          refine ⟨m + 1, by push_cast; omega, by omega, ?_, ?_, ?_⟩
          · simp [hcs, hs, h3]
          · intro hk
            obtain ⟨g1, g2⟩ := h4 (by omega)
            exact ⟨by omega, by simpa [hcs] using g2⟩
          · intro hk
            have := h5 (by omega)
            omega
      · have hs' : isStart b = false := by simpa using hs
        simp only [hs', Bool.false_eq_true, if_false, Nat.zero_add] at h hcnt
        obtain ⟨m, h1, h2, h3, h4, h5⟩ := ih (i + 1) k x h
        refine ⟨m + 1, by push_cast; omega, by omega, ?_, ?_, ?_⟩
        · simp [hcs, hs, h3]
        · intro hk
          obtain ⟨g1, g2⟩ := h4 (by omega)
          exact ⟨by omega, by simpa [hcs] using g2⟩
        · intro hk
          have := h5 (by omega)
          omega

theorem readOffsets_entry (text : List Nat) (k : Int) (x : Int)
    (h : readOffsets (utf8offsets text) k = some x) :
    0 ≤ k ∧ ∃ m : Nat, x = m ∧ m ≤ strlen text
      ∧ ((cstr text).take m).countP isStart = k.toNat
      ∧ (k.toNat < utf8strlen text → m < strlen text ∧ isStart ((cstr text).getD m 0) = true)
      ∧ (k.toNat = utf8strlen text → m = strlen text) := by
  unfold readOffsets at h
  split at h
  · rename_i hk
    refine ⟨hk, ?_⟩
    rw [utf8offsets_eq] at h
    have h' : (offsetsFrom text 0)[k.toNat]? = some x := by simpa using h
    obtain ⟨m, h1, h2, h3, h4, h5⟩ := offsetsFrom_entry text 0 k.toNat x h'
    exact ⟨m, by omega, h2, h3, h4, h5⟩
  · simp at h

theorem getD_cstr (s : List Nat) (m : Nat) (h : m < strlen s) :
    (cstr s).getD m 0 = s.getD m 0 := by
  induction s generalizing m with
  | nil => simp [strlen, cstr] at h
  | cons b rest ih =>
    by_cases hb : b = 0
    · simp [strlen, cstr, hb] at h
    · have hlen := strlen_cons b rest hb
      have hcs : cstr (b :: rest) = b :: cstr rest := by simp [cstr, hb]
      cases m with
      | zero => simp [hcs]
      | succ m =>
        simp only [hcs, List.getD_cons_succ]
        exact ih m (by omega)

theorem readText_lt (text : List Nat) (m : Nat) (h : m < text.length) :
    readText text m = some (text.getD m 0) := by
  unfold readText
  rw [if_neg (by omega)]
  simp only [Int.toNat_ofNat]
  rw [if_pos h]
  simp [List.getD_eq_getElem _ _ h, List.getElem?_eq_getElem h]

/-- A quote found in the text from byte `a` on, `a` not beyond the NUL of
the text, lies before that NUL, and its bytes are those of the text. -/
theorem bytesMatch_cstr (quote text : List Nat) (a : Nat) (ha : a ≤ strlen text)
    (h : bytesMatch quote text a) :
    a + strlen quote ≤ strlen text
      ∧ cstr quote = ((cstr text).drop a).take (strlen quote) := by
  have hle := strlen_le_length text
  have hpos : ∀ j, j ≤ strlen quote → a + j ≤ strlen text := by
    intro j
    induction j with
    | zero => intro _; omega
    | succ j ih =>
      intro hj
      have h1 := ih (by omega)
      have h2 := h j (by omega)
      have hnz := getD_ne_zero_of_lt_strlen quote j (by omega)
      by_contra hcon
      have heq : a + j = strlen text := by omega
      have h3 : ((a : Nat) : Int) + ((j : Nat) : Int) = ((strlen text : Nat) : Int) := by
        exact_mod_cast heq
      rw [h3, readText_strlen] at h2
      simp only [Option.some.injEq] at h2
      exact hnz h2.symm
  refine ⟨hpos _ (le_refl _), ?_⟩
  apply List.ext_getElem?
  intro j
  by_cases hj : j < strlen quote
  · have h1 := hpos (j + 1) (by omega)
    have h2 := h j hj
    have h3 : ((a : Nat) : Int) + ((j : Nat) : Int) = ((a + j : Nat) : Int) := by push_cast; rfl
    rw [h3, readText_lt text (a + j) (by omega)] at h2
    simp only [Option.some.injEq] at h2
    have hlq : j < (cstr quote).length := hj
    have hlt : a + j < (cstr text).length := by
      show a + j < strlen text
      omega
    rw [List.getElem?_take_of_lt hj, List.getElem?_drop, List.getElem?_eq_getElem hlq,
      List.getElem?_eq_getElem hlt]
    congr 1
    have e1 : (cstr quote)[j] = (cstr quote).getD j 0 := by
      rw [List.getD_eq_getElem _ _ hlq]
    have e2 : (cstr text)[a + j] = (cstr text).getD (a + j) 0 := by
      rw [List.getD_eq_getElem _ _ hlt]
    rw [e1, e2, getD_cstr quote j hj, getD_cstr text (a + j) (by omega)]
    exact h2.symm
  · have hlq : (cstr quote).length ≤ j := by
      show strlen quote ≤ j
      omega
    rw [List.getElem?_eq_none hlq, List.getElem?_take_eq_none (by omega)]

theorem countP_window (t : List Nat) (ma mb len : Nat) (hab : ma ≤ mb) (hb : mb < t.length)
    (hstart : isStart (t.getD mb 0) = true) (hlen : mb - ma < len) :
    (t.take mb).countP isStart + 1
      ≤ (t.take ma).countP isStart + ((t.drop ma).take len).countP isStart := by
  have h1 : t.take mb = t.take ma ++ (t.drop ma).take (mb - ma) := by
    rw [← List.take_add]
    congr 1
    omega
  have h2 : (t.drop ma).take (mb - ma + 1)
      = (t.drop ma).take (mb - ma) ++ [t.getD mb 0] := by
    rw [List.take_succ, List.getElem?_drop]
    have e : ma + (mb - ma) = mb := by omega
    rw [e, List.getElem?_eq_getElem hb, List.getD_eq_getElem _ _ hb]
    rfl
  have h3 := List.Sublist.countP_le (p := isStart)
    (List.take_sublist_take_left (t.drop ma) (show mb - ma + 1 ≤ len by omega))
  rw [h2, List.countP_append] at h3
  rw [h1, List.countP_append]
  simp only [List.countP_cons, List.countP_nil, hstart, if_true] at h3
  omega

/-- The bytes of an accepted quote are those of the text from the first
byte of the trimmed span on, and they end no later than the span: the
quote and the span have the same number of character starts, and a
character starts (or the text ends) where the span ends. -/
theorem quote_in_span (text quote : List Nat) (s e a b : Int)
    (hse : s ≤ e) (ha : readOffsets (utf8offsets text) s = some a)
    (hb : readOffsets (utf8offsets text) e = some b)
    (hlen : e - s = (utf8strlen quote : Int)) (hm : bytesMatch quote text a) :
    ∃ ma mb : Nat, a = ma ∧ b = mb ∧ ma + strlen quote ≤ mb ∧ mb ≤ strlen text
      ∧ cstr quote = ((cstr text).drop ma).take (strlen quote) := by
  obtain ⟨hs0, ma, rfl, a2, a3, a4, a5⟩ := readOffsets_entry text s a ha
  obtain ⟨he0, mb, rfl, b2, b3, b4, b5⟩ := readOffsets_entry text e b hb
  obtain ⟨c1, c2⟩ := bytesMatch_cstr quote text ma a2 hm
  have hcq : (cstr quote).countP isStart = e.toNat - s.toNat := by
    rw [← utf8strlen_cstr]
    omega
  have hab : ma ≤ mb := by
    by_contra hcon
    have hsub := List.Sublist.countP_le (p := isStart)
      (List.take_sublist_take_left (cstr text) (show mb ≤ ma by omega))
    rw [a3, b3] at hsub
    have hes : e = s := by omega
    rw [hes, ha] at hb
    simp only [Option.some.injEq, Nat.cast_inj] at hb
    omega
  refine ⟨ma, mb, rfl, rfl, ?_, b2, c2⟩
  by_contra hcon
  have hlt : mb < strlen text := by omega
  have hne : e.toNat ≠ utf8strlen text := by
    intro h
    have := b5 h
    omega
  have hk : e.toNat < utf8strlen text := by
    have hlen2 : (utf8offsets text).length = utf8strlen text + 1 := by
      rw [utf8offsets_eq, length_offsetsFrom]
    have : e.toNat < (utf8offsets text).length := by
      unfold readOffsets at hb
      rw [if_pos he0] at hb
      by_contra hge
      have hnone : (utf8offsets text)[e.toNat]? = none :=
        List.getElem?_eq_none (by omega)
      simp [hnone] at hb
    omega
  obtain ⟨_, hst⟩ := b4 hk
  have hw := countP_window (cstr text) ma mb (strlen quote) hab hlt hst (by omega)
  rw [a3, b3, ← c2, hcq] at hw
  omega

set_option maxRecDepth 100000 in
theorem leadLen2_aux : ∀ n, n < 256 → leadLen (UInt8.ofNat n &&& 0x1f ||| 0xc0).toNat = 2 := by
  decide

set_option maxRecDepth 100000 in
theorem leadLen3_aux : ∀ n, n < 256 → leadLen (UInt8.ofNat n &&& 0x0f ||| 0xe0).toNat = 3 := by
  decide

set_option maxRecDepth 100000 in
theorem leadLen4_aux : ∀ n, n < 256 → leadLen (UInt8.ofNat n &&& 0x07 ||| 0xf0).toNat = 4 := by
  decide

theorem leadLen2 (v : UInt32) : leadLen (v.toUInt8 &&& 0x1f ||| 0xc0).toNat = 2 := by
  show leadLen (UInt8.ofNat v.toNat &&& 0x1f ||| 0xc0).toNat = 2
  rw [uint8_ofNat_mod]
  exact leadLen2_aux _ (Nat.mod_lt _ (by decide))

theorem leadLen3 (v : UInt32) : leadLen (v.toUInt8 &&& 0x0f ||| 0xe0).toNat = 3 := by
  show leadLen (UInt8.ofNat v.toNat &&& 0x0f ||| 0xe0).toNat = 3
  rw [uint8_ofNat_mod]
  exact leadLen3_aux _ (Nat.mod_lt _ (by decide))

theorem leadLen4 (v : UInt32) : leadLen (v.toUInt8 &&& 0x07 ||| 0xf0).toNat = 4 := by
  show leadLen (UInt8.ofNat v.toNat &&& 0x07 ||| 0xf0).toNat = 4
  rw [uint8_ofNat_mod]
  exact leadLen4_aux _ (Nat.mod_lt _ (by decide))

theorem leadLen1 (v : UInt32) (h : v ≤ 0x7f) : leadLen v.toUInt8.toNat = 1 := by
  have hle : v.toNat ≤ 0x7f := by simpa [UInt32.le_def, BitVec.le_def] using h
  have hv : v.toUInt8.toNat = v.toNat := by
    show (UInt8.ofNat v.toNat).toNat = _
    unfold UInt8.ofNat UInt8.toNat
    simp
    omega
  rw [hv]
  unfold leadLen
  rw [if_pos (by omega)]

/-- The first byte of the encoding of a character tells the number of its
bytes. -/
theorem utf8EncodeChar_leadLen (c : Char) :
    ∃ b0 conts, (String.utf8EncodeChar c).map UInt8.toNat = b0 :: conts
      ∧ conts.length + 1 = leadLen b0 := by
  unfold String.utf8EncodeChar
  simp only
  split
  · rename_i h1
    exact ⟨_, [], rfl, (leadLen1 _ h1).symm⟩
  · split
    · exact ⟨_, _, rfl, (leadLen2 _).symm⟩
    · split
      · exact ⟨_, _, rfl, (leadLen3 _).symm⟩
      · exact ⟨_, _, rfl, (leadLen4 _).symm⟩

theorem utf8_append (xs ys : List Char) : utf8 (xs ++ ys) = utf8 xs ++ utf8 ys := by
  simp [utf8]

/-- A well-formed text that begins with the bytes of another well-formed
text of `n` characters begins with `n` characters that have these bytes. -/
theorem utf8_take_of_append (qs us : List Char) (rest : List Nat)
    (h : utf8 us = utf8 qs ++ rest) (hlen : qs.length ≤ us.length) :
    utf8 qs = utf8 (us.take qs.length) := by
  induction qs generalizing us rest with
  | nil => simp [utf8]
  | cons c qs ih =>
    cases us with
    | nil => simp at hlen
    | cons t us =>
      rw [utf8_cons, utf8_cons, List.append_assoc] at h
      obtain ⟨bt, ct, ht, hlt⟩ := utf8EncodeChar_leadLen t
      obtain ⟨bc, cc, hc, hlc⟩ := utf8EncodeChar_leadLen c
      have hhead : bt = bc := by
        rw [ht, hc] at h
        simp only [List.cons_append, List.cons.injEq] at h
        exact h.1
      have hl : ((String.utf8EncodeChar t).map UInt8.toNat).length
          = ((String.utf8EncodeChar c).map UInt8.toNat).length := by
        rw [ht, hc, List.length_cons, List.length_cons, hlt, hlc, hhead]
      obtain ⟨h1, h2⟩ := List.append_inj h hl
      have := ih us rest h2 (by simpa using hlen)
      rw [utf8_cons, List.length_cons, List.take_succ_cons, utf8_cons, this, h1]

theorem cstr_eq_self (s : List Nat) (h : ∀ b ∈ s, b ≠ 0) : cstr s = s := by
  induction s with
  | nil => rfl
  | cons b rest ih =>
    have hb : b ≠ 0 := h b (List.mem_cons_self _ _)
    simp only [cstr, hb, if_false]
    rw [ih (fun x hx => h x (List.mem_cons_of_mem _ hx))]

theorem utf8_ne_zero (cs : List Char) (h : ∀ c ∈ cs, c.val ≠ 0) : ∀ b ∈ utf8 cs, b ≠ 0 := by
  induction cs with
  | nil => simp [utf8]
  | cons c cs ih =>
    intro b hb
    rw [utf8_cons] at hb
    rcases List.mem_append.1 hb with h1 | h1
    · obtain ⟨b0, conts, heq, hb0, _, hconts⟩ :=
        utf8EncodeChar_shape c (h c (List.mem_cons_self _ _))
      rw [heq] at h1
      rcases List.mem_cons.1 h1 with h2 | h2
      · rw [h2]; exact hb0
      · exact (hconts b h2).1
    · exact ih (fun d hd => h d (List.mem_cons_of_mem _ hd)) b h1

theorem utf8strlen_utf8 (cs : List Char) (h : ∀ c ∈ cs, c.val ≠ 0) :
    utf8strlen (utf8 cs) = cs.length := by
  have h1 := length_offsetsFrom (utf8 cs) 0
  rw [offsetsFrom_utf8 cs 0 h, length_charStarts] at h1
  omega

theorem charStarts_take (cs : List Char) (i : Int) (k : Nat) (hk : k ≤ cs.length) :
    (charStarts cs i)[k]? = some (i + ((utf8 (cs.take k)).length : Int)) := by
  induction cs generalizing i k with
  | nil =>
    have : k = 0 := by simpa using hk
    subst this
    simp [charStarts, utf8]
  | cons c cs ih =>
    cases k with
    | zero => simp [charStarts, utf8]
    | succ k =>
      simp only [charStarts, List.getElem?_cons_succ, List.take_succ_cons]
      rw [ih (i + c.utf8Size) k (by simpa using hk), utf8_cons, List.length_append,
        List.length_map, String.length_utf8EncodeChar]
      congr 1
      push_cast
      omega

theorem cstr_eq_take (s : List Nat) : cstr s = s.take (strlen s) := by
  induction s with
  | nil => rfl
  | cons b rest ih =>
    by_cases hb : b = 0
    · simp [cstr, strlen, hb]
    · rw [strlen_cons b rest hb, List.take_succ_cons, ← ih]
      simp [cstr, hb]

theorem drop_take_cstr (s : List Nat) (a len : Nat) (h : a + len ≤ strlen s) :
    ((cstr s).drop a).take len = (s.drop a).take len := by
  rw [cstr_eq_take, List.drop_take, List.take_take]
  congr 1
  omega

/-- The well-formed case: a quote that is the UTF-8 encoding of `n`
characters and is found at the start of the trimmed span of `n` characters
of a UTF-8 encoded text has exactly the bytes of the span. -/
theorem quote_eq_span_utf8 (tcs qcs : List Char) (s e ma mb len : Nat)
    (ht : ∀ ch ∈ tcs, ch.val ≠ 0) (hse : s ≤ e) (he : e ≤ tcs.length)
    (ha : (utf8offsets (utf8 tcs))[s]? = some (ma : Int))
    (hb : (utf8offsets (utf8 tcs))[e]? = some (mb : Int))
    (hn : qcs.length = e - s) (hlen : len = (utf8 qcs).length)
    (hm : utf8 qcs = ((utf8 tcs).drop ma).take len) : len = mb - ma ∧ ma ≤ mb := by
  rw [utf8offsets_eq, offsetsFrom_utf8 tcs 0 ht] at ha hb
  rw [charStarts_take tcs 0 s (by omega)] at ha
  rw [charStarts_take tcs 0 e he] at hb
  simp only [Int.zero_add, Option.some.injEq, Nat.cast_inj] at ha hb
  have hsplit : utf8 tcs = utf8 (tcs.take s) ++ utf8 (tcs.drop s) := by
    rw [← utf8_append, List.take_append_drop]
  have hdrop : (utf8 tcs).drop ma = utf8 (tcs.drop s) := by
    rw [hsplit]
    exact List.drop_left' ha
  rw [hdrop] at hm
  have happ : utf8 (tcs.drop s) = utf8 qcs ++ (utf8 (tcs.drop s)).drop len := by
    rw [hm, List.take_append_drop]
  have hq := utf8_take_of_append qcs (tcs.drop s) _ happ
    (by rw [List.length_drop]; omega)
  have htake : tcs.take e = tcs.take s ++ (tcs.drop s).take (e - s) := by
    rw [← List.take_add]
    congr 1
    omega
  have hmb : mb = ma + (utf8 qcs).length := by
    rw [← hb, htake, utf8_append, List.length_append, ha, hq, hn]
  omega

/-- C19: whenever `check` accepts a candidate with
`0 <= start <= end <= char_count(text)`, the bytes of the quote are the
first bytes of the trimmed span `text[offsets[start'] .. offsets[end'])`
and `offsets[start'] + byte_length(quote) <= offsets[end']`; and if text
and quote are the UTF-8 encodings of character sequences without U+0000,
the quote is byte for byte equal to the span. -/
theorem accepted_quote_in_span (c : citation) (quote : List Nat) (hq : c.quote = some quote)
    (htab : sectionOffsets c = utf8offsets (sectionText c))
    (h0 : 0 ≤ c.start) (h1 : c.start ≤ c.end_) (h2 : c.end_ ≤ utf8strlen (sectionText c))
    (hacc : (check c).verdict = .accept) :
    ∃ a b : Nat,
      readOffsets (sectionOffsets c) (check c).c.start = some (a : Int)
        ∧ readOffsets (sectionOffsets c) (check c).c.end_ = some (b : Int)
        ∧ a + strlen quote ≤ b
        ∧ cstr quote = ((sectionText c).drop a).take (strlen quote)
        ∧ (∃ rest, ((sectionText c).drop a).take (b - a) = cstr quote ++ rest)
        ∧ (∀ tcs qcs, (∀ ch ∈ tcs, ch.val ≠ 0) → (∀ ch ∈ qcs, ch.val ≠ 0) →
            sectionText c = utf8 tcs → quote = utf8 qcs →
            quote = ((sectionText c).drop a).take (b - a)) := by
  obtain ⟨s1, e1, ht, hlen, ⟨idx, hidx, hm⟩, _⟩ := (check_accept_tail c quote hq).1 hacc
  have hc := check_c_of_trim c quote s1 e1 hq ht
  obtain ⟨a1, _⟩ := checkTrim_ok _ _ _ _ _ _ ht
  obtain ⟨b1, b2, b3⟩ := a1 h1
  rw [htab] at hidx
  obtain ⟨idx2, hidx2, _, _⟩ := readOffsets_utf8offsets (sectionText c) e1 (by omega) (by omega)
  obtain ⟨ma, mb, rfl, rfl, g1, g2, g3⟩ :=
    quote_in_span (sectionText c) quote s1 e1 idx idx2 b2 hidx hidx2 hlen hm
  have g4 : cstr quote = ((sectionText c).drop ma).take (strlen quote) := by
    rw [g3, drop_take_cstr _ _ _ (by omega)]
  refine ⟨ma, mb, by rw [hc, htab]; exact hidx, by rw [hc, htab]; exact hidx2, g1, g4, ?_, ?_⟩
  · refine ⟨(((sectionText c).drop ma).take (mb - ma)).drop (strlen quote), ?_⟩
    have e : ((sectionText c).drop ma).take (strlen quote)
        = (((sectionText c).drop ma).take (mb - ma)).take (strlen quote) := by
      rw [List.take_take]
      congr 1
      omega
    rw [g4, e, List.take_append_drop]
  · intro tcs qcs htc hqc htext hquote
    have hqz := utf8_ne_zero qcs hqc
    have hcq : cstr quote = quote := by
      rw [hquote]; exact cstr_eq_self _ hqz
    have hsl : strlen quote = (utf8 qcs).length := by
      unfold strlen
      rw [hcq, hquote]
    have hn : utf8strlen (sectionText c) = tcs.length := by
      rw [htext]; exact utf8strlen_utf8 tcs htc
    have hnq : utf8strlen quote = qcs.length := by
      rw [hquote]; exact utf8strlen_utf8 qcs hqc
    have hA : (utf8offsets (utf8 tcs))[s1.toNat]? = some (ma : Int) := by
      have := hidx
      unfold readOffsets at this
      rw [if_pos (by omega), htext] at this
      simpa using this
    have hB : (utf8offsets (utf8 tcs))[e1.toNat]? = some (mb : Int) := by
      have := hidx2
      unfold readOffsets at this
      rw [if_pos (by omega), htext] at this
      simpa using this
    have hmq : utf8 qcs = ((utf8 tcs).drop ma).take (strlen quote) := by
      rw [← htext, ← g4, hcq, hquote]
    obtain ⟨k1, k2⟩ := quote_eq_span_utf8 tcs qcs s1.toNat e1.toNat ma mb (strlen quote)
      htc (by omega) (by omega) hA hB (by omega) hsl hmq
    rw [← k1, ← g4, hcq]

/-- C19, at the accepted candidate `T 3:8 cat` of `The cat sat.`: the
trimmed span is 4..7, bytes 4 to 7. -/
theorem accepted_quote_in_span_witness :
    (check (withCandidate (document 5 catTitle catAbstract) 84 3 8 (bytes "cat") [])).verdict
        = .accept
      ∧ ∃ a b : Nat,
          readOffsets (sectionOffsets (withCandidate (document 5 catTitle catAbstract) 84 3 8
              (bytes "cat") []))
            (check (withCandidate (document 5 catTitle catAbstract) 84 3 8
              (bytes "cat") [])).c.start = some (a : Int)
          ∧ readOffsets (sectionOffsets (withCandidate (document 5 catTitle catAbstract) 84 3 8
              (bytes "cat") []))
            (check (withCandidate (document 5 catTitle catAbstract) 84 3 8
              (bytes "cat") [])).c.end_ = some (b : Int)
          ∧ a + strlen (bytes "cat") ≤ b :=
  have h := accepted_quote_in_span
    (withCandidate (document 5 catTitle catAbstract) 84 3 8 (bytes "cat") []) (bytes "cat")
    rfl (by decide) (by decide) (by decide) (by decide) (by decide)
  ⟨by decide, h.choose, h.choose_spec.choose, h.choose_spec.choose_spec.1,
    h.choose_spec.choose_spec.2.1, h.choose_spec.choose_spec.2.2.1⟩

end Chemcheck
